import Mathlib

/-!
Verification of the orchestrator core (saribmah/orchestrator).

This file gives a shallow embedding, in Lean 4, of the parts of the
TypeScript source that the checked claims are about:

* the review-approval predicate and feedback extraction
  (`packages/core/src/agents/codex.ts`),
* the orchestration engine `orchestrate`
  (`packages/core/src/orchestrator.ts`, concatenated after the bus in
  `packages/core/src/bus.ts`),
* the event bus (`packages/core/src/bus.ts`),
* the session queue (`packages/core/src/queue.ts`).

Conventions of the embedding:

* Pure functions become Lean functions with the same name.
* Stateful code is embedded by explicit state passing; every externally
  visible side effect (an emitted event, a `saveState` call, an agent
  invocation) is recorded in an explicit trace so that theorems can
  speak about the order and content of effects.
* External agents are oracles: an `Env` of functions from the invocation
  counter to the returned `{success, output, error}` record.
* `async`/`await` sequencing is direct sequencing; loops are embedded as
  fuel-indexed structural recursion returning `Option` (`none` = the
  fuel bound was insufficient, which never happens for the bounds the
  wrappers pass, and all theorems are stated for runs that return
  `some`).
* Wall-clock ISO timestamp strings are opaque and are omitted from the
  event/state records where nothing in the program reads them back; the
  bus buffer's numeric `Date.now()` timestamps, which the TTL logic does
  read, are embedded as `Int`.
* JavaScript string truthiness (`""` is falsy) is embedded explicitly
  (`optTruthy`); `String.prototype.toUpperCase` is embedded as a
  per-character `Char.toUpper`, which agrees with JavaScript on the
  ASCII needles the program uses; `split`, `join` and `trim` are
  embedded structurally on character lists (`jsSplitNewline`,
  `jsJoinNewline`, `jsTrim`), agreeing with JavaScript on the ASCII
  inputs at issue.
-/

namespace Orch

/-! ## JavaScript string primitives on character lists -/

/-- `containsSeq needle hay`: `needle` occurs as a contiguous subsequence of
`hay`.  This is JavaScript's `hay.includes(needle)` on the character lists. -/
def containsSeq (needle : List Char) : List Char → Bool
  | [] => needle.isEmpty
  | c :: rest => needle.isPrefixOf (c :: rest) || containsSeq needle rest

theorem containsSeq_iff {needle hay : List Char} :
    containsSeq needle hay = true ↔ ∃ l1 l2, hay = l1 ++ needle ++ l2 := by
  induction hay with
  | nil =>
    simp only [containsSeq, List.isEmpty_iff]
    constructor
    · rintro rfl; exact ⟨[], [], rfl⟩
    · rintro ⟨l1, l2, h⟩
      rcases List.append_eq_nil.mp ((List.append_eq_nil.mp h.symm)).1 with ⟨-, h2⟩
      exact h2
  | cons c rest ih =>
    simp only [containsSeq, Bool.or_eq_true, ih, List.isPrefixOf_iff_prefix]
    constructor
    · rintro (⟨tail, htail⟩ | ⟨l1, l2, rfl⟩)
      · exact ⟨[], tail, by simpa using htail.symm⟩
      · exact ⟨c :: l1, l2, rfl⟩
    · rintro ⟨l1, l2, h⟩
      match l1, h with
      | [], h => exact Or.inl ⟨l2, by simpa using h.symm⟩
      | a :: l1, h =>
        simp only [List.cons_append, List.cons.injEq] at h
        exact Or.inr ⟨l1, l2, h.2⟩

/-- JavaScript `s.split("\n")` on a character list. -/
def jsSplitNewline : List Char → List (List Char)
  | [] => [[]]
  | c :: rest =>
    match jsSplitNewline rest with
    | [] => [[]]
    | line :: more => if c = '\n' then [] :: line :: more else (c :: line) :: more

/-- The ASCII part of JavaScript's trimmed whitespace class. -/
def jsWhitespace (c : Char) : Bool :=
  c == ' ' || c == '\t' || c == '\n' || c == '\r' || c == '\x0b' || c == '\x0c'

/-- JavaScript `s.trim()` on a character list. -/
def jsTrim (l : List Char) : List Char :=
  ((l.dropWhile jsWhitespace).reverse.dropWhile jsWhitespace).reverse

/-- JavaScript `lines.join("\n")` on character lists. -/
def jsJoinNewline : List (List Char) → List Char
  | [] => []
  | [line] => line
  | line :: more => line ++ '\n' :: jsJoinNewline more

/-- The claim-side statement "`needle` occurs, case-insensitively, as a
substring of `hay`": `needle` (given upper-case) occurs in the upper-cased
character list of `hay`. -/
def SubstrCI (needle hay : String) : Prop :=
  ∃ l1 l2, hay.toList.map Char.toUpper = l1 ++ needle.toList ++ l2

instance (needle hay : String) : Decidable (SubstrCI needle hay) :=
  decidable_of_iff (containsSeq needle.toList (hay.toList.map Char.toUpper) = true)
    (by unfold SubstrCI; exact containsSeq_iff)

/-- The claim-side statement for one line of reviewer output: the line
contains "APPROVED" case-insensitively. -/
def LineHasApproved (line : List Char) : Prop :=
  ∃ l1 l2, line.map Char.toUpper = l1 ++ "APPROVED".toList ++ l2

instance (line : List Char) : Decidable (LineHasApproved line) :=
  decidable_of_iff (containsSeq "APPROVED".toList (line.map Char.toUpper) = true)
    (by unfold LineHasApproved; exact containsSeq_iff)

/-! ## `isApproved` and `extractFeedback`
(`packages/core/src/agents/codex.ts`, lines 242-261) -/

/-- `isApproved` from `codex.ts`: upper-case the review output and test for
any of the three approval substrings. -/
def isApproved (reviewOutput : String) : Bool :=
  let normalizedOutput := reviewOutput.toList.map Char.toUpper
  containsSeq "APPROVED".toList normalizedOutput ||
    containsSeq "LGTM".toList normalizedOutput ||
    containsSeq "LOOKS GOOD".toList normalizedOutput

/-- `extractFeedback` from `codex.ts`: keep the lines that do not contain
"APPROVED" (case-insensitively) and are not whitespace-only, re-join them,
trim; fall back to the raw output when the trimmed result is empty
(JavaScript `lines.trim() || reviewOutput`). -/
def extractFeedback (reviewOutput : String) : String :=
  let lines := jsJoinNewline ((jsSplitNewline reviewOutput.toList).filter (fun line =>
    !(containsSeq "APPROVED".toList (line.map Char.toUpper)) && !(jsTrim line).isEmpty))
  if (jsTrim lines).isEmpty then reviewOutput else String.mk (jsTrim lines)

/-- The extraction rule exactly as claim C4 words it: remove every line that
contains an approval substring (any of "APPROVED", "LGTM", "LOOKS GOOD",
case-insensitively), keep every other line unchanged; fall back to the raw
input when the removal yields the empty string. -/
def extractFeedbackClaim (s : String) : String :=
  let kept := jsJoinNewline ((jsSplitNewline s.toList).filter (fun line =>
    !(containsSeq "APPROVED".toList (line.map Char.toUpper)) &&
    !(containsSeq "LGTM".toList (line.map Char.toUpper)) &&
    !(containsSeq "LOOKS GOOD".toList (line.map Char.toUpper))))
  if kept.isEmpty then s else String.mk kept

/-- C5: `isApproved` is exactly case-insensitive substring matching against
the three approval markers, and the four inputs named by the claim (including
"not approved yet") all satisfy it. -/
theorem C5_isApproved_characterization :
    (∀ s : String, isApproved s = true ↔
      (SubstrCI "APPROVED" s ∨ SubstrCI "LGTM" s ∨ SubstrCI "LOOKS GOOD" s)) ∧
    isApproved "approved" = true ∧ isApproved "APPROVED" = true ∧
    isApproved "Looks good, ship it" = true ∧ isApproved "not approved yet" = true := by
  refine ⟨fun s => ?_, by decide, by decide, by decide, by decide⟩
  simp only [isApproved, Bool.or_eq_true, containsSeq_iff, SubstrCI]
  exact or_assoc

/-- C4 counterexample: a line consisting of "LGTM" is *not* removed by
`extractFeedback` (the code only tests for "APPROVED"), while the claim's
rule would remove it. -/
theorem C4_counterexample :
    extractFeedback "LGTM\nfix the bug" = "LGTM\nfix the bug" ∧
    extractFeedbackClaim "LGTM\nfix the bug" = "fix the bug" ∧
    extractFeedback "LGTM\nfix the bug" ≠ extractFeedbackClaim "LGTM\nfix the bug" := by
  refine ⟨by decide, by decide, by decide⟩

/-- C4 (amended): `extractFeedback s` keeps exactly the lines of `s` that do
not contain "APPROVED" case-insensitively (lines containing only "LGTM" or
"LOOKS GOOD" are kept) and are not whitespace-only, joins them with newlines
and trims the result, falling back to `s` itself when the trimmed result is
empty. -/
theorem C4_extractFeedback_amended :
    ∀ s : String,
      extractFeedback s =
        (let kept := jsJoinNewline ((jsSplitNewline s.toList).filter
            (fun line => decide (¬ LineHasApproved line ∧ jsTrim line ≠ [])));
         if (jsTrim kept).isEmpty then s else String.mk (jsTrim kept)) := by
  intro s
  have hp : ∀ line : List Char,
      (!(containsSeq "APPROVED".toList (line.map Char.toUpper)) && !(jsTrim line).isEmpty) =
        (decide (¬ LineHasApproved line ∧ jsTrim line ≠ [])) := by
    intro line
    have key : containsSeq "APPROVED".toList (line.map Char.toUpper) =
        decide (LineHasApproved line) := by
      by_cases hA : LineHasApproved line
      · rw [containsSeq_iff.mpr hA, decide_eq_true hA]
      · rcases hb : containsSeq "APPROVED".toList (line.map Char.toUpper) with _ | _
        · rw [decide_eq_false hA]
        · exact absurd (containsSeq_iff.mp hb) hA
    rw [key]
    by_cases hA : LineHasApproved line <;> by_cases hB : jsTrim line = [] <;>
      simp [hA, hB, List.isEmpty_iff]
  simp only [extractFeedback]
  rw [List.filter_congr (fun a _ => hp a)]

/-! ## Engine data model (`packages/core/src/types.ts`) -/

inductive Agent
  | claude
  | codex
  deriving DecidableEq

inductive Role
  | promptGenerator
  | implementer
  | reviewer
  | committer
  deriving DecidableEq

inductive Status
  | prompting
  | implementing
  | reviewing
  | committing
  | approved
  | failed
  | waitingForInput
  deriving DecidableEq

inductive FailedStep
  | prompting
  | implementing
  | reviewing
  deriving DecidableEq

def statusStr : Status → String
  | .prompting => "prompting"
  | .implementing => "implementing"
  | .reviewing => "reviewing"
  | .committing => "committing"
  | .approved => "approved"
  | .failed => "failed"
  | .waitingForInput => "waiting_for_input"

def failedStepStr : FailedStep → String
  | .prompting => "prompting"
  | .implementing => "implementing"
  | .reviewing => "reviewing"

/-- One history entry (`AgentResponse` in `types.ts`; the wall-clock
`timestamp` field is opaque to the program and omitted). -/
structure AgentResponse where
  agent : Agent
  role : Role
  content : String
  iteration : Nat
  deriving DecidableEq

/-- `OrchestrationState` from `types.ts` (`createdAt` and `pendingQuestion`
are opaque to the engine and omitted). -/
structure OrchestrationState where
  id : String
  feature : String
  iteration : Nat
  maxIterations : Nat
  status : Status
  history : List AgentResponse
  workingDir : String
  generatedPrompt : Option String
  lastFailedStep : Option FailedStep
  deriving DecidableEq

structure OrchestratorOptions where
  maxIterations : Nat
  interactive : Bool
  verbose : Bool
  workingDir : String
  deriving DecidableEq

structure AgentResult where
  success : Bool
  output : String
  error : Option String
  deriving DecidableEq

/-- JavaScript truthiness of a `string | undefined` value. -/
def optTruthy : Option String → Bool
  | none => false
  | some s => !(s == "")

/-- JavaScript `o || d` for a `string | undefined` value `o`. -/
def jsOrDefault (o : Option String) (d : String) : String :=
  match o with
  | some s => if s = "" then d else s
  | none => d

inductive ServerEventType
  | session_started
  | status
  | log
  | agent_start
  | agent_complete
  | question
  | iteration
  | complete
  | error
  | ping
  deriving DecidableEq

/-- The `data` payloads the embedded code attaches to events (the TS type is
`unknown`; `payload` is the generic payload used by bus scenarios). -/
inductive EventData
  | logMsg (level message : String)
  | iterationInfo (iteration maxIterations : Nat) (phase : String)
  | agentStart (agent : Agent) (role : Role)
  | agentDone (agent : Agent) (role : Role) (output : String) (success : Bool)
  | errorInfo (message : String) (fatal : Bool)
  | statusInfo (status : Status) (iteration maxIterations : Nat)
  | completeInfo (status : Status) (iterations : Nat)
  | questionInfo (question : String)
  | connected
  | payload (n : Nat)
  deriving DecidableEq

/-- `ServerEvent` from `types.ts`; the ISO `timestamp` string is opaque to
the program and omitted. -/
structure ServerEvent where
  type : ServerEventType
  sessionId : String
  data : EventData
  deriving DecidableEq

/-! ## Engine effect traces -/

/-- All invocation-counter state threaded through a run: how many times each
oracle has been consulted. -/
structure Counters where
  promptGenCount : Nat
  implCount : Nat
  revCount : Nat
  answerCount : Nat
  deriving DecidableEq

def Counters.zero : Counters := ⟨0, 0, 0, 0⟩

/-- One external agent invocation: the role invoked, `state.iteration` at the
moment of the call, and the prompt/feature text passed. -/
structure Invocation where
  role : Role
  iteration : Nat
  input : String
  deriving DecidableEq

/-- The externally visible effects of a run, in order: events handed to
`callbacks.onEvent`, states handed to `saveState`, agent invocations. -/
structure Trace where
  events : List ServerEvent
  saves : List OrchestrationState
  invocations : List Invocation
  deriving DecidableEq

instance : Append Trace :=
  ⟨fun a b => ⟨a.events ++ b.events, a.saves ++ b.saves, a.invocations ++ b.invocations⟩⟩

def Trace.nil : Trace := ⟨[], [], []⟩

def emitT (ty : ServerEventType) (sid : String) (d : EventData) : Trace := ⟨[⟨ty, sid, d⟩], [], []⟩

def saveT (st : OrchestrationState) : Trace := ⟨[], [st], []⟩

def invokeT (role : Role) (iteration : Nat) (input : String) : Trace :=
  ⟨[], [], [⟨role, iteration, input⟩]⟩

@[simp] theorem Trace.append_events (a b : Trace) : (a ++ b).events = a.events ++ b.events := rfl

@[simp] theorem Trace.append_saves (a b : Trace) : (a ++ b).saves = a.saves ++ b.saves := rfl

@[simp] theorem Trace.append_invocations (a b : Trace) :
    (a ++ b).invocations = a.invocations ++ b.invocations := rfl

/-- Oracles for everything outside the engine: the generated session id, the
result of the n-th prompt-generator / implementer / reviewer invocation
(`runCodexPromptGenerator`, `runClaude`, `runCodexReview`), and the answer to
the n-th `onQuestion` callback. -/
structure Env where
  genSessionId : String
  promptGen : Nat → AgentResult
  implementer : Nat → AgentResult
  reviewer : Nat → AgentResult
  answer : Nat → Bool

/-! ## The orchestration engine
(`orchestrate` in `packages/core/src/orchestrator.ts`, lines 208-507 of the
bundled `bus.ts`; the `src/src/orchestrator.ts` variant has the identical
control flow) -/

/-- `buildFeedbackPrompt` from `src/prompts/templates.ts` (bundled in
`state.ts`): the feedback-augmented implementation prompt. -/
def buildFeedbackPrompt (originalFeature feedback : String) (iteration : Nat) : String :=
  "You are continuing to implement a feature. This is iteration " ++ toString iteration ++
    ".\n\nORIGINAL FEATURE REQUEST:\n" ++ originalFeature ++
    "\n\nREVIEWER FEEDBACK FROM PREVIOUS ATTEMPT:\n" ++ feedback ++
    "\n\nPlease address all the feedback points and complete the implementation.\n" ++
    "Do not explain what you are doing - just make the changes."

/-- `state.feature.slice(0, 100)` with the "..." suffix for long features. -/
def featurePreview (feature : String) : String :=
  String.mk (feature.toList.take 100) ++ (if 100 < feature.toList.length then "..." else "")

/-- Result of the prompt-generation step (engine lines 259-323): `ret` is an
early `return state`, `ok` carries the generated (or cached) prompt. -/
inductive PromptRes
  | ret (st : OrchestrationState) (cnt : Counters)
  | ok (gp : String) (st : OrchestrationState) (cnt : Counters)
  deriving DecidableEq

def promptPhase (env : Env) (opts : OrchestratorOptions) (st : OrchestrationState)
    (cnt : Counters) : PromptRes × Trace :=
  if optTruthy st.generatedPrompt then
    (.ok (st.generatedPrompt.getD "") st cnt,
      emitT .log st.id (.logMsg "info" "Using saved prompt from previous session"))
  else
    let t0 := emitT .iteration st.id (.iterationInfo 1 st.maxIterations "PROMPTING") ++
      emitT .agent_start st.id (.agentStart .codex .promptGenerator)
    let st1 := { st with status := .prompting, lastFailedStep := some .prompting }
    let res := env.promptGen cnt.promptGenCount
    let cnt1 := { cnt with promptGenCount := cnt.promptGenCount + 1 }
    let t1 := t0 ++ saveT st1 ++ invokeT .promptGenerator st1.iteration st1.feature ++
      emitT .agent_complete st1.id (.agentDone .codex .promptGenerator res.output res.success)
    if res.success = false then
      let t2 := t1 ++ emitT .error st1.id
        (.errorInfo (jsOrDefault res.error "Failed to generate prompt") true)
      let st2 := { st1 with status := .failed }
      (.ret st2 cnt1, t2 ++ saveT st2)
    else
      let gp := res.output
      let st3 :=
        { st1 with
          generatedPrompt := some gp
          lastFailedStep := none
          history := st1.history ++ [⟨.codex, .promptGenerator, gp, 0⟩] }
      let t2 := t1 ++ saveT st3 ++
        (if opts.verbose then emitT .log st3.id (.logMsg "verbose" gp) else Trace.nil)
      if opts.interactive then
        let proceed := env.answer cnt1.answerCount
        let cnt2 := { cnt1 with answerCount := cnt1.answerCount + 1 }
        if proceed = false then
          let t3 := t2 ++ emitT .log st3.id (.logMsg "info" "Aborted by user")
          let st4 := { st3 with status := .failed }
          (.ret st4 cnt2, t3 ++ saveT st4)
        else
          (.ok gp st3 cnt2, t2)
      else
        (.ok gp st3 cnt1, t2)

/-- Result of one loop sub-step: `ret` is an early `return state`. -/
inductive StepRes
  | ret (st : OrchestrationState) (cnt : Counters)
  | ok (st : OrchestrationState) (cnt : Counters)
  deriving DecidableEq

/-- The implementer invocation inside the implementation step (engine lines
378-412). -/
def implInvoke (env : Env) (opts : OrchestratorOptions) (st2 : OrchestrationState)
    (implementPrompt : String) (cnt : Counters) : StepRes × Trace :=
  let t0 := emitT .agent_start st2.id (.agentStart .claude .implementer) ++
    invokeT .implementer st2.iteration implementPrompt
  let res := env.implementer cnt.implCount
  let cnt1 := { cnt with implCount := cnt.implCount + 1 }
  let t1 := t0 ++ emitT .agent_complete st2.id
    (.agentDone .claude .implementer res.output res.success)
  if res.success = false then
    let t2 := t1 ++ emitT .error st2.id
      (.errorInfo (jsOrDefault res.error "Claude implementation failed") true)
    let st3 := { st2 with status := .failed }
    (.ret st3 cnt1, t2 ++ saveT st3)
  else
    let st4 :=
      { st2 with
        history := st2.history ++ [⟨.claude, .implementer, res.output, st2.iteration⟩]
        lastFailedStep := none }
    (.ok st4 cnt1, t1 ++ saveT st4 ++
      (if opts.verbose then emitT .log st4.id (.logMsg "verbose" res.output) else Trace.nil))

/-- The implementation step of one loop pass (engine lines 344-423): either
the skip-log branch of an exact resume, or the full implementer step with its
optional interactive gate. -/
def implPhase (env : Env) (opts : OrchestratorOptions) (gp : String)
    (st1 : OrchestrationState) (shouldSkip : Bool) (fb : Option String) (cnt : Counters) :
    StepRes × Trace :=
  if shouldSkip then
    (.ok st1 cnt,
      emitT .iteration st1.id (.iterationInfo st1.iteration st1.maxIterations "RESUMING REVIEW") ++
      emitT .log st1.id (.logMsg "info" "Skipping implementation - resuming at review step"))
  else
    let st2 := { st1 with status := .implementing, lastFailedStep := some .implementing }
    let t0 := saveT st2 ++
      emitT .iteration st2.id (.iterationInfo st2.iteration st2.maxIterations "IMPLEMENTING") ++
      emitT .status st2.id (.statusInfo st2.status st2.iteration st2.maxIterations)
    let implementPrompt := if st2.iteration == 1 || !(optTruthy fb) then gp
      else buildFeedbackPrompt st2.feature (fb.getD "") st2.iteration
    if opts.interactive && decide (1 < st2.iteration) && optTruthy fb then
      let t1 := t0 ++ emitT .log st2.id (.logMsg "info" ("Reviewer Feedback:\n" ++ fb.getD ""))
      let proceed := env.answer cnt.answerCount
      let cnt1 := { cnt with answerCount := cnt.answerCount + 1 }
      if proceed = false then
        let t2 := t1 ++ emitT .log st2.id (.logMsg "info" "Aborted by user")
        let st3 := { st2 with status := .failed }
        (.ret st3 cnt1, t2 ++ saveT st3)
      else
        let (r, t) := implInvoke env opts st2 implementPrompt cnt1
        (r, t1 ++ t)
    else
      let (r, t) := implInvoke env opts st2 implementPrompt cnt
      (r, t0 ++ t)

/-- Result of one whole loop pass: `ret` is an early `return state`, `next`
carries the updated loop variables for the next pass. -/
inductive ReviewRes
  | ret (st : OrchestrationState) (cnt : Counters)
  | next (st : OrchestrationState) (resuming : Option FailedStep) (resumingIter : Nat)
      (fb : Option String) (cnt : Counters)
  deriving DecidableEq

/-- The review step of one loop pass (engine lines 425-484). -/
def reviewPhase (env : Env) (opts : OrchestratorOptions) (st5 : OrchestrationState)
    (shouldSkip : Bool) (resuming : Option FailedStep) (rIter : Nat) (cnt : Counters) :
    ReviewRes × Trace :=
  let st6 := { st5 with status := .reviewing, lastFailedStep := some .reviewing }
  let t0 := saveT st6 ++
    emitT .status st6.id (.statusInfo st6.status st6.iteration st6.maxIterations) ++
    emitT .agent_start st6.id (.agentStart .codex .reviewer) ++
    invokeT .reviewer st6.iteration st6.feature
  let res := env.reviewer cnt.revCount
  let cnt1 := { cnt with revCount := cnt.revCount + 1 }
  let t1 := t0 ++ emitT .agent_complete st6.id
    (.agentDone .codex .reviewer res.output res.success)
  if res.success = false then
    let t2 := t1 ++ emitT .error st6.id
      (.errorInfo (jsOrDefault res.error "Codex review failed") true)
    let st9 := { st6 with status := .failed }
    (.ret st9 cnt1, t2 ++ saveT st9)
  else
    let st7 :=
      { st6 with
        history := st6.history ++ [⟨.codex, .reviewer, res.output, st6.iteration⟩]
        lastFailedStep := none }
    let t2 := t1 ++ saveT st7 ++
      (if opts.verbose then emitT .log st7.id (.logMsg "verbose" res.output) else Trace.nil)
    if isApproved res.output then
      let st8 := { st7 with status := .approved }
      (.ret st8 cnt1, t2 ++ saveT st8 ++
        emitT .complete st8.id (.completeInfo .approved st8.iteration))
    else
      let fb2 := extractFeedback res.output
      let t3 := t2 ++
        emitT .log st7.id (.logMsg "info" "Changes requested - continuing to next iteration")
      if shouldSkip then
        (.next { st7 with iteration := st7.iteration + 1 } none 0 (some fb2) cnt1, t3)
      else
        (.next st7 resuming rIter (some fb2) cnt1, t3)

/-- One pass of the main while loop (engine lines 335-485): the skip test and
increment at the top, then the implementation and review steps. -/
def loopBody (env : Env) (opts : OrchestratorOptions) (gp : String)
    (st0 : OrchestrationState) (resuming : Option FailedStep) (rIter : Nat)
    (fb : Option String) (cnt : Counters) : ReviewRes × Trace :=
  let shouldSkip := resuming == some FailedStep.reviewing && st0.iteration == rIter
  let st1 := if shouldSkip then st0 else { st0 with iteration := st0.iteration + 1 }
  match implPhase env opts gp st1 shouldSkip fb cnt with
  | (.ret st cnt1, t) => (.ret st cnt1, t)
  | (.ok st5 cnt1, t) =>
    let (r, t2) := reviewPhase env opts st5 shouldSkip resuming rIter cnt1
    (r, t ++ t2)

/-- Result of the whole while loop: `ret` is an early `return state` from
inside the loop, `fell` means the guard `iteration < maxIterations` became
false. -/
inductive LoopEnd
  | ret (st : OrchestrationState) (cnt : Counters)
  | fell (st : OrchestrationState) (cnt : Counters)
  deriving DecidableEq

/-- The main while loop, fuel-indexed.  Each pass that continues increments
`iteration` by exactly one, so fuel `maxIterations - iteration` always
suffices (`none` is returned only on fuel exhaustion). -/
def mainLoop (env : Env) (opts : OrchestratorOptions) (gp : String) :
    Nat → OrchestrationState → Option FailedStep → Nat → Option String → Counters →
    Option (LoopEnd × Trace)
  | fuel, st, resuming, rIter, fb, cnt =>
    if st.iteration < st.maxIterations then
      match loopBody env opts gp st resuming rIter fb cnt with
      | (.ret st2 cnt2, t) => some (.ret st2 cnt2, t)
      | (.next st2 r2 ri2 fb2 cnt2, t) =>
        match fuel with
        | 0 => none
        | f + 1 =>
          match mainLoop env opts gp f st2 r2 ri2 fb2 cnt2 with
          | none => none
          | some (e, t2) => some (e, t ++ t2)
    else some (.fell st cnt, Trace.nil)

/-- The feedback recomputation on resume (engine lines 328-333). -/
def resumeFeedback (isResume : Bool) (st : OrchestrationState) : Option String :=
  if isResume && decide (0 < st.history.length) then
    match st.history.reverse.find? (fun h => h.role == Role.reviewer) with
    | some lastReview =>
      if isApproved lastReview.content = false then some (extractFeedback lastReview.content)
      else none
    | none => none
  else none

/-- The fresh session record built at the top of `orchestrate` (lines
215-226). -/
def initialState (env : Env) (feature : String) (opts : OrchestratorOptions)
    (sessionId : Option String) : OrchestrationState :=
  { id := sessionId.getD env.genSessionId, feature := feature, iteration := 0,
    maxIterations := opts.maxIterations, status := .prompting, history := [],
    workingDir := opts.workingDir, generatedPrompt := none, lastFailedStep := none }

def stepOrStatusStr (resuming : Option FailedStep) (st : OrchestrationState) : String :=
  match resuming with
  | some fs => failedStepStr fs
  | none => statusStr st.status

/-- The engine `orchestrate`.  The outer fuel bounds only the number of
interactive "continue with additional iterations?" self-invocations (line
499); every other path is finite by construction. -/
def orchestrate (env : Env) :
    Nat → String → OrchestratorOptions → Option OrchestrationState → Option String → Counters →
    Option ((OrchestrationState × Counters) × Trace)
  | fuel, feature, opts, resumeState, sessionId, cnt =>
    let st := match resumeState with
      | some rs => rs
      | none => initialState env feature opts sessionId
    let workDir := match resumeState with
      | some rs => rs.workingDir
      | none => opts.workingDir
    let resumingFromStep := match resumeState with
      | some rs => rs.lastFailedStep
      | none => none
    let resumingIteration := match resumeState with
      | some rs => rs.iteration
      | none => 0
    let t0 := emitT .log st.id (.logMsg "info" ("Session: " ++ st.id)) ++
      emitT .log st.id (.logMsg "info" ("Feature: " ++ featurePreview st.feature)) ++
      emitT .log st.id (.logMsg "info" ("Working directory: " ++ workDir)) ++
      (if resumeState.isSome then
        emitT .log st.id (.logMsg "info" ("Resuming from iteration: " ++ toString st.iteration ++
          ", step: " ++ stepOrStatusStr resumingFromStep st))
      else Trace.nil)
    match promptPhase env opts st cnt with
    | (.ret st2 cnt2, t1) => some ((st2, cnt2), t0 ++ t1)
    | (.ok gp st2 cnt2, t1) =>
      let fb0 := resumeFeedback resumeState.isSome st2
      match mainLoop env opts gp (st2.maxIterations - st2.iteration) st2 resumingFromStep
          resumingIteration fb0 cnt2 with
      | none => none
      | some (.ret st3 cnt3, t2) => some ((st3, cnt3), t0 ++ t1 ++ t2)
      | some (.fell st3 cnt3, t2) =>
        let t3 := t0 ++ t1 ++ t2 ++ emitT .log st3.id (.logMsg "info"
          ("Max iterations (" ++ toString st3.maxIterations ++ ") reached without approval"))
        if opts.interactive then
          let continueAnyway := env.answer cnt3.answerCount
          let cnt4 := { cnt3 with answerCount := cnt3.answerCount + 1 }
          if continueAnyway then
            let st4 := { st3 with maxIterations := st3.maxIterations + 3, lastFailedStep := none }
            match fuel with
            | 0 => none
            | f + 1 =>
              match orchestrate env f st4.feature opts (some st4) none cnt4 with
              | none => none
              | some (r, t5) => some (r, t3 ++ saveT st4 ++ t5)
          else
            let st5 := { st3 with status := .failed }
            some ((st5, cnt4), t3 ++ saveT st5 ++
              emitT .complete st5.id (.completeInfo .failed st5.iteration))
        else
          let st5 := { st3 with status := .failed }
          some ((st5, cnt3), t3 ++ saveT st5 ++
            emitT .complete st5.id (.completeInfo .failed st5.iteration))

/-! ## Concrete runs used by counterexamples and witnesses -/

def okResult (s : String) : AgentResult := ⟨true, s, none⟩

/-- Environment whose reviewer always approves. -/
def envApprove : Env :=
  ⟨"sess0", fun _ => okResult "GP", fun n => okResult ("I" ++ toString n),
    fun _ => okResult "APPROVED", fun _ => true⟩

/-- Environment for the end-to-end scenario: reviewer answers "Needs fix"
first and "APPROVED" on the second call. -/
def envFixThenApprove : Env :=
  ⟨"sess0", fun _ => okResult "GP", fun n => okResult ("I" ++ toString n),
    fun n => if n == 0 then okResult "Needs fix" else okResult "APPROVED", fun _ => true⟩

/-- Environment whose prompt generator fails. -/
def envPromptFail : Env :=
  ⟨"sess0", fun _ => ⟨false, "", some "boom"⟩, fun _ => okResult "I",
    fun _ => okResult "R", fun _ => true⟩

def optsNI2 : OrchestratorOptions := ⟨2, false, false, "/w"⟩

def optsNI3 : OrchestratorOptions := ⟨3, false, false, "/w"⟩

/-- A session persisted mid-review at iteration 1 of 3 (exactly what the
engine saves right before invoking the reviewer). -/
def rsReviewing : OrchestrationState :=
  ⟨"s", "F", 1, 3, .reviewing,
    [⟨.codex, .promptGenerator, "P", 0⟩, ⟨.claude, .implementer, "I", 1⟩], "/w", some "P",
    some .reviewing⟩

/-- A session persisted mid-implementation at iteration 1 of 3 (exactly what
the engine saves right before invoking the implementer). -/
def rsImplementing : OrchestrationState :=
  ⟨"s", "F", 1, 3, .implementing, [⟨.codex, .promptGenerator, "P", 0⟩], "/w", some "P",
    some .implementing⟩

/-- A session the engine can persist after a reviewer rejection whose cached
generated prompt is the *empty* string (the generator returned ""): on resume
the empty prompt is falsy, so the generator step runs again. -/
def rsEmptyGP : OrchestrationState :=
  ⟨"s", "F", 1, 2, .reviewing,
    [⟨.codex, .promptGenerator, "", 0⟩, ⟨.claude, .implementer, "I", 1⟩,
      ⟨.codex, .reviewer, "Nope", 1⟩],
    "/w", some "", none⟩

/-- C1 counterexample: resuming `rsReviewing` (lastFailedStep = reviewing,
iteration k = 1) against an approving reviewer invokes the reviewer exactly
once for iteration 1 and terminates approved with the iteration counter still
1 — not k+1 = 2 as the claim requires on the approved outcome. -/
theorem C1_counterexample :
    (orchestrate envApprove 1 "F" optsNI3 (some rsReviewing) none Counters.zero).map
        (fun r => (r.1.1.status, r.1.1.iteration, r.2.invocations)) =
      some (Status.approved, 1, [⟨Role.reviewer, 1, "F"⟩]) ∧
    (orchestrate envApprove 1 "F" optsNI3 (some rsReviewing) none Counters.zero).map
        (fun r => r.1.1.iteration) ≠ some 2 := by
  exact ⟨rfl, by decide⟩

/-- C2, the code at the claim's failing input: resuming `rsImplementing`
(lastFailedStep = implementing, iteration k = 1), the first agent invocation
is the implementer with the iteration counter already incremented to 2 and
the cached prompt "P" — the loop-top increment is not suppressed for the
implementing step, contradicting the spec and the code's own comment. -/
theorem C2_code_bug_eval :
    (orchestrate envApprove 1 "F" optsNI3 (some rsImplementing) none Counters.zero).map
        (fun r => (r.2.invocations.head?, r.1.1.status)) =
      some (some ⟨Role.implementer, 2, "P"⟩, Status.approved) := by
  rfl

/-- C3 counterexample: a failing prompt generator makes the run terminate
with status failed and exactly one fatal error event but *no* `complete`
event — the claim requires an error followed by a complete event. -/
theorem C3_counterexample :
    (orchestrate envPromptFail 1 "F" optsNI2 none none Counters.zero).map
        (fun r => (r.1.1.status,
          (r.2.events.filter (fun e => e.type == ServerEventType.error)).length,
          (r.2.events.filter (fun e => e.type == ServerEventType.complete)).length)) =
      some (Status.failed, 1, 0) := by
  rfl

/-- C9 counterexample: the end-to-end scenario (maxIterations = 2, reviewer
says "Needs fix" then "APPROVED") ends approved at iteration 2 with *5*
history entries (generator, impl#1, review#1, impl#2, review#2), not 4. -/
theorem C9_counterexample :
    (orchestrate envFixThenApprove 1 "X" optsNI2 none none Counters.zero).map
        (fun r => (r.1.1.status, r.1.1.iteration,
          r.1.1.history.map (fun h => (h.role, h.iteration)))) =
      some (Status.approved, 2,
        [(Role.promptGenerator, 0), (Role.implementer, 1), (Role.reviewer, 1),
          (Role.implementer, 2), (Role.reviewer, 2)]) ∧
    (orchestrate envFixThenApprove 1 "X" optsNI2 none none Counters.zero).map
        (fun r => r.1.1.history.length) ≠ some 4 := by
  exact ⟨rfl, by decide⟩

/-- C10 counterexample: resuming a session whose cached generated prompt is
the empty string re-runs the generator and appends its iteration-0 history
entry after iteration-1 entries, so the history's iteration numbers are not
non-decreasing across this crash-and-resume. -/
theorem C10_counterexample :
    (orchestrate envApprove 1 "F" optsNI2 (some rsEmptyGP) none Counters.zero).map
        (fun r => r.1.1.history.map (fun h => h.iteration)) =
      some [0, 1, 1, 0, 2, 2] ∧
    ¬ List.Chain' (· ≤ ·) [0, 1, 1, 0, 2, 2] := by
  refine ⟨rfl, ?_⟩
  simp [List.chain'_cons]

/-! ## The event bus (`packages/core/src/bus.ts`, lines 19-159)

JavaScript `Map`s (insertion-ordered) are embedded as association lists;
`Date.now()` is an `Int` parameter of each operation; handlers are not
stored — instead `publish` returns the list of (subscription id, event)
deliveries it makes, and `subscribe` returns the list of events it replays to
the new handler, in order. -/

/-- One registered subscription (the handler function itself is identified by
the subscription id). -/
structure Subscription where
  id : Nat
  sessionId : String
  deriving DecidableEq

structure BufferedEvent where
  event : ServerEvent
  timestamp : Int
  deriving DecidableEq

def EVENT_BUFFER_MAX_SIZE : Nat := 100

def EVENT_BUFFER_TTL_MS : Int := 30000

structure BusState where
  subscriptions : List Subscription
  subscriptionCounter : Nat
  eventBuffers : List (String × List BufferedEvent)
  deriving DecidableEq

def BusState.empty : BusState := ⟨[], 0, []⟩

def mapGet (m : List (String × List BufferedEvent)) (k : String) : Option (List BufferedEvent) :=
  (m.find? (fun p => p.1 == k)).map (fun p => p.2)

/-- JavaScript `Map.set`: overwrite in place, or append a new entry. -/
def mapSet (m : List (String × List BufferedEvent)) (k : String) (v : List BufferedEvent) :
    List (String × List BufferedEvent) :=
  if m.any (fun p => p.1 == k) then m.map (fun p => if p.1 == k then (k, v) else p)
  else m ++ [(k, v)]

def mapDelete (m : List (String × List BufferedEvent)) (k : String) :
    List (String × List BufferedEvent) :=
  m.filter (fun p => !(p.1 == k))

/-- The filter-and-trim computation of `cleanBuffer` (bus lines 104-113):
drop events older than the TTL cutoff, then keep only the most recent
`EVENT_BUFFER_MAX_SIZE`. -/
def cleanList (now : Int) (buffer : List BufferedEvent) : List BufferedEvent :=
  let filtered := buffer.filter (fun b => now - EVENT_BUFFER_TTL_MS < b.timestamp)
  if EVENT_BUFFER_MAX_SIZE < filtered.length then
    filtered.drop (filtered.length - EVENT_BUFFER_MAX_SIZE)
  else filtered

/-- `cleanBuffer` (bus lines 100-120): drop expired events, trim to the cap
keeping the most recent, delete the entry when empty. -/
def cleanBuffer (now : Int) (sessionId : String) (bus : BusState) : BusState :=
  match mapGet bus.eventBuffers sessionId with
  | none => bus
  | some buffer =>
    if (cleanList now buffer).length = 0 then
      { bus with eventBuffers := mapDelete bus.eventBuffers sessionId }
    else
      { bus with eventBuffers := mapSet bus.eventBuffers sessionId (cleanList now buffer) }

/-- Bus lines 83-85: create the session's buffer entry when absent. -/
def ensureEntry (m : List (String × List BufferedEvent)) (k : String) :
    List (String × List BufferedEvent) :=
  if (mapGet m k).isNone then mapSet m k [] else m

/-- The updated buffer map after appending `e` (bus lines 87-91). -/
def appendBuffered (now : Int) (e : ServerEvent)
    (m : List (String × List BufferedEvent)) : List (String × List BufferedEvent) :=
  mapSet (ensureEntry m e.sessionId) e.sessionId
    ((mapGet (ensureEntry m e.sessionId) e.sessionId).getD [] ++ [⟨e, now⟩])

/-- `bufferEvent` (bus lines 81-95): append under the event's session id,
then clean. -/
def bufferEvent (now : Int) (e : ServerEvent) (bus : BusState) : BusState :=
  cleanBuffer now e.sessionId { bus with eventBuffers := appendBuffered now e bus.eventBuffers }

/-- `publish` (bus lines 60-76): buffer unless ping, then deliver to every
matching subscription in registration order. -/
def publish (now : Int) (e : ServerEvent) (bus : BusState) :
    BusState × List (Nat × ServerEvent) :=
  let bus1 := if e.type == ServerEventType.ping then bus else bufferEvent now e bus
  (bus1, (bus1.subscriptions.filter
      (fun s => s.sessionId == "*" || s.sessionId == e.sessionId)).map (fun s => (s.id, e)))

/-- `subscribe` (bus lines 31-54): register, then (when requested and not the
wildcard) replay the cleaned buffer to the new handler.  Returns the new bus,
the new subscription's id, and the replayed events in order. -/
def subscribe (now : Int) (sessionId : String) (replayBuffered : Bool) (bus : BusState) :
    BusState × Nat × List ServerEvent :=
  let newId := bus.subscriptionCounter + 1
  let bus1 : BusState :=
    { bus with subscriptionCounter := newId,
               subscriptions := bus.subscriptions ++ [⟨newId, sessionId⟩] }
  if replayBuffered && !(sessionId == "*") then
    let bus2 := cleanBuffer now sessionId bus1
    (bus2, newId, ((mapGet bus2.eventBuffers sessionId).getD []).map (fun b => b.event))
  else
    (bus1, newId, [])

/-- Publish a list of timestamped events in order (deliveries concatenated). -/
def publishSeq : List (Int × ServerEvent) → BusState → BusState × List (Nat × ServerEvent)
  | [], bus => (bus, [])
  | p :: rest, bus =>
    ((publishSeq rest (publish p.1 p.2 bus).1).1,
      (publish p.1 p.2 bus).2 ++ (publishSeq rest (publish p.1 p.2 bus).1).2)

/-! ### Bus lemmas -/

theorem find?_map_mapSetFn (k : String) (v : List BufferedEvent)
    (tl : List (String × List BufferedEvent)) :
    List.find? (fun p => p.1 == k) (tl.map (fun p => if p.1 == k then (k, v) else p)) =
      if tl.any (fun p => p.1 == k) then some (k, v) else none := by
  induction tl with
  | nil => simp
  | cons a tl ih =>
    rcases ha : (a.1 == k) with _ | _
    · simp only [List.map_cons, ha, Bool.false_eq_true, if_false, List.find?_cons, ha,
        List.any_cons, Bool.false_or]
      exact ih
    · simp only [List.map_cons, ha, if_true, List.find?_cons, List.any_cons, Bool.true_or]
      have : ((k, v).1 == k) = true := by simp
      simp [this]

theorem find?_append_single (k : String) (v : List BufferedEvent)
    (m : List (String × List BufferedEvent)) (hk : m.any (fun p => p.1 == k) = false) :
    List.find? (fun p => p.1 == k) (m ++ [(k, v)]) = some (k, v) := by
  induction m with
  | nil => simp
  | cons a tl ih =>
    simp only [List.any_cons, Bool.or_eq_false_iff] at hk
    simp only [List.cons_append, List.find?_cons, hk.1]
    exact ih hk.2

theorem mapGet_mapSet_self (m : List (String × List BufferedEvent)) (k : String)
    (v : List BufferedEvent) : mapGet (mapSet m k v) k = some v := by
  unfold mapGet mapSet
  rcases hany : m.any (fun p => p.1 == k) with _ | _
  · simp only [Bool.false_eq_true, if_false]
    rw [find?_append_single k v m hany]
    rfl
  · simp only [if_true]
    rw [find?_map_mapSetFn k v m, if_pos hany]
    rfl

theorem cleanBuffer_subscriptions (now : Int) (s : String) (bus : BusState) :
    (cleanBuffer now s bus).subscriptions = bus.subscriptions ∧
    (cleanBuffer now s bus).subscriptionCounter = bus.subscriptionCounter := by
  unfold cleanBuffer
  cases h : mapGet bus.eventBuffers s with
  | none => exact ⟨rfl, rfl⟩
  | some b =>
    dsimp only
    split
    · exact ⟨rfl, rfl⟩
    · exact ⟨rfl, rfl⟩

theorem publish_subscriptions (now : Int) (e : ServerEvent) (bus : BusState) :
    (publish now e bus).1.subscriptions = bus.subscriptions ∧
    (publish now e bus).1.subscriptionCounter = bus.subscriptionCounter := by
  unfold publish bufferEvent
  rcases he : (e.type == ServerEventType.ping) with _ | _
  · simp only [Bool.false_eq_true, if_false]
    exact cleanBuffer_subscriptions _ _ _
  · simp

theorem mapGet_ensureEntry (m : List (String × List BufferedEvent)) (k : String) :
    mapGet (ensureEntry m k) k = some ((mapGet m k).getD []) := by
  unfold ensureEntry
  cases h : mapGet m k with
  | none => simp [h, mapGet_mapSet_self]
  | some b => simp [h]

theorem cleanList_keep (now : Int) (l : List BufferedEvent)
    (h : ∀ b ∈ l, now - EVENT_BUFFER_TTL_MS < b.timestamp)
    (hl : l.length ≤ EVENT_BUFFER_MAX_SIZE) : cleanList now l = l := by
  unfold cleanList
  have hfil : l.filter (fun b => decide (now - EVENT_BUFFER_TTL_MS < b.timestamp)) = l :=
    List.filter_eq_self.mpr (fun b hb => decide_eq_true (h b hb))
  simp only [hfil]
  rw [if_neg (by omega)]

/-- One non-ping publish into a session buffer currently holding `B` (present
when nonempty), with every timestamp within the TTL window ending at `T` and
room under the cap: the buffer becomes `B ++ [⟨e, t⟩]`. -/
theorem publish_step {bus : BusState} {s : String} {T t : Int} {e : ServerEvent}
    {B : List BufferedEvent}
    (hB : mapGet bus.eventBuffers s = some B ∨ (mapGet bus.eventBuffers s = none ∧ B = []))
    (hsid : e.sessionId = s) (hty : e.type ≠ ServerEventType.ping)
    (hts : ∀ b ∈ B, T - EVENT_BUFFER_TTL_MS < b.timestamp)
    (ht1 : T - EVENT_BUFFER_TTL_MS < t) (ht2 : t ≤ T)
    (hlen : B.length + 1 ≤ EVENT_BUFFER_MAX_SIZE) :
    mapGet (publish t e bus).1.eventBuffers s = some (B ++ [⟨e, t⟩]) ∧
    (publish t e bus).1.subscriptions = bus.subscriptions ∧
    (publish t e bus).1.subscriptionCounter = bus.subscriptionCounter := by
  subst hsid
  have hty2 : (e.type == ServerEventType.ping) = false := by
    rcases h : (e.type == ServerEventType.ping) with _ | _
    · rfl
    · exact absurd (beq_iff_eq.mp h) hty
  refine ⟨?_, (publish_subscriptions t e bus).1, (publish_subscriptions t e bus).2⟩
  have hTTL : EVENT_BUFFER_TTL_MS = 30000 := rfl
  have hBgetD : (mapGet bus.eventBuffers e.sessionId).getD [] = B := by
    rcases hB with h | ⟨h, rfl⟩ <;> simp [h]
  have hall : ∀ b ∈ B ++ [(⟨e, t⟩ : BufferedEvent)],
      (t - EVENT_BUFFER_TTL_MS < b.timestamp) := by
    intro b hb
    rcases List.mem_append.mp hb with hb | hb
    · have := hts b hb
      omega
    · simp only [List.mem_singleton] at hb
      subst hb
      simp only []
      omega
  have hclean : cleanList t (B ++ [⟨e, t⟩]) = B ++ [⟨e, t⟩] :=
    cleanList_keep t _ hall (by
      simp only [List.length_append, List.length_singleton]
      omega)
  have happ : mapGet (appendBuffered t e bus.eventBuffers) e.sessionId = some (B ++ [⟨e, t⟩]) := by
    unfold appendBuffered
    rw [mapGet_mapSet_self, mapGet_ensureEntry, Option.getD_some, hBgetD]
  unfold publish
  simp only [hty2, Bool.false_eq_true, if_false]
  unfold bufferEvent cleanBuffer
  have hget : mapGet (BusState.eventBuffers
      { bus with eventBuffers := appendBuffered t e bus.eventBuffers }) e.sessionId =
        some (B ++ [⟨e, t⟩]) := happ
  rw [hget]
  simp only [hclean]
  rw [if_neg (by simp)]
  exact mapGet_mapSet_self _ _ _

/-- Publishing a within-TTL, non-ping, under-cap sequence appends it to the
session's buffer and leaves the subscription list alone. -/
theorem publishSeq_buffer {s : String} {T : Int} :
    ∀ (pubs : List (Int × ServerEvent)) (bus : BusState) (B : List BufferedEvent),
    (mapGet bus.eventBuffers s = some B ∨ (mapGet bus.eventBuffers s = none ∧ B = [])) →
    (∀ b ∈ B, T - EVENT_BUFFER_TTL_MS < b.timestamp) →
    (∀ p ∈ pubs, p.2.sessionId = s ∧ p.2.type ≠ ServerEventType.ping ∧
      T - EVENT_BUFFER_TTL_MS < p.1 ∧ p.1 ≤ T) →
    B.length + pubs.length ≤ EVENT_BUFFER_MAX_SIZE →
    (mapGet (publishSeq pubs bus).1.eventBuffers s = some (B ++ pubs.map (fun p => ⟨p.2, p.1⟩)) ∨
      (mapGet (publishSeq pubs bus).1.eventBuffers s = none ∧ B = [] ∧ pubs = [])) ∧
    (publishSeq pubs bus).1.subscriptions = bus.subscriptions ∧
    (publishSeq pubs bus).1.subscriptionCounter = bus.subscriptionCounter := by
  intro pubs
  induction pubs with
  | nil =>
    intro bus B hB hts hp hlen
    rcases hB with hB | ⟨hB, rfl⟩
    · exact ⟨Or.inl (by simpa [publishSeq] using hB), rfl, rfl⟩
    · exact ⟨Or.inr ⟨by simpa [publishSeq] using hB, rfl, rfl⟩, rfl, rfl⟩
  | cons p rest ih =>
    intro bus B hB hts hp hlen
    have hp0 := hp p (List.mem_cons_self p rest)
    have hstep := @publish_step bus _ T _ _ _ hB hp0.1 hp0.2.1 hts hp0.2.2.1 hp0.2.2.2
      (by simp only [List.length_cons] at hlen; omega)
    have hrest : ∀ q ∈ rest, q.2.sessionId = s ∧ q.2.type ≠ ServerEventType.ping ∧
        T - EVENT_BUFFER_TTL_MS < q.1 ∧ q.1 ≤ T := by
      intro q hq; exact hp q (List.mem_cons_of_mem p hq)
    have hts2 : ∀ b ∈ B ++ [(⟨p.2, p.1⟩ : BufferedEvent)],
        T - EVENT_BUFFER_TTL_MS < b.timestamp := by
      intro b hb
      rcases List.mem_append.mp hb with hb | hb
      · exact hts b hb
      · simp only [List.mem_singleton] at hb
        subst hb
        exact hp0.2.2.1
    have hlen2 : (B ++ [(⟨p.2, p.1⟩ : BufferedEvent)]).length + rest.length ≤
        EVENT_BUFFER_MAX_SIZE := by
      simp only [List.length_append, List.length_cons, List.length_nil] at hlen ⊢
      omega
    have hih := ih (publish p.1 p.2 bus).1 (B ++ [⟨p.2, p.1⟩]) (Or.inl hstep.1) hts2 hrest hlen2
    simp only [publishSeq]
    refine ⟨?_, by rw [hih.2.1, hstep.2.1], by rw [hih.2.2, hstep.2.2]⟩
    rcases hih.1 with h | ⟨h, hBe, hre⟩
    · left
      simpa [List.append_assoc] using h
    · exact absurd hBe (by simp)

theorem mapGet_mapDelete_self (m : List (String × List BufferedEvent)) (k : String) :
    mapGet (mapDelete m k) k = none := by
  induction m with
  | nil => rfl
  | cons a tl ih =>
    unfold mapDelete at ih ⊢
    rcases ha : (a.1 == k) with _ | _
    · simp only [List.filter_cons, ha, Bool.not_false, if_true]
      unfold mapGet at ih ⊢
      simp only [List.find?_cons, ha]
      exact ih
    · simp only [List.filter_cons, ha, Bool.not_true, Bool.false_eq_true, if_false]
      exact ih

theorem bufferEvent_subscriptions (now : Int) (e : ServerEvent) (bus : BusState) :
    (bufferEvent now e bus).subscriptions = bus.subscriptions ∧
    (bufferEvent now e bus).subscriptionCounter = bus.subscriptionCounter := by
  unfold bufferEvent
  exact cleanBuffer_subscriptions now e.sessionId _

theorem publish_deliveries (now : Int) (e : ServerEvent) (bus : BusState) :
    (publish now e bus).2 =
      (bus.subscriptions.filter
        (fun sub => sub.sessionId == "*" || sub.sessionId == e.sessionId)).map
        (fun sub => (sub.id, e)) := by
  unfold publish
  rcases h : (e.type == ServerEventType.ping) with _ | _
  · simp only [Bool.false_eq_true, if_false]
    rw [(bufferEvent_subscriptions now e bus).1]
  · simp

/-- Replay at `subscribe`: with the session's buffer holding `L` (all within
TTL, under the cap), the new handler receives exactly `L`'s events, and the
new subscription is appended with id `counter + 1`. -/
theorem subscribe_replay {bus : BusState} {s : String} {T : Int} {L : List BufferedEvent}
    (hL : mapGet bus.eventBuffers s = some L ∨ (mapGet bus.eventBuffers s = none ∧ L = []))
    (hts : ∀ b ∈ L, T - EVENT_BUFFER_TTL_MS < b.timestamp)
    (hlen : L.length ≤ EVENT_BUFFER_MAX_SIZE)
    (hs : (s == "*") = false) :
    (subscribe T s true bus).2.2 = L.map (fun b => b.event) ∧
    (subscribe T s true bus).2.1 = bus.subscriptionCounter + 1 ∧
    (subscribe T s true bus).1.subscriptions =
      bus.subscriptions ++ [⟨bus.subscriptionCounter + 1, s⟩] := by
  unfold subscribe
  simp only [hs, Bool.not_false, Bool.true_and, if_true]
  rcases hL with hL | ⟨hL, rfl⟩
  · have hclean : cleanList T L = L := cleanList_keep T L hts hlen
    unfold cleanBuffer
    have hget : mapGet (BusState.eventBuffers
        { bus with subscriptionCounter := bus.subscriptionCounter + 1,
                   subscriptions := bus.subscriptions ++ [⟨bus.subscriptionCounter + 1, s⟩] }) s =
          some L := hL
    rw [hget]
    simp only [hclean]
    by_cases h0 : L.length = 0
    · rw [if_pos h0]
      rcases List.length_eq_zero.mp h0
      simp [mapGet_mapDelete_self]
    · rw [if_neg h0]
      simp [mapGet_mapSet_self]
  · unfold cleanBuffer
    have hget : mapGet (BusState.eventBuffers
        { bus with subscriptionCounter := bus.subscriptionCounter + 1,
                   subscriptions := bus.subscriptions ++ [⟨bus.subscriptionCounter + 1, s⟩] }) s =
          none := hL
    rw [hget]
    simp [hL]

/-- A freshly added subscription (whose id collides with no earlier one)
receives exactly one copy of a matching published event. -/
theorem deliveries_to_new_sub (subs : List Subscription) (ourId : Nat) (s : String)
    (e : ServerEvent) (hid : ∀ sub ∈ subs, sub.id ≠ ourId) (hsid : e.sessionId = s) :
    (((subs ++ [(⟨ourId, s⟩ : Subscription)]).filter
        (fun sub => sub.sessionId == "*" || sub.sessionId == e.sessionId)).map
      (fun sub => (sub.id, e))).filter (fun d => d.1 == ourId) = [(ourId, e)] := by
  subst hsid
  induction subs with
  | nil => simp
  | cons a tl ih =>
    have ha : (a.id == ourId) = false :=
      beq_eq_false_iff_ne.mpr (hid a (List.mem_cons_self a tl))
    have htl : ∀ sub ∈ tl, sub.id ≠ ourId := fun sub h => hid sub (List.mem_cons_of_mem a h)
    rcases hm : (a.sessionId == "*" || a.sessionId == e.sessionId) with _ | _
    · simp only [List.cons_append, List.filter_cons, hm, Bool.false_eq_true, if_false]
      exact ih htl
    · simp only [List.cons_append, List.filter_cons, hm, if_true, List.map_cons, ha]
      simp only [List.filter_cons, ha, Bool.false_eq_true, if_false]
      exact ih htl

/-- C7 (amended): for at most `EVENT_BUFFER_MAX_SIZE` (100) non-ping events
published to one session id within the buffer TTL, a handler subscribed with
replay enabled after those `n` events and before event `n+1` receives events
1..n+1 in original publish order, each exactly once, and the replay contains
no ping events.  (The original claim fails for `n > 100`: the buffer keeps
only the most recent 100 events, see the counterexample.) -/
theorem C7_bus_replay_amended :
    ∀ (bus0 : BusState) (s : String) (T t2 : Int) (pubs : List (Int × ServerEvent))
      (e2 : ServerEvent),
    s ≠ "*" →
    mapGet bus0.eventBuffers s = none →
    (∀ sub ∈ bus0.subscriptions, sub.id ≠ bus0.subscriptionCounter + 1) →
    (∀ p ∈ pubs, p.2.sessionId = s ∧ p.2.type ≠ ServerEventType.ping ∧
      T - EVENT_BUFFER_TTL_MS < p.1 ∧ p.1 ≤ T) →
    pubs.length ≤ EVENT_BUFFER_MAX_SIZE →
    e2.sessionId = s →
    ((subscribe T s true (publishSeq pubs bus0).1).2.2 ++
      ((publish t2 e2 (subscribe T s true (publishSeq pubs bus0).1).1).2.filter
        (fun d => d.1 == (subscribe T s true (publishSeq pubs bus0).1).2.1)).map
        (fun d => d.2) =
      pubs.map (fun p => p.2) ++ [e2]) ∧
    (∀ ev ∈ (subscribe T s true (publishSeq pubs bus0).1).2.2,
      ev.type ≠ ServerEventType.ping) := by
  intro bus0 s T t2 pubs e2 hs hbuf hid hp hlen he2
  have hsb : (s == "*") = false := beq_eq_false_iff_ne.mpr hs
  obtain ⟨hbufseq, hsubs, hcnt⟩ :=
    @publishSeq_buffer s T pubs bus0 [] (Or.inr ⟨hbuf, rfl⟩) (by simp) hp
      (by simpa using hlen)
  have hL : mapGet (publishSeq pubs bus0).1.eventBuffers s =
        some (pubs.map (fun p => ⟨p.2, p.1⟩)) ∨
      (mapGet (publishSeq pubs bus0).1.eventBuffers s = none ∧
        (pubs.map (fun p => (⟨p.2, p.1⟩ : BufferedEvent))) = []) := by
    rcases hbufseq with h | ⟨h, -, rfl⟩
    · exact Or.inl (by simpa using h)
    · exact Or.inr ⟨h, rfl⟩
  have hts : ∀ b ∈ pubs.map (fun p => (⟨p.2, p.1⟩ : BufferedEvent)),
      T - EVENT_BUFFER_TTL_MS < b.timestamp := by
    intro b hb
    rcases List.mem_map.mp hb with ⟨p, hpmem, rfl⟩
    exact (hp p hpmem).2.2.1
  have hlenL : (pubs.map (fun p => (⟨p.2, p.1⟩ : BufferedEvent))).length ≤
      EVENT_BUFFER_MAX_SIZE := by simpa using hlen
  obtain ⟨hreplay, hourid, hsubs2⟩ := subscribe_replay hL hts hlenL hsb
  constructor
  · rw [hreplay, hourid, publish_deliveries]
    rw [show (subscribe T s true (publishSeq pubs bus0).1).1.subscriptions =
        (publishSeq pubs bus0).1.subscriptions ++
          [⟨(publishSeq pubs bus0).1.subscriptionCounter + 1, s⟩] from by
      rw [hsubs2, hcnt]]
    rw [hcnt, hsubs]
    rw [deliveries_to_new_sub bus0.subscriptions (bus0.subscriptionCounter + 1) s e2 hid he2]
    simp [List.map_map, Function.comp]
  · intro ev hev
    rw [hreplay] at hev
    rcases List.mem_map.mp hev with ⟨b, hb, rfl⟩
    rcases List.mem_map.mp hb with ⟨p, hpmem, rfl⟩
    exact (hp p hpmem).2.1

/-- 101 distinct non-ping events for session "s", all published at time 0. -/
def pubs101 : List (Int × ServerEvent) :=
  (List.range 101).map (fun i => ((0 : Int), ⟨ServerEventType.log, "s", EventData.payload i⟩))

set_option maxRecDepth 100000 in
/-- C7 counterexample: after 101 within-TTL publishes, a replay-enabled
subscriber receives only the 100 most recent events — event 1 (payload 0) is
missed, so "receives events 1 through n+1 ... no missed events" fails for
n = 101. -/
theorem C7_counterexample :
    pubs101.length = 101 ∧
    (subscribe 0 "s" true (publishSeq pubs101 BusState.empty).1).2.2 =
      (List.range' 1 100).map (fun i => ⟨ServerEventType.log, "s", EventData.payload i⟩) ∧
    (⟨ServerEventType.log, "s", EventData.payload 0⟩ : ServerEvent) ∈
      pubs101.map (fun p => p.2) ∧
    (⟨ServerEventType.log, "s", EventData.payload 0⟩ : ServerEvent) ∉
      (subscribe 0 "s" true (publishSeq pubs101 BusState.empty).1).2.2 := by
  refine ⟨by decide, by rfl, by decide, by decide⟩

def pubsW : List (Int × ServerEvent) := [((0 : Int), ⟨ServerEventType.log, "s", EventData.payload 1⟩)]

def eW : ServerEvent := ⟨ServerEventType.log, "s", EventData.payload 2⟩

theorem C7_witness :
    (subscribe 0 "s" true (publishSeq pubsW BusState.empty).1).2.2 ++
      ((publish 0 eW (subscribe 0 "s" true (publishSeq pubsW BusState.empty).1).1).2.filter
        (fun d => d.1 == (subscribe 0 "s" true (publishSeq pubsW BusState.empty).1).2.1)).map
        (fun d => d.2) =
      pubsW.map (fun p => p.2) ++ [eW] :=
  (C7_bus_replay_amended BusState.empty "s" 0 0 pubsW eW (by decide) rfl
    (fun sub h => absurd h (List.not_mem_nil sub)) (by decide) (by decide) rfl).1

/-! ## The session queue (`packages/core/src/queue.ts`, lines 340-620)

The queue is a single in-process object driven by `async` methods; the
embedding is sequential: each operation runs to completion, recording a
`QTrace` of every in-memory state after a mutation (`snapshots`), every state
handed to `saveQueueState` (`saves`) and every emitted queue event.  The
`await orchestrate(...)` call (and a possible thrown error) is abstracted by
the oracle `QueueEnv.run`, indexed by how many items have been processed; the
session-level error/complete events the catch-branch publishes are bus
events outside the queue state and are not recorded here.  Wall-clock stamps
are one opaque string `clock`. -/

inductive QueueItemStatus
  | pending
  | running
  | completed
  | failed
  deriving DecidableEq

structure QueueItem where
  id : String
  feature : String
  options : OrchestratorOptions
  status : QueueItemStatus
  sessionId : Option String
  addedAt : String
  startedAt : Option String
  completedAt : Option String
  error : Option String
  deriving DecidableEq

structure QueueState where
  items : List QueueItem
  isProcessing : Bool
  currentItemId : Option String
  deriving DecidableEq

/-- The `SessionQueue` field initializer (queue lines 341-345). -/
def QueueState.initial : QueueState := ⟨[], false, none⟩

/-- What one `await orchestrate(...)` did: returned a final status, or threw. -/
inductive RunOutcome
  | finished (finalStatus : Status)
  | threw (message : String)

structure QueueEnv where
  itemId : Nat → String
  sessionId : Nat → String
  clock : String
  run : Nat → RunOutcome

inductive QueueEventKind
  | queue_item_added
  | queue_item_started
  | queue_item_completed
  | queue_item_failed
  | queue_item_removed
  | queue_cleared
  deriving DecidableEq

structure QTrace where
  snapshots : List QueueState
  saves : List QueueState
  events : List (QueueEventKind × Option String)
  deriving DecidableEq

instance : Append QTrace :=
  ⟨fun a b => ⟨a.snapshots ++ b.snapshots, a.saves ++ b.saves, a.events ++ b.events⟩⟩

def QTrace.nil : QTrace := ⟨[], [], []⟩

@[simp] theorem QTrace.appendSnapshots (a b : QTrace) :
    (a ++ b).snapshots = a.snapshots ++ b.snapshots := rfl

@[simp] theorem QTrace.appendSaves (a b : QTrace) : (a ++ b).saves = a.saves ++ b.saves := rfl

@[simp] theorem QTrace.appendEvents (a b : QTrace) : (a ++ b).events = a.events ++ b.events := rfl

/-- Update the element at one position (the embedding of the source's
in-place mutation of the `QueueItem` object found by `find`). -/
def updateAt (l : List QueueItem) (i : Nat) (f : QueueItem → QueueItem) : List QueueItem :=
  match l, i with
  | [], _ => []
  | a :: rest, 0 => f a :: rest
  | a :: rest, n + 1 => a :: updateAt rest n f

/-- Position of the first pending item (`items.find(item => status ===
"pending")`). -/
def firstPendingIdx : List QueueItem → Option Nat
  | [] => none
  | it :: rest =>
    if it.status == QueueItemStatus.pending then some 0
    else (firstPendingIdx rest).map (fun n => n + 1)

/-- Queue lines 523-530: mark the found item running. -/
def startItem (env : QueueEnv) (pc : Nat) (it : QueueItem) : QueueItem :=
  { it with
    status := .running
    startedAt := some env.clock
    sessionId := some (env.sessionId pc) }

/-- Queue lines 563-586: the item's terminal update, from the orchestrate
call's outcome (completed on `approved`, failed otherwise or on a throw). -/
def finishItem (env : QueueEnv) (pc : Nat) (it : QueueItem) : QueueItem :=
  match env.run pc with
  | .finished fs =>
    if fs == Status.approved then
      { it with
        completedAt := some env.clock
        status := .completed }
    else
      { it with
        completedAt := some env.clock
        status := .failed
        error := some ("Session ended with status: " ++ statusStr fs) }
  | .threw msg =>
    { it with
      status := .failed
      completedAt := some env.clock
      error := some msg }

def finishKind (env : QueueEnv) (pc : Nat) : QueueEventKind :=
  match env.run pc with
  | .finished fs =>
    if fs == Status.approved then .queue_item_completed else .queue_item_failed
  | .threw _ => .queue_item_failed

/-- Queue lines 516-521: no pending item — clear the processing flags. -/
def idleState (st : QueueState) : QueueState :=
  { st with isProcessing := false, currentItemId := none }

/-- The id of the item at position `i`. -/
def itemIdAt (st : QueueState) (i : Nat) : String :=
  ((st.items.get? i).map (fun it => it.id)).getD ""

/-- The queue state right after the first pending item (position `i`) is
marked running (queue lines 523-530). -/
def procStarted (env : QueueEnv) (pc : Nat) (st : QueueState) (i : Nat) : QueueState :=
  { st with
    isProcessing := true
    currentItemId := some (itemIdAt st i)
    items := updateAt st.items i (startItem env pc) }

/-- The queue state after that item's orchestrate call settled it. -/
def procFinished (env : QueueEnv) (pc : Nat) (st : QueueState) (i : Nat) : QueueState :=
  { procStarted env pc st i with
    items := updateAt (procStarted env pc st i).items i (finishItem env pc) }

/-- The per-item trace of one processing pass: both mutated states are
snapshotted and persisted, with the started and terminal events. -/
def procTrace (env : QueueEnv) (pc : Nat) (st : QueueState) (i : Nat) : QTrace :=
  ⟨[procStarted env pc st i, procFinished env pc st i],
    [procStarted env pc st i, procFinished env pc st i],
    [(QueueEventKind.queue_item_started, some (itemIdAt st i)),
      (finishKind env pc, some (itemIdAt st i))]⟩

/-- `processNext` (queue lines 512-616), fuel-indexed: pick the first
pending item, mark it running (persist, emit started), run the orchestrate
call, mark it terminal (persist, emit terminal event), recurse; when no item
is pending, clear the processing flags and persist the idle state. -/
def processNext (env : QueueEnv) : Nat → QueueState → Nat → Option (QueueState × Nat × QTrace)
  | fuel, st, pc =>
    match firstPendingIdx st.items with
    | none => some (idleState st, pc, ⟨[idleState st], [idleState st], []⟩)
    | some i =>
      match fuel with
      | 0 => none
      | f + 1 =>
        match processNext env f (procFinished env pc st i) (pc + 1) with
        | none => none
        | some (stF, pcF, tr) => some (stF, pcF, procTrace env pc st i ++ tr)

/-- The fresh pending item `add`/`addMany` build (queue lines 396-402). -/
def newItem (env : QueueEnv) (n : Nat) (feature : String) (options : OrchestratorOptions) :
    QueueItem :=
  ⟨env.itemId n, feature, options, .pending, none, env.clock, none, none, none⟩

/-- `add` (queue lines 395-414): append, persist, emit, and start processing
when idle. -/
def queueAdd (env : QueueEnv) (feature : String) (options : OrchestratorOptions)
    (st : QueueState) (idCnt pc : Nat) : Option (QueueState × Nat × QTrace) :=
  let st1 : QueueState := { st with items := st.items ++ [newItem env idCnt feature options] }
  let t : QTrace := ⟨[st1], [st1], [(.queue_item_added, some (env.itemId idCnt))]⟩
  if st1.isProcessing = false then
    match processNext env (st1.items.length + 1) st1 pc with
    | none => none
    | some (stF, pcF, tr) => some (stF, pcF, t ++ tr)
  else some (st1, pc, t)

/-- The item-appending loop of `addMany` (queue lines 422-433). -/
def addItems (env : QueueEnv) : Nat → List (String × OrchestratorOptions) → QueueState →
    QueueState × QTrace
  | _, [], st => (st, QTrace.nil)
  | idCnt, (f, o) :: rest, st =>
    let st1 : QueueState := { st with items := st.items ++ [newItem env idCnt f o] }
    let t1 : QTrace := ⟨[st1], [], [(.queue_item_added, some (env.itemId idCnt))]⟩
    let r := addItems env (idCnt + 1) rest st1
    (r.1, t1 ++ r.2)

/-- `addMany` (queue lines 419-443): append all, persist once, and start
processing when idle and something was added. -/
def queueAddMany (env : QueueEnv) (reqs : List (String × OrchestratorOptions))
    (st : QueueState) (idCnt pc : Nat) : Option (QueueState × Nat × QTrace) :=
  let r := addItems env idCnt reqs st
  let t2 : QTrace := r.2 ++ ⟨[], [r.1], []⟩
  if (!r.1.isProcessing) && decide (0 < reqs.length) then
    match processNext env (r.1.items.length + 1) r.1 pc with
    | none => none
    | some (stF, pcF, tr) => some (stF, pcF, t2 ++ tr)
  else some (r.1, pc, t2)

/-- Position of the first pending item with the given id
(`findIndex(item.id === itemId && item.status === "pending")`). -/
def removeIdx (itemId : String) : List QueueItem → Option Nat
  | [] => none
  | it :: rest =>
    if it.id == itemId && it.status == QueueItemStatus.pending then some 0
    else (removeIdx itemId rest).map (fun n => n + 1)

/-- `remove` (queue lines 448-460). -/
def queueRemove (itemId : String) (st : QueueState) : QueueState × Bool × QTrace :=
  match removeIdx itemId st.items with
  | none => (st, false, QTrace.nil)
  | some i =>
    let st1 : QueueState := { st with items := st.items.eraseIdx i }
    (st1, true, ⟨[st1], [st1], [(.queue_item_removed, some itemId)]⟩)

/-- `clearPending` (queue lines 465-471). -/
def queueClearPending (st : QueueState) : QueueState × Nat × QTrace :=
  let n := (st.items.filter (fun it => it.status == QueueItemStatus.pending)).length
  let st1 : QueueState :=
    { st with items := st.items.filter (fun it => !(it.status == QueueItemStatus.pending)) }
  (st1, n, ⟨[st1], [st1], [(.queue_cleared, none)]⟩)

/-- The crash-recovery rewrite of one loaded item (queue lines 360-366). -/
def cleanupItem (clock : String) (it : QueueItem) : QueueItem :=
  if it.status == QueueItemStatus.running then
    { it with
      status := .failed
      error := some "Server restarted while processing"
      completedAt := some clock }
  else it

/-- The cleaned state `initialize` builds from a loaded queue (lines
356-369). -/
def initializeClean (clock : String) (saved : QueueState) : QueueState :=
  { items := saved.items.map (cleanupItem clock), isProcessing := false, currentItemId := none }

/-- `initialize` (queue lines 351-383): when a persisted state loads, clean
it, persist it, and resume processing when pending items remain. -/
def queueInitialize (env : QueueEnv) (saved : Option QueueState) (pc : Nat) :
    Option (QueueState × Nat × QTrace) :=
  match saved with
  | none => some (QueueState.initial, pc, QTrace.nil)
  | some s =>
    let st1 := initializeClean env.clock s
    let t : QTrace := ⟨[st1], [st1], []⟩
    if 0 < (st1.items.filter (fun it => it.status == QueueItemStatus.pending)).length then
      match processNext env (st1.items.length + 1) st1 pc with
      | none => none
      | some (stF, pcF, tr) => some (stF, pcF, t ++ tr)
    else some (st1, pc, t)

/-- The ids carried by `queue_item_started` events, in order. -/
def startedIds (t : QTrace) : List (Option String) :=
  t.events.filterMap (fun e =>
    if e.1 == QueueEventKind.queue_item_started then some e.2 else none)

/-- Queue states reachable in the sequential model: from the fresh queue or a
crash-recovery initialization over an arbitrary loaded state, through the
public operations, including every intermediate in-memory state of a
processing run. -/
inductive QReach (env : QueueEnv) : QueueState → Prop
  | initial : QReach env QueueState.initial
  | ofInitialize {saved : QueueState} {pc : Nat} {res} {s : QueueState} :
      queueInitialize env (some saved) pc = some res → s ∈ res.2.2.snapshots → QReach env s
  | ofAdd {st : QueueState} {feature : String} {options : OrchestratorOptions}
      {idCnt pc : Nat} {res} {s : QueueState} :
      QReach env st → queueAdd env feature options st idCnt pc = some res →
      s ∈ res.2.2.snapshots → QReach env s
  | ofAddMany {st : QueueState} {reqs : List (String × OrchestratorOptions)}
      {idCnt pc : Nat} {res} {s : QueueState} :
      QReach env st → queueAddMany env reqs st idCnt pc = some res →
      s ∈ res.2.2.snapshots → QReach env s
  | ofRemove {st : QueueState} {itemId : String} {s : QueueState} :
      QReach env st → s ∈ (queueRemove itemId st).2.2.snapshots → QReach env s
  | ofClear {st : QueueState} {s : QueueState} :
      QReach env st → s ∈ (queueClearPending st).2.2.snapshots → QReach env s

def countRunning (items : List QueueItem) : Nat :=
  (items.filter (fun it => it.status == QueueItemStatus.running)).length

/-- The single-lane invariant: at most one running item, and none at all when
the processing flag is down. -/
def qInv (st : QueueState) : Prop :=
  countRunning st.items ≤ 1 ∧ (st.isProcessing = false → countRunning st.items = 0)

def statusRank : QueueItemStatus → Nat
  | .pending => 0
  | .running => 1
  | .completed => 2
  | .failed => 2

/-- One step moves every item's status only forward along
pending → running → {completed, failed} (items matched by position and id). -/
def StepsForward (pre post : QueueState) : Prop :=
  ∀ i a b, pre.items.get? i = some a → post.items.get? i = some b → a.id = b.id →
    statusRank a.status ≤ statusRank b.status

/-! ### Queue lemmas -/

theorem updateAt_get_self {l : List QueueItem} {i : Nat} {a : QueueItem}
    (h : l.get? i = some a) (f : QueueItem → QueueItem) :
    (updateAt l i f).get? i = some (f a) := by
  induction l generalizing i with
  | nil => cases h
  | cons x rest ih =>
    cases i with
    | zero =>
      simp only [List.get?_cons_zero, Option.some.injEq] at h
      subst h
      rfl
    | succ n =>
      simp only [List.get?_cons_succ] at h
      simpa [updateAt] using ih h

theorem updateAt_get_ne {l : List QueueItem} {i : Nat} (f : QueueItem → QueueItem) (j : Nat)
    (h : i ≠ j) : (updateAt l i f).get? j = l.get? j := by
  induction l generalizing i j with
  | nil => rfl
  | cons x rest ih =>
    cases i with
    | zero =>
      cases j with
      | zero => exact absurd rfl h
      | succ m => rfl
    | succ n =>
      cases j with
      | zero => rfl
      | succ m =>
        simp only [updateAt, List.get?_cons_succ]
        exact ih m (fun he => h (by rw [he]))

theorem updateAt_comp (l : List QueueItem) (i : Nat) (f g : QueueItem → QueueItem) :
    updateAt (updateAt l i f) i g = updateAt l i (fun a => g (f a)) := by
  induction l generalizing i with
  | nil => rfl
  | cons x rest ih =>
    cases i with
    | zero => rfl
    | succ n => simpa [updateAt] using ih n

theorem updateAt_length (l : List QueueItem) (i : Nat) (f : QueueItem → QueueItem) :
    (updateAt l i f).length = l.length := by
  induction l generalizing i with
  | nil => rfl
  | cons x rest ih =>
    cases i with
    | zero => rfl
    | succ n => simpa [updateAt] using ih n

theorem firstPendingIdx_get {l : List QueueItem} {i : Nat} (h : firstPendingIdx l = some i) :
    ∃ a, l.get? i = some a ∧ a.status = QueueItemStatus.pending := by
  induction l generalizing i with
  | nil => cases h
  | cons x rest ih =>
    unfold firstPendingIdx at h
    rcases hx : (x.status == QueueItemStatus.pending) with _ | _
    · rw [hx] at h
      simp only [Bool.false_eq_true, if_false, Option.map_eq_some'] at h
      rcases h with ⟨n, hn, rfl⟩
      rcases ih hn with ⟨a, ha, hst⟩
      exact ⟨a, by simpa using ha, hst⟩
    · rw [hx] at h
      simp only [if_true, Option.some.injEq] at h
      subst h
      exact ⟨x, rfl, beq_iff_eq.mp hx⟩

theorem countRunning_nil : countRunning [] = 0 := rfl

theorem countRunning_cons (x : QueueItem) (rest : List QueueItem) :
    countRunning (x :: rest) =
      (if (x.status == QueueItemStatus.running) = true then 1 else 0) + countRunning rest := by
  unfold countRunning
  rcases hx : (x.status == QueueItemStatus.running) with _ | _ <;>
    simp [List.filter_cons, hx] <;> omega

theorem countRunning_updateAt {l : List QueueItem} {i : Nat} {a : QueueItem}
    (h : l.get? i = some a) (f : QueueItem → QueueItem) :
    countRunning (updateAt l i f) +
        (if (a.status == QueueItemStatus.running) = true then 1 else 0) =
      countRunning l + (if ((f a).status == QueueItemStatus.running) = true then 1 else 0) := by
  induction l generalizing i with
  | nil => cases h
  | cons x rest ih =>
    cases i with
    | zero =>
      simp only [List.get?_cons_zero, Option.some.injEq] at h
      subst h
      simp only [updateAt, countRunning_cons]
      omega
    | succ n =>
      simp only [List.get?_cons_succ] at h
      have := ih h
      simp only [updateAt, countRunning_cons]
      omega

theorem countRunning_append (l1 l2 : List QueueItem) :
    countRunning (l1 ++ l2) = countRunning l1 + countRunning l2 := by
  unfold countRunning
  simp [List.filter_append]

/-- The first pending item heads the pending sublist, and any update that
makes it non-pending removes exactly it from the pending sublist. -/
theorem filter_pending_updateAt {l : List QueueItem} {i : Nat} {g : QueueItem → QueueItem}
    (h : firstPendingIdx l = some i)
    (hg : ∀ a, ((g a).status == QueueItemStatus.pending) = false) :
    ∃ a, l.get? i = some a ∧
      l.filter (fun it => it.status == QueueItemStatus.pending) =
        a :: (updateAt l i g).filter (fun it => it.status == QueueItemStatus.pending) := by
  induction l generalizing i with
  | nil => cases h
  | cons x rest ih =>
    unfold firstPendingIdx at h
    rcases hx : (x.status == QueueItemStatus.pending) with _ | _
    · rw [hx] at h
      simp only [Bool.false_eq_true, if_false, Option.map_eq_some'] at h
      rcases h with ⟨n, hn, rfl⟩
      rcases ih hn with ⟨a, ha, hfil⟩
      refine ⟨a, by simpa using ha, ?_⟩
      simp only [updateAt, List.filter_cons, hx, Bool.false_eq_true, if_false]
      exact hfil
    · rw [hx] at h
      simp only [if_true, Option.some.injEq] at h
      subst h
      refine ⟨x, rfl, ?_⟩
      simp only [updateAt, List.filter_cons, hx, if_true, hg x, Bool.false_eq_true, if_false]

theorem firstPendingIdx_none {l : List QueueItem} (h : firstPendingIdx l = none) :
    l.filter (fun it => it.status == QueueItemStatus.pending) = [] := by
  induction l with
  | nil => rfl
  | cons x rest ih =>
    unfold firstPendingIdx at h
    rcases hx : (x.status == QueueItemStatus.pending) with _ | _
    · rw [hx] at h
      simp only [Bool.false_eq_true, if_false, Option.map_eq_none'] at h
      simp only [List.filter_cons, hx, Bool.false_eq_true, if_false]
      exact ih h
    · rw [hx] at h
      simp at h

theorem startItem_status (env : QueueEnv) (pc : Nat) (a : QueueItem) :
    (startItem env pc a).status = QueueItemStatus.running := rfl

theorem startItem_id (env : QueueEnv) (pc : Nat) (a : QueueItem) :
    (startItem env pc a).id = a.id := rfl

theorem finishItem_id (env : QueueEnv) (pc : Nat) (a : QueueItem) :
    (finishItem env pc a).id = a.id := by
  unfold finishItem
  cases hr : env.run pc with
  | finished fs =>
    rcases h : (fs == Status.approved) with _ | _ <;> simp [h]
  | threw msg => rfl

theorem finishItem_terminal (env : QueueEnv) (pc : Nat) (a : QueueItem) :
    (finishItem env pc a).status = QueueItemStatus.completed ∨
    (finishItem env pc a).status = QueueItemStatus.failed := by
  unfold finishItem
  cases hr : env.run pc with
  | finished fs =>
    rcases h : (fs == Status.approved) with _ | _ <;> simp [h]
  | threw msg => simp

theorem finishItem_not_running (env : QueueEnv) (pc : Nat) (a : QueueItem) :
    ((finishItem env pc a).status == QueueItemStatus.running) = false := by
  rcases finishItem_terminal env pc a with h | h <;> simp [h]

theorem finishItem_not_pending (env : QueueEnv) (pc : Nat) (a : QueueItem) :
    ((finishItem env pc a).status == QueueItemStatus.pending) = false := by
  rcases finishItem_terminal env pc a with h | h <;> simp [h]

theorem procStarted_countRunning {env : QueueEnv} {pc : Nat} {st : QueueState} {i : Nat}
    {a : QueueItem} (ha : st.items.get? i = some a)
    (hpend : a.status = QueueItemStatus.pending) :
    countRunning (procStarted env pc st i).items = countRunning st.items + 1 := by
  have h := countRunning_updateAt ha (startItem env pc)
  rw [hpend] at h
  simp only [startItem_status] at h
  simp at h
  simp only [procStarted]
  omega

theorem procFinished_countRunning {env : QueueEnv} {pc : Nat} {st : QueueState} {i : Nat}
    {a : QueueItem} (ha : st.items.get? i = some a)
    (hpend : a.status = QueueItemStatus.pending) :
    countRunning (procFinished env pc st i).items = countRunning st.items := by
  have hget1 : (procStarted env pc st i).items.get? i = some (startItem env pc a) := by
    simp only [procStarted]
    exact updateAt_get_self ha _
  have h := countRunning_updateAt hget1 (finishItem env pc)
  simp only [startItem_status, finishItem_not_running] at h
  simp at h
  have h1 := @procStarted_countRunning env pc _ _ _ ha hpend
  simp only [procFinished]
  omega

/-- The single-lane invariant along a whole processing run: starting with no
running item, every intermediate state has at most one running item (exactly
zero whenever the processing flag is down), and the run ends idle with none
running. -/
theorem processNext_inv {env : QueueEnv} :
    ∀ (fuel : Nat) (st : QueueState) (pc : Nat) res, countRunning st.items = 0 →
    processNext env fuel st pc = some res →
    (∀ s ∈ res.2.2.snapshots, qInv s) ∧ countRunning res.1.items = 0 ∧
      res.1.isProcessing = false := by
  intro fuel
  induction fuel with
  | zero =>
    intro st pc res h0 hp
    unfold processNext at hp
    cases hidx : firstPendingIdx st.items with
    | none =>
      rw [hidx] at hp
      simp only [Option.some.injEq] at hp
      subst hp
      refine ⟨?_, by simpa [idleState] using h0, rfl⟩
      intro s hs
      simp only [List.mem_singleton] at hs
      subst hs
      exact ⟨by simp [idleState]; omega, fun _ => by simpa [idleState] using h0⟩
    | some i =>
      rw [hidx] at hp
      cases hp
  | succ f ih =>
    intro st pc res h0 hp
    unfold processNext at hp
    cases hidx : firstPendingIdx st.items with
    | none =>
      rw [hidx] at hp
      simp only [Option.some.injEq] at hp
      subst hp
      refine ⟨?_, by simpa [idleState] using h0, rfl⟩
      intro s hs
      simp only [List.mem_singleton] at hs
      subst hs
      exact ⟨by simp [idleState]; omega, fun _ => by simpa [idleState] using h0⟩
    | some i =>
      rw [hidx] at hp
      dsimp only at hp
      rcases firstPendingIdx_get hidx with ⟨a, ha, hpend⟩
      have hc1 : countRunning (procStarted env pc st i).items = 1 := by
        rw [procStarted_countRunning ha hpend, h0]
      have hc2 : countRunning (procFinished env pc st i).items = 0 := by
        rw [procFinished_countRunning ha hpend, h0]
      cases heq : processNext env f (procFinished env pc st i) (pc + 1) with
      | none =>
        rw [heq] at hp
        cases hp
      | some r2 =>
        rw [heq] at hp
        simp only [Option.some.injEq] at hp
        subst hp
        obtain ⟨hsnap2, hfin2, hproc2⟩ := ih _ _ _ hc2 heq
        refine ⟨?_, hfin2, hproc2⟩
        intro s hs
        simp only [QTrace.appendSnapshots, procTrace, List.mem_append, List.mem_cons,
          List.mem_singleton, List.not_mem_nil] at hs
        rcases hs with (rfl | rfl | h) | hs
        · exact ⟨by omega, fun hf => by simp [procStarted] at hf⟩
        · exact ⟨by omega, fun _ => hc2⟩
        · cases h
        · exact hsnap2 s hs

theorem statusRank_le_two (s : QueueItemStatus) : statusRank s ≤ 2 := by
  cases s <;> simp [statusRank]

theorem statusRank_finishItem (env : QueueEnv) (pc : Nat) (a : QueueItem) :
    statusRank (finishItem env pc a).status = 2 := by
  rcases finishItem_terminal env pc a with h | h <;> simp [h, statusRank]

theorem stepsForward_of_items_eq {pre post : QueueState} (h : pre.items = post.items) :
    StepsForward pre post := by
  intro i a b ha hb hid
  rw [h, hb, Option.some.injEq] at ha
  rw [ha]

theorem stepsForward_start {env : QueueEnv} {pc : Nat} {st : QueueState} {i : Nat}
    {a : QueueItem} (ha : st.items.get? i = some a)
    (hpend : a.status = QueueItemStatus.pending) :
    StepsForward st (procStarted env pc st i) := by
  intro j x y hx hy hid
  by_cases hj : i = j
  · subst hj
    rw [ha, Option.some.injEq] at hx
    subst hx
    simp only [procStarted] at hy
    rw [updateAt_get_self ha, Option.some.injEq] at hy
    subst hy
    rw [hpend]
    simp [statusRank, startItem_status]
  · simp only [procStarted] at hy
    rw [updateAt_get_ne _ j hj, hx, Option.some.injEq] at hy
    subst hy
    exact le_refl _

theorem stepsForward_finish {env : QueueEnv} {pc : Nat} {st : QueueState} {i : Nat} :
    StepsForward (procStarted env pc st i) (procFinished env pc st i) := by
  intro j x y hx hy hid
  by_cases hj : i = j
  · subst hj
    simp only [procFinished] at hy
    rw [updateAt_get_self hx, Option.some.injEq] at hy
    subst hy
    rw [statusRank_finishItem]
    exact statusRank_le_two _
  · simp only [procFinished] at hy
    rw [updateAt_get_ne _ j hj, hx, Option.some.injEq] at hy
    subst hy
    exact le_refl _

/-- Along any processing run, consecutive recorded states move item statuses
only forward. -/
theorem processNext_forward {env : QueueEnv} :
    ∀ (fuel : Nat) (st : QueueState) (pc : Nat) res,
    processNext env fuel st pc = some res →
    List.Chain' StepsForward (st :: res.2.2.snapshots) := by
  intro fuel
  induction fuel with
  | zero =>
    intro st pc res hp
    unfold processNext at hp
    cases hidx : firstPendingIdx st.items with
    | none =>
      rw [hidx] at hp
      simp only [Option.some.injEq] at hp
      subst hp
      exact List.chain'_cons.mpr ⟨stepsForward_of_items_eq rfl, List.chain'_singleton _⟩
    | some i =>
      rw [hidx] at hp
      cases hp
  | succ f ih =>
    intro st pc res hp
    unfold processNext at hp
    cases hidx : firstPendingIdx st.items with
    | none =>
      rw [hidx] at hp
      simp only [Option.some.injEq] at hp
      subst hp
      exact List.chain'_cons.mpr ⟨stepsForward_of_items_eq rfl, List.chain'_singleton _⟩
    | some i =>
      rw [hidx] at hp
      dsimp only at hp
      rcases firstPendingIdx_get hidx with ⟨a, ha, hpend⟩
      cases heq : processNext env f (procFinished env pc st i) (pc + 1) with
      | none =>
        rw [heq] at hp
        cases hp
      | some r2 =>
        rw [heq] at hp
        simp only [Option.some.injEq] at hp
        subst hp
        have hchain2 := ih _ _ _ heq
        simp only [QTrace.appendSnapshots, procTrace, List.cons_append, List.nil_append]
        exact List.chain'_cons.mpr ⟨stepsForward_start ha hpend,
          List.chain'_cons.mpr ⟨stepsForward_finish, hchain2⟩⟩

theorem finishKind_ne_started (env : QueueEnv) (pc : Nat) :
    (finishKind env pc == QueueEventKind.queue_item_started) = false := by
  unfold finishKind
  cases hr : env.run pc with
  | finished fs =>
    rcases h : (fs == Status.approved) with _ | _ <;> simp [h]
  | threw msg => rfl

theorem itemIdAt_eq {st : QueueState} {i : Nat} {a : QueueItem}
    (ha : st.items.get? i = some a) : itemIdAt st i = a.id := by
  unfold itemIdAt
  rw [ha]
  rfl

/-- The processing loop starts exactly the pending items, first pending
first, in insertion order. -/
theorem processNext_order {env : QueueEnv} :
    ∀ (fuel : Nat) (st : QueueState) (pc : Nat) res,
    processNext env fuel st pc = some res →
    startedIds res.2.2 =
      (st.items.filter (fun it => it.status == QueueItemStatus.pending)).map
        (fun it => some it.id) := by
  intro fuel
  induction fuel with
  | zero =>
    intro st pc res hp
    unfold processNext at hp
    cases hidx : firstPendingIdx st.items with
    | none =>
      rw [hidx] at hp
      simp only [Option.some.injEq] at hp
      subst hp
      rw [firstPendingIdx_none hidx]
      rfl
    | some i =>
      rw [hidx] at hp
      cases hp
  | succ f ih =>
    intro st pc res hp
    unfold processNext at hp
    cases hidx : firstPendingIdx st.items with
    | none =>
      rw [hidx] at hp
      simp only [Option.some.injEq] at hp
      subst hp
      rw [firstPendingIdx_none hidx]
      rfl
    | some i =>
      rw [hidx] at hp
      dsimp only at hp
      cases heq : processNext env f (procFinished env pc st i) (pc + 1) with
      | none =>
        rw [heq] at hp
        cases hp
      | some r2 =>
        rw [heq] at hp
        simp only [Option.some.injEq] at hp
        subst hp
        have horder := ih _ _ _ heq
        have hg : ∀ x, ((finishItem env pc (startItem env pc x)).status ==
            QueueItemStatus.pending) = false := fun x => finishItem_not_pending env pc _
        rcases filter_pending_updateAt hidx hg with ⟨a, ha, hfil⟩
        have hcomp : (procFinished env pc st i).items =
            updateAt st.items i (fun x => finishItem env pc (startItem env pc x)) := by
          simp only [procFinished, procStarted]
          exact updateAt_comp st.items i _ _
        rw [hcomp] at horder
        simp only [startedIds, QTrace.appendEvents, procTrace, List.filterMap_append]
        have hhead : List.filterMap (fun e =>
            if e.1 == QueueEventKind.queue_item_started then some e.2 else none)
            ([(QueueEventKind.queue_item_started, some (itemIdAt st i)),
              (finishKind env pc, some (itemIdAt st i))] :
                List (QueueEventKind × Option String)) = [some (itemIdAt st i)] := by
          have hne : finishKind env pc ≠ QueueEventKind.queue_item_started := by
            intro h
            have h2 := finishKind_ne_started env pc
            rw [h] at h2
            simp at h2
          simp [List.filterMap_cons, hne]
        rw [hhead]
        unfold startedIds at horder
        rw [horder, hfil, itemIdAt_eq ha]
        simp

theorem removeIdx_get {itemId : String} {l : List QueueItem} {i : Nat}
    (h : removeIdx itemId l = some i) :
    ∃ a, l.get? i = some a ∧ a.status = QueueItemStatus.pending := by
  induction l generalizing i with
  | nil => cases h
  | cons x rest ih =>
    unfold removeIdx at h
    rcases hx : (x.id == itemId && x.status == QueueItemStatus.pending) with _ | _
    · rw [hx] at h
      simp only [Bool.false_eq_true, if_false, Option.map_eq_some'] at h
      rcases h with ⟨n, hn, rfl⟩
      rcases ih hn with ⟨a, ha, hst⟩
      exact ⟨a, by simpa using ha, hst⟩
    · rw [hx] at h
      simp only [if_true, Option.some.injEq] at h
      subst h
      rcases Bool.and_eq_true_iff.mp hx with ⟨-, h2⟩
      exact ⟨x, rfl, beq_iff_eq.mp h2⟩

theorem countRunning_eraseIdx_pending {l : List QueueItem} {i : Nat} {a : QueueItem}
    (ha : l.get? i = some a) (hpend : a.status = QueueItemStatus.pending) :
    countRunning (l.eraseIdx i) = countRunning l := by
  induction l generalizing i with
  | nil => cases ha
  | cons x rest ih =>
    cases i with
    | zero =>
      simp only [List.get?_cons_zero, Option.some.injEq] at ha
      subst ha
      simp only [List.eraseIdx]
      rw [countRunning_cons, hpend]
      simp
    | succ n =>
      simp only [List.get?_cons_succ] at ha
      simp only [List.eraseIdx]
      rw [countRunning_cons, countRunning_cons, ih ha]

theorem countRunning_clearPending (l : List QueueItem) :
    countRunning (l.filter (fun it => !(it.status == QueueItemStatus.pending))) =
      countRunning l := by
  induction l with
  | nil => rfl
  | cons x rest ih =>
    rcases hp : (x.status == QueueItemStatus.pending) with _ | _
    · simp only [List.filter_cons, hp, Bool.not_false, if_true]
      rw [countRunning_cons, countRunning_cons, ih]
    · have hr : (x.status == QueueItemStatus.running) = false := by
        rw [beq_iff_eq.mp hp]
        simp
      simp only [List.filter_cons, hp, Bool.not_true, Bool.false_eq_true, if_false]
      rw [countRunning_cons, hr, ih]
      simp

theorem countRunning_cleanup (clock : String) (l : List QueueItem) :
    countRunning (l.map (cleanupItem clock)) = 0 := by
  induction l with
  | nil => rfl
  | cons x rest ih =>
    simp only [List.map_cons]
    rw [countRunning_cons, ih]
    unfold cleanupItem
    rcases hx : (x.status == QueueItemStatus.running) with _ | _
    · simp [hx]
    · simp

theorem filter_pending_cleanup (clock : String) (l : List QueueItem) :
    ((l.map (cleanupItem clock)).filter (fun it => it.status == QueueItemStatus.pending)) =
      l.filter (fun it => it.status == QueueItemStatus.pending) := by
  induction l with
  | nil => rfl
  | cons x rest ih =>
    simp only [List.map_cons, List.filter_cons]
    rcases hx : (x.status == QueueItemStatus.running) with _ | _
    · have hclean : cleanupItem clock x = x := by
        unfold cleanupItem
        rw [hx]
        simp
      rw [hclean, ih]
    · have hclean : (cleanupItem clock x).status = QueueItemStatus.failed := by
        unfold cleanupItem
        rw [hx]
        simp
      have h1 : ((cleanupItem clock x).status == QueueItemStatus.pending) = false := by
        rw [hclean]
        simp
      have h2 : (x.status == QueueItemStatus.pending) = false := by
        rw [beq_iff_eq.mp hx]
        simp
      rw [h1, h2]
      simpa using ih

/-- The items `addMany` appends, with their generated ids. -/
def newItemsList (env : QueueEnv) : Nat → List (String × OrchestratorOptions) → List QueueItem
  | _, [] => []
  | n, (f, o) :: rest => newItem env n f o :: newItemsList env (n + 1) rest

theorem addItems_spec (env : QueueEnv) :
    ∀ (reqs : List (String × OrchestratorOptions)) (idCnt : Nat) (st : QueueState),
    (addItems env idCnt reqs st).1.items = st.items ++ newItemsList env idCnt reqs ∧
    (addItems env idCnt reqs st).1.isProcessing = st.isProcessing ∧
    (∀ s ∈ (addItems env idCnt reqs st).2.snapshots,
      countRunning s.items = countRunning st.items ∧ s.isProcessing = st.isProcessing) ∧
    startedIds (addItems env idCnt reqs st).2 = [] := by
  intro reqs
  induction reqs with
  | nil =>
    intro idCnt st
    refine ⟨by simp [addItems, newItemsList], rfl, ?_, rfl⟩
    intro s hs
    cases hs
  | cons r rest ih =>
    intro idCnt st
    rcases r with ⟨f, o⟩
    obtain ⟨hitems, hproc, hsnap, hstart⟩ :=
      ih (idCnt + 1) { st with items := st.items ++ [newItem env idCnt f o] }
    have hcr : countRunning (st.items ++ [newItem env idCnt f o]) = countRunning st.items := by
      rw [countRunning_append, countRunning_cons]
      simp [newItem, countRunning_nil]
    refine ⟨?_, by simpa [addItems] using hproc, ?_, ?_⟩
    · simp only [addItems, newItemsList]
      rw [hitems]
      simp
    · intro s hs
      simp only [addItems, QTrace.appendSnapshots, List.mem_append, List.mem_singleton] at hs
      rcases hs with rfl | hs
      · exact ⟨hcr, rfl⟩
      · have := hsnap s hs
        simp only [hcr] at this
        exact this
    · simp only [addItems, startedIds, QTrace.appendEvents, List.filterMap_append]
      unfold startedIds at hstart
      rw [hstart]
      rfl

theorem newItemsList_pending (env : QueueEnv) :
    ∀ (reqs : List (String × OrchestratorOptions)) (idCnt : Nat),
    countRunning (newItemsList env idCnt reqs) = 0 ∧
    (newItemsList env idCnt reqs).filter (fun it => it.status == QueueItemStatus.pending) =
      newItemsList env idCnt reqs := by
  intro reqs
  induction reqs with
  | nil => intro idCnt; exact ⟨rfl, rfl⟩
  | cons r rest ih =>
    intro idCnt
    rcases r with ⟨f, o⟩
    obtain ⟨h1, h2⟩ := ih (idCnt + 1)
    constructor
    · simp only [newItemsList]
      rw [countRunning_cons, h1]
      simp [newItem]
    · simp only [newItemsList, List.filter_cons]
      have : ((newItem env idCnt f o).status == QueueItemStatus.pending) = true := rfl
      rw [this, h2]
      simp

/-- Every queue state reachable in the sequential model satisfies the
single-lane invariant. -/
theorem qreach_inv {env : QueueEnv} {st : QueueState} (h : QReach env st) : qInv st := by
  induction h with
  | initial => exact ⟨by simp [QueueState.initial, countRunning], fun _ => rfl⟩
  | @ofInitialize saved pc res s hinit hmem =>
    unfold queueInitialize at hinit
    dsimp only at hinit
    have hclean : countRunning (initializeClean env.clock saved).items = 0 := by
      simp only [initializeClean]
      exact countRunning_cleanup env.clock saved.items
    by_cases hg : 0 < ((initializeClean env.clock saved).items.filter
        (fun it => it.status == QueueItemStatus.pending)).length
    · rw [if_pos hg] at hinit
      cases heq : processNext env ((initializeClean env.clock saved).items.length + 1)
          (initializeClean env.clock saved) pc with
      | none =>
        rw [heq] at hinit
        cases hinit
      | some r2 =>
        rw [heq] at hinit
        simp only [Option.some.injEq] at hinit
        subst hinit
        obtain ⟨hsnap, -, -⟩ := processNext_inv _ _ _ _ hclean heq
        simp only [QTrace.appendSnapshots, List.mem_append, List.mem_singleton] at hmem
        rcases hmem with rfl | hmem
        · exact ⟨by omega, fun _ => hclean⟩
        · exact hsnap s hmem
    · rw [if_neg hg] at hinit
      simp only [Option.some.injEq] at hinit
      subst hinit
      simp only [List.mem_singleton] at hmem
      subst hmem
      exact ⟨by omega, fun _ => hclean⟩
  | @ofAdd st0 feature options idCnt pc res s hst hadd hmem ih =>
    unfold queueAdd at hadd
    dsimp only at hadd
    have hcr : countRunning (st0.items ++ [newItem env idCnt feature options]) =
        countRunning st0.items := by
      rw [countRunning_append, countRunning_cons]
      simp [newItem, countRunning_nil]
    by_cases hg : ({ st0 with
        items := st0.items ++ [newItem env idCnt feature options] } : QueueState).isProcessing
        = false
    · rw [if_pos hg] at hadd
      have hzero : countRunning ({ st0 with
          items := st0.items ++ [newItem env idCnt feature options] } : QueueState).items = 0 := by
        simp only [hcr]
        exact ih.2 hg
      cases heq : processNext env
          (({ st0 with items := st0.items ++ [newItem env idCnt feature options] } :
            QueueState).items.length + 1)
          { st0 with items := st0.items ++ [newItem env idCnt feature options] } pc with
      | none =>
        rw [heq] at hadd
        cases hadd
      | some r2 =>
        rw [heq] at hadd
        simp only [Option.some.injEq] at hadd
        subst hadd
        obtain ⟨hsnap, -, -⟩ := processNext_inv _ _ _ _ hzero heq
        simp only [QTrace.appendSnapshots, List.mem_append, List.mem_singleton] at hmem
        rcases hmem with rfl | hmem
        · exact ⟨by rw [hzero]; omega, fun _ => hzero⟩
        · exact hsnap s hmem
    · rw [if_neg hg] at hadd
      simp only [Option.some.injEq] at hadd
      subst hadd
      simp only [List.mem_singleton] at hmem
      subst hmem
      exact ⟨by rw [hcr]; exact ih.1, fun hf => by rw [hcr]; exact ih.2 hf⟩
  | @ofAddMany st0 reqs idCnt pc res s hst hadd hmem ih =>
    unfold queueAddMany at hadd
    dsimp only at hadd
    obtain ⟨hitems, hproc, hsnap0, -⟩ := addItems_spec env reqs idCnt st0
    have hcr : countRunning (addItems env idCnt reqs st0).1.items = countRunning st0.items := by
      rw [hitems, countRunning_append, (newItemsList_pending env reqs idCnt).1]
      omega
    by_cases hg : ((addItems env idCnt reqs st0).1.isProcessing = false ∧ 0 < reqs.length)
    · have hgb : ((!(addItems env idCnt reqs st0).1.isProcessing) &&
          decide (0 < reqs.length)) = true := by
        rw [hg.1]
        simp [hg.2]
      rw [hgb, if_pos rfl] at hadd
      have hzero : countRunning (addItems env idCnt reqs st0).1.items = 0 := by
        rw [hcr]
        exact ih.2 (hproc.symm.trans hg.1)
      cases heq : processNext env ((addItems env idCnt reqs st0).1.items.length + 1)
          (addItems env idCnt reqs st0).1 pc with
      | none =>
        rw [heq] at hadd
        cases hadd
      | some r2 =>
        rw [heq] at hadd
        simp only [Option.some.injEq] at hadd
        subst hadd
        obtain ⟨hsnap, -, -⟩ := processNext_inv _ _ _ _ hzero heq
        simp only [QTrace.appendSnapshots, List.mem_append, List.append_nil] at hmem
        rcases hmem with hmem | hmem
        · obtain ⟨hc, hp2⟩ := hsnap0 s hmem
          exact ⟨by rw [hc]; exact ih.1, fun hf => by
            rw [hc]
            exact ih.2 (hp2.symm.trans hf)⟩
        · exact hsnap s hmem
    · have hg2 : ((!(addItems env idCnt reqs st0).1.isProcessing) &&
          decide (0 < reqs.length)) = false := by
        rcases hp1 : (addItems env idCnt reqs st0).1.isProcessing with _ | _
        · have hl : ¬ (0 < reqs.length) := fun hl => hg ⟨hp1, hl⟩
          simp [hl]
        · simp [hp1]
      rw [hg2] at hadd
      simp only [Bool.false_eq_true, if_false, Option.some.injEq] at hadd
      subst hadd
      simp only [QTrace.appendSnapshots, List.append_nil] at hmem
      obtain ⟨hc, hp2⟩ := hsnap0 s hmem
      exact ⟨by rw [hc]; exact ih.1, fun hf => by
        rw [hc]
        exact ih.2 (hp2.symm.trans hf)⟩
  | @ofRemove st0 itemId s hst hmem ih =>
    unfold queueRemove at hmem
    dsimp only at hmem
    cases hidx : removeIdx itemId st0.items with
    | none =>
      rw [hidx] at hmem
      cases hmem
    | some i =>
      rw [hidx] at hmem
      simp only [List.mem_singleton] at hmem
      subst hmem
      rcases removeIdx_get hidx with ⟨a, ha, hpend⟩
      have hcr : countRunning (st0.items.eraseIdx i) = countRunning st0.items :=
        countRunning_eraseIdx_pending ha hpend
      exact ⟨by rw [hcr]; exact ih.1, fun hf => by rw [hcr]; exact ih.2 hf⟩
  | @ofClear st0 s hst hmem ih =>
    unfold queueClearPending at hmem
    dsimp only at hmem
    simp only [List.mem_singleton] at hmem
    subst hmem
    have hcr := countRunning_clearPending st0.items
    exact ⟨by rw [hcr]; exact ih.1, fun hf => by rw [hcr]; exact ih.2 hf⟩

/-- C6: crash recovery at startup.  Loading a persisted queue, `initialize`
persists first the cleaned state in which every `running` item has been
marked failed with the fixed error string and a completion stamp while every
other item is untouched, with the processing flags reset; then it starts
processing exactly the pending items, first pending (in insertion order)
first. -/
theorem C6_queue_crash_recovery :
    ∀ (env : QueueEnv) (saved : QueueState) (pc : Nat) res,
    queueInitialize env (some saved) pc = some res →
    res.2.2.saves.head? = some (initializeClean env.clock saved) ∧
    (initializeClean env.clock saved).isProcessing = false ∧
    (initializeClean env.clock saved).currentItemId = none ∧
    (initializeClean env.clock saved).items = saved.items.map (cleanupItem env.clock) ∧
    (∀ it, (it.status = QueueItemStatus.running →
        cleanupItem env.clock it =
          { it with
            status := .failed
            error := some "Server restarted while processing"
            completedAt := some env.clock }) ∧
      (it.status ≠ QueueItemStatus.running → cleanupItem env.clock it = it)) ∧
    startedIds res.2.2 =
      (saved.items.filter (fun it => it.status == QueueItemStatus.pending)).map
        (fun it => some it.id) := by
  intro env saved pc res hinit
  unfold queueInitialize at hinit
  dsimp only at hinit
  have hcleanspec : ∀ it : QueueItem, (it.status = QueueItemStatus.running →
      cleanupItem env.clock it =
        { it with
          status := .failed
          error := some "Server restarted while processing"
          completedAt := some env.clock }) ∧
      (it.status ≠ QueueItemStatus.running → cleanupItem env.clock it = it) := by
    intro it
    constructor
    · intro hr
      unfold cleanupItem
      rw [if_pos (beq_iff_eq.mpr hr)]
    · intro hnr
      unfold cleanupItem
      rw [if_neg (by simpa using hnr)]
  by_cases hg : 0 < ((initializeClean env.clock saved).items.filter
      (fun it => it.status == QueueItemStatus.pending)).length
  · rw [if_pos hg] at hinit
    cases heq : processNext env ((initializeClean env.clock saved).items.length + 1)
        (initializeClean env.clock saved) pc with
    | none =>
      rw [heq] at hinit
      cases hinit
    | some r2 =>
      rw [heq] at hinit
      simp only [Option.some.injEq] at hinit
      subst hinit
      refine ⟨rfl, rfl, rfl, rfl, hcleanspec, ?_⟩
      have horder := processNext_order _ _ _ _ heq
      have hclean : (initializeClean env.clock saved).items.filter
          (fun it => it.status == QueueItemStatus.pending) =
            saved.items.filter (fun it => it.status == QueueItemStatus.pending) := by
        simp only [initializeClean]
        exact filter_pending_cleanup env.clock saved.items
      simp only [startedIds, QTrace.appendEvents, List.filterMap_append]
      unfold startedIds at horder
      rw [horder, hclean]
      rfl
  · rw [if_neg hg] at hinit
    simp only [Option.some.injEq] at hinit
    subst hinit
    refine ⟨rfl, rfl, rfl, rfl, hcleanspec, ?_⟩
    have hclean : (initializeClean env.clock saved).items.filter
        (fun it => it.status == QueueItemStatus.pending) =
          saved.items.filter (fun it => it.status == QueueItemStatus.pending) := by
      simp only [initializeClean]
      exact filter_pending_cleanup env.clock saved.items
    have hempty : saved.items.filter (fun it => it.status == QueueItemStatus.pending) = [] := by
      rw [← hclean]
      rcases hfil : (initializeClean env.clock saved).items.filter
          (fun it => it.status == QueueItemStatus.pending) with _ | ⟨x, xs⟩
      · exact hfil
      · rw [hfil] at hg
        simp at hg
    rw [hempty]
    rfl

/-- C8: the single-lane queue invariants.  (1) every reachable state has at
most one running item; (2) along any processing run, item statuses move only
forward (pending → running → completed/failed) and the started items are
exactly the pending items in insertion order (first pending first); (3) an
`addMany` of three items on the idle fresh queue starts them strictly in
insertion order, with at most one running item in every intermediate
state. -/
theorem C8_queue_single_lane :
    (∀ (env : QueueEnv) (st : QueueState), QReach env st → countRunning st.items ≤ 1) ∧
    (∀ (env : QueueEnv) (fuel : Nat) (st : QueueState) (pc : Nat) res,
      processNext env fuel st pc = some res →
      List.Chain' StepsForward (st :: res.2.2.snapshots) ∧
      startedIds res.2.2 =
        (st.items.filter (fun it => it.status == QueueItemStatus.pending)).map
          (fun it => some it.id)) ∧
    (∀ (env : QueueEnv) (fa fb fc : String) (oa ob oc : OrchestratorOptions) (idCnt pc : Nat) res,
      queueAddMany env [(fa, oa), (fb, ob), (fc, oc)] QueueState.initial idCnt pc = some res →
      startedIds res.2.2 =
        [some (env.itemId idCnt), some (env.itemId (idCnt + 1)), some (env.itemId (idCnt + 2))] ∧
      (∀ s ∈ res.2.2.snapshots, countRunning s.items ≤ 1)) := by
  refine ⟨fun env st h => (qreach_inv h).1,
    fun env fuel st pc res hp => ⟨processNext_forward _ _ _ _ hp, processNext_order _ _ _ _ hp⟩,
    ?_⟩
  intro env fa fb fc oa ob oc idCnt pc res hadd
  have hreach : ∀ s ∈ res.2.2.snapshots, QReach env s := by
    intro s hs
    exact QReach.ofAddMany QReach.initial hadd hs
  refine ⟨?_, fun s hs => (qreach_inv (hreach s hs)).1⟩
  unfold queueAddMany at hadd
  dsimp only at hadd
  obtain ⟨hitems, hproc, -, hstart0⟩ :=
    addItems_spec env [(fa, oa), (fb, ob), (fc, oc)] idCnt QueueState.initial
  have hgb : ((!(addItems env idCnt [(fa, oa), (fb, ob), (fc, oc)]
      QueueState.initial).1.isProcessing) &&
      decide (0 < ([(fa, oa), (fb, ob), (fc, oc)] :
        List (String × OrchestratorOptions)).length)) = true := by
    rw [hproc]
    simp [QueueState.initial]
  rw [hgb, if_pos rfl] at hadd
  cases heq : processNext env
      ((addItems env idCnt [(fa, oa), (fb, ob), (fc, oc)] QueueState.initial).1.items.length + 1)
      (addItems env idCnt [(fa, oa), (fb, ob), (fc, oc)] QueueState.initial).1 pc with
  | none =>
    rw [heq] at hadd
    cases hadd
  | some r2 =>
    rw [heq] at hadd
    simp only [Option.some.injEq] at hadd
    subst hadd
    have horder := processNext_order _ _ _ _ heq
    rw [hitems] at horder
    have hfil := (newItemsList_pending env [(fa, oa), (fb, ob), (fc, oc)] idCnt).2
    simp only [QueueState.initial, List.nil_append] at horder
    rw [hfil] at horder
    simp only [startedIds, QTrace.appendEvents, List.filterMap_append]
    unfold startedIds at hstart0 horder
    rw [hstart0, horder]
    simp [newItemsList, newItem]

def qenvW : QueueEnv :=
  ⟨fun n => "item" ++ toString n, fun n => "sess" ++ toString n, "T0",
    fun n => if n == 0 then .finished .approved else .finished .failed⟩

def qoptsW : OrchestratorOptions := ⟨3, false, false, "/w"⟩

def mkItemW (id : String) (st : QueueItemStatus) : QueueItem :=
  ⟨id, "f", qoptsW, st, none, "T", none, none, none⟩

/-- The queue of the spec's crash-recovery scenario: one running item and two
pending items. -/
def savedW : QueueState :=
  ⟨[mkItemW "r1" .running, mkItemW "p1" .pending, mkItemW "p2" .pending], true, some "r1"⟩

theorem C6_witness :
    ∃ res, queueInitialize qenvW (some savedW) 0 = some res ∧
      res.2.2.saves.head? = some (initializeClean qenvW.clock savedW) ∧
      startedIds res.2.2 =
        (savedW.items.filter (fun it => it.status == QueueItemStatus.pending)).map
          (fun it => some it.id) := by
  have hs : (queueInitialize qenvW (some savedW) 0).isSome = true := by decide
  obtain ⟨res, hres⟩ := Option.isSome_iff_exists.mp hs
  have h := C6_queue_crash_recovery qenvW savedW 0 res hres
  exact ⟨res, hres, h.1, h.2.2.2.2.2⟩

theorem C8_witness :
    (countRunning QueueState.initial.items ≤ 1) ∧
    (∃ res, queueAddMany qenvW [("a", qoptsW), ("b", qoptsW), ("c", qoptsW)]
        QueueState.initial 0 0 = some res ∧
      startedIds res.2.2 = [some (qenvW.itemId 0), some (qenvW.itemId 1), some (qenvW.itemId 2)] ∧
      (∀ s ∈ res.2.2.snapshots, countRunning s.items ≤ 1)) := by
  refine ⟨C8_queue_single_lane.1 qenvW QueueState.initial QReach.initial, ?_⟩
  have hs : (queueAddMany qenvW [("a", qoptsW), ("b", qoptsW), ("c", qoptsW)]
      QueueState.initial 0 0).isSome = true := by decide
  obtain ⟨res, hres⟩ := Option.isSome_iff_exists.mp hs
  have h := C8_queue_single_lane.2.2 qenvW "a" "b" "c" qoptsW qoptsW qoptsW 0 0 res hres
  exact ⟨res, hres, h.1, h.2⟩

/-! ### Engine event classification (for the error-handling claims) -/

/-- An `agent_complete` event reporting `success = false`. -/
def isFailComplete (e : ServerEvent) : Bool :=
  e.type == ServerEventType.agent_complete &&
    (match e.data with
     | .agentDone _ _ _ success => !success
     | _ => false)

def hasFail (E : List ServerEvent) : Bool := E.any isFailComplete

def nErr (E : List ServerEvent) : Nat :=
  (E.filter (fun e => e.type == ServerEventType.error)).length

def nCompl (E : List ServerEvent) : Nat :=
  (E.filter (fun e => e.type == ServerEventType.complete)).length

/-- Every error-typed event carries `fatal = true`. -/
def fatalIfError (e : ServerEvent) : Bool :=
  !(e.type == ServerEventType.error) ||
    (match e.data with
     | .errorInfo _ f => f
     | _ => false)

def allFatal (E : List ServerEvent) : Bool := E.all fatalIfError

theorem hasFail_append (a b : List ServerEvent) :
    hasFail (a ++ b) = (hasFail a || hasFail b) := List.any_append

theorem nErr_append (a b : List ServerEvent) : nErr (a ++ b) = nErr a + nErr b := by
  simp [nErr, List.filter_append]

theorem nCompl_append (a b : List ServerEvent) : nCompl (a ++ b) = nCompl a + nCompl b := by
  simp [nCompl, List.filter_append]

theorem allFatal_append (a b : List ServerEvent) :
    allFatal (a ++ b) = (allFatal a && allFatal b) := List.all_append

/-- Event classification of a trace that ends in an early `return state`:
either a fatal agent failure (exactly one fatal error, no complete, status
failed), a user abort (no error, no complete), or an approval (no error, one
complete, status approved). -/
def retEvents (E : List ServerEvent) (st : OrchestrationState) : Prop :=
  (hasFail E = true ∧ nErr E = 1 ∧ nCompl E = 0 ∧ st.status = Status.failed) ∨
  (hasFail E = false ∧ nErr E = 0 ∧ nCompl E = 0 ∧ st.status = Status.failed) ∨
  (hasFail E = false ∧ nErr E = 0 ∧ nCompl E = 1 ∧ st.status = Status.approved)

/-- Event classification of a trace that continues: no failure, no error, no
complete. -/
def cleanEvents (E : List ServerEvent) : Prop :=
  hasFail E = false ∧ nErr E = 0 ∧ nCompl E = 0

/-- `implInvoke` characterization: the one implementer invocation is recorded
at the current iteration; on failure the run returns failed with one fatal
error; on success one history entry is appended at the current iteration. -/
theorem implInvoke_spec {env : Env} {opts : OrchestratorOptions} {st2 : OrchestrationState}
    {p : String} {cnt : Counters} {r : StepRes} {t : Trace}
    (h : implInvoke env opts st2 p cnt = (r, t)) :
    allFatal t.events = true ∧
    (∀ v ∈ t.invocations, v.role = Role.implementer ∧ v.iteration = st2.iteration) ∧
    (∀ st3 c3, r = .ret st3 c3 →
      st3.iteration = st2.iteration ∧ st3.maxIterations = st2.maxIterations ∧
      st3.id = st2.id ∧ st3.feature = st2.feature ∧ st3.workingDir = st2.workingDir ∧
      st3.generatedPrompt = st2.generatedPrompt ∧ st3.history = st2.history ∧
      st3.status = Status.failed ∧
      hasFail t.events = true ∧ nErr t.events = 1 ∧ nCompl t.events = 0) ∧
    (∀ st4 c4, r = .ok st4 c4 →
      st4.iteration = st2.iteration ∧ st4.maxIterations = st2.maxIterations ∧
      st4.id = st2.id ∧ st4.feature = st2.feature ∧ st4.workingDir = st2.workingDir ∧
      st4.generatedPrompt = st2.generatedPrompt ∧
      (∃ out, st4.history = st2.history ++
        [⟨Agent.claude, Role.implementer, out, st2.iteration⟩]) ∧
      cleanEvents t.events) := by
  unfold implInvoke at h
  dsimp only at h
  rcases hs : (env.implementer cnt.implCount).success with _ | _
  · rw [if_pos hs] at h
    rcases h with ⟨rfl, rfl⟩
    refine ⟨by simp [allFatal, emitT, invokeT, saveT, fatalIfError, hs], ?_, ?_, ?_⟩
    · intro v hv
      simp [emitT, invokeT, saveT] at hv
      subst hv
      exact ⟨rfl, rfl⟩
    · intro st3 c3 hE
      cases hE
      exact ⟨rfl, rfl, rfl, rfl, rfl, rfl, rfl, rfl,
        by simp [hasFail, emitT, invokeT, saveT, isFailComplete, hs],
        by simp [nErr, emitT, invokeT, saveT],
        by simp [nCompl, emitT, invokeT, saveT]⟩
    · intro st4 c4 hE
      cases hE
  · rw [if_neg (by simp [hs])] at h
    rcases h with ⟨rfl, rfl⟩
    refine ⟨?_, ?_, ?_, ?_⟩
    · rcases hv : opts.verbose with _ | _ <;>
        simp [allFatal, emitT, invokeT, saveT, Trace.nil, fatalIfError, hs, hv]
    · intro v hv2
      rcases hv : opts.verbose with _ | _ <;>
        rw [hv] at hv2 <;>
        simp [emitT, invokeT, saveT, Trace.nil] at hv2 <;>
        (subst hv2; exact ⟨rfl, rfl⟩)
    · intro st3 c3 hE
      cases hE
    · intro st4 c4 hE
      cases hE
      refine ⟨rfl, rfl, rfl, rfl, rfl, rfl,
        ⟨(env.implementer cnt.implCount).output, rfl⟩, ?_⟩
      rcases hv : opts.verbose with _ | _ <;>
        simp [cleanEvents, hasFail, nErr, nCompl, emitT, invokeT, saveT, Trace.nil,
          isFailComplete, hs, hv]

/-- `implPhase` characterization: scalar state fields are preserved, every
invocation is an implementer call at the current iteration; an early return
is a failure (one fatal error) or an interactive abort (no error), with the
history untouched; success leaves the history untouched (skip) or appends one
implementer entry at the current iteration. -/
theorem implPhase_spec {env : Env} {opts : OrchestratorOptions} {gp : String}
    {st1 : OrchestrationState} {sk : Bool} {fb : Option String} {cnt : Counters}
    {r : StepRes} {t : Trace}
    (h : implPhase env opts gp st1 sk fb cnt = (r, t)) :
    allFatal t.events = true ∧
    (∀ v ∈ t.invocations, v.role = Role.implementer ∧ v.iteration = st1.iteration) ∧
    (∀ st3 c3, r = .ret st3 c3 →
      st3.iteration = st1.iteration ∧ st3.maxIterations = st1.maxIterations ∧
      st3.id = st1.id ∧ st3.feature = st1.feature ∧ st3.workingDir = st1.workingDir ∧
      st3.generatedPrompt = st1.generatedPrompt ∧ st3.history = st1.history ∧
      st3.status = Status.failed ∧
      ((hasFail t.events = true ∧ nErr t.events = 1 ∧ nCompl t.events = 0) ∨
       (hasFail t.events = false ∧ nErr t.events = 0 ∧ nCompl t.events = 0))) ∧
    (∀ st4 c4, r = .ok st4 c4 →
      st4.iteration = st1.iteration ∧ st4.maxIterations = st1.maxIterations ∧
      st4.id = st1.id ∧ st4.feature = st1.feature ∧ st4.workingDir = st1.workingDir ∧
      st4.generatedPrompt = st1.generatedPrompt ∧
      (st4.history = st1.history ∨ ∃ out, st4.history = st1.history ++
        [⟨Agent.claude, Role.implementer, out, st1.iteration⟩]) ∧
      cleanEvents t.events) := by
  unfold implPhase at h
  dsimp only at h
  rcases sk with _ | _
  · -- full implementation step
    rw [if_neg (by simp)] at h
    rcases hc : (opts.interactive && decide (1 < st1.iteration) && optTruthy fb) with _ | _
    · -- no interactive gate: implInvoke with the status prefix
      rw [hc, if_neg (by simp)] at h
      rcases hI : implInvoke env opts
          { st1 with status := Status.implementing, lastFailedStep := some FailedStep.implementing }
          (if (st1.iteration == 1 || !optTruthy fb) = true then gp
           else buildFeedbackPrompt st1.feature (fb.getD "") st1.iteration)
          cnt with ⟨r2, t2⟩
      rw [hI] at h
      dsimp only at h
      rcases h with ⟨rfl, rfl⟩
      obtain ⟨hA, hIv, hRet, hOk⟩ := implInvoke_spec hI
      refine ⟨?_, ?_, ?_, ?_⟩
      · rw [Trace.append_events, allFatal_append, hA]
        simp [allFatal, emitT, saveT, fatalIfError]
      · intro v hv
        rw [Trace.append_invocations, List.mem_append] at hv
        rcases hv with hv | hv
        · simp [emitT, saveT] at hv
        · exact hIv v hv
      · intro st3 c3 hE
        obtain ⟨h1, h2, h3, h4, h5, h6, h7, h8, hf1, hf2, hf3⟩ := hRet st3 c3 hE
        refine ⟨h1, h2, h3, h4, h5, h6, h7, h8, Or.inl ⟨?_, ?_, ?_⟩⟩
        · rw [Trace.append_events, hasFail_append, hf1]
          simp
        · rw [Trace.append_events, nErr_append, hf2]
          simp [nErr, emitT, saveT]
        · rw [Trace.append_events, nCompl_append, hf3]
          simp [nCompl, emitT, saveT]
      · intro st4 c4 hE
        obtain ⟨h1, h2, h3, h4, h5, h6, h7, hf1, hf2, hf3⟩ := hOk st4 c4 hE
        refine ⟨h1, h2, h3, h4, h5, h6, Or.inr h7, ?_, ?_, ?_⟩
        · rw [Trace.append_events, hasFail_append, hf1]
          simp [hasFail, emitT, saveT, isFailComplete]
        · rw [Trace.append_events, nErr_append, hf2]
          simp [nErr, emitT, saveT]
        · rw [Trace.append_events, nCompl_append, hf3]
          simp [nCompl, emitT, saveT]
    · -- interactive feedback gate taken
      rw [hc, if_pos rfl] at h
      rcases ha : env.answer cnt.answerCount with _ | _
      · -- user aborted
        rw [if_pos ha] at h
        rcases h with ⟨rfl, rfl⟩
        refine ⟨by simp [allFatal, emitT, saveT, fatalIfError], ?_, ?_, ?_⟩
        · intro v hv
          simp [emitT, saveT] at hv
        · intro st3 c3 hE
          cases hE
          exact ⟨rfl, rfl, rfl, rfl, rfl, rfl, rfl, rfl,
            Or.inr (by refine ⟨?_, ?_, ?_⟩ <;>
              simp [hasFail, nErr, nCompl, emitT, saveT, isFailComplete])⟩
        · intro st4 c4 hE
          cases hE
      · -- user proceeded: implInvoke with the gate log prefix
        rw [if_neg (by simp [ha])] at h
        rcases hI : implInvoke env opts
            { st1 with status := Status.implementing, lastFailedStep := some FailedStep.implementing }
            (if (st1.iteration == 1 || !optTruthy fb) = true then gp
             else buildFeedbackPrompt st1.feature (fb.getD "") st1.iteration)
            { cnt with answerCount := cnt.answerCount + 1 } with ⟨r2, t2⟩
        rw [hI] at h
        dsimp only at h
        rcases h with ⟨rfl, rfl⟩
        obtain ⟨hA, hIv, hRet, hOk⟩ := implInvoke_spec hI
        refine ⟨?_, ?_, ?_, ?_⟩
        · rw [Trace.append_events, allFatal_append, hA]
          simp [allFatal, emitT, saveT, fatalIfError]
        · intro v hv
          rw [Trace.append_invocations, List.mem_append] at hv
          rcases hv with hv | hv
          · simp [emitT, saveT] at hv
          · exact hIv v hv
        · intro st3 c3 hE
          obtain ⟨h1, h2, h3, h4, h5, h6, h7, h8, hf1, hf2, hf3⟩ := hRet st3 c3 hE
          refine ⟨h1, h2, h3, h4, h5, h6, h7, h8, Or.inl ⟨?_, ?_, ?_⟩⟩
          · rw [Trace.append_events, hasFail_append, hf1]
            simp
          · rw [Trace.append_events, nErr_append, hf2]
            simp [nErr, emitT, saveT]
          · rw [Trace.append_events, nCompl_append, hf3]
            simp [nCompl, emitT, saveT]
        · intro st4 c4 hE
          obtain ⟨h1, h2, h3, h4, h5, h6, h7, hf1, hf2, hf3⟩ := hOk st4 c4 hE
          refine ⟨h1, h2, h3, h4, h5, h6, Or.inr h7, ?_, ?_, ?_⟩
          · rw [Trace.append_events, hasFail_append, hf1]
            simp [hasFail, emitT, saveT, isFailComplete]
          · rw [Trace.append_events, nErr_append, hf2]
            simp [nErr, emitT, saveT]
          · rw [Trace.append_events, nCompl_append, hf3]
            simp [nCompl, emitT, saveT]
  · -- skip branch
    rw [if_pos rfl] at h
    rcases h with ⟨rfl, rfl⟩
    refine ⟨by simp [allFatal, emitT, fatalIfError], ?_, ?_, ?_⟩
    · intro v hv
      simp [emitT] at hv
    · intro st3 c3 hE
      cases hE
    · intro st4 c4 hE
      cases hE
      exact ⟨rfl, rfl, rfl, rfl, rfl, rfl, Or.inl rfl,
        by refine ⟨?_, ?_, ?_⟩ <;> simp [hasFail, nErr, nCompl, emitT, isFailComplete]⟩

/-- `reviewPhase` characterization: the one reviewer invocation happens at the
current iteration; an early return is a failure (one fatal error, history
untouched) or an approval (one complete event, one reviewer history entry); a
continuation appends one reviewer history entry, increments the iteration and
clears the resume flags exactly when the pass skipped the implementation. -/
theorem reviewPhase_spec {env : Env} {opts : OrchestratorOptions} {st5 : OrchestrationState}
    {sk : Bool} {resuming : Option FailedStep} {rIter : Nat} {cnt : Counters}
    {r : ReviewRes} {t : Trace}
    (h : reviewPhase env opts st5 sk resuming rIter cnt = (r, t)) :
    allFatal t.events = true ∧
    t.invocations = [⟨Role.reviewer, st5.iteration, st5.feature⟩] ∧
    (∀ st9 c, r = .ret st9 c →
      st9.iteration = st5.iteration ∧ st9.maxIterations = st5.maxIterations ∧
      st9.id = st5.id ∧ st9.feature = st5.feature ∧ st9.workingDir = st5.workingDir ∧
      st9.generatedPrompt = st5.generatedPrompt ∧
      ((st9.status = Status.failed ∧ st9.history = st5.history ∧
          hasFail t.events = true ∧ nErr t.events = 1 ∧ nCompl t.events = 0) ∨
       (st9.status = Status.approved ∧
          (∃ out, st9.history = st5.history ++
            [⟨Agent.codex, Role.reviewer, out, st5.iteration⟩]) ∧
          hasFail t.events = false ∧ nErr t.events = 0 ∧ nCompl t.events = 1))) ∧
    (∀ st7 r2 ri2 fb2 c, r = .next st7 r2 ri2 fb2 c →
      st7.maxIterations = st5.maxIterations ∧ st7.id = st5.id ∧
      st7.feature = st5.feature ∧ st7.workingDir = st5.workingDir ∧
      st7.generatedPrompt = st5.generatedPrompt ∧
      (∃ out, st7.history = st5.history ++
        [⟨Agent.codex, Role.reviewer, out, st5.iteration⟩]) ∧
      st7.iteration = (if sk then st5.iteration + 1 else st5.iteration) ∧
      r2 = (if sk then none else resuming) ∧ ri2 = (if sk then 0 else rIter) ∧
      cleanEvents t.events) := by
  unfold reviewPhase at h
  dsimp only at h
  rcases hs : (env.reviewer cnt.revCount).success with _ | _
  · -- reviewer failed
    rw [if_pos hs] at h
    rcases h with ⟨rfl, rfl⟩
    refine ⟨by simp [allFatal, emitT, invokeT, saveT, fatalIfError, hs],
      by simp [emitT, invokeT, saveT], ?_, ?_⟩
    · intro st9 c hE
      cases hE
      exact ⟨rfl, rfl, rfl, rfl, rfl, rfl, Or.inl ⟨rfl, rfl,
        by simp [hasFail, emitT, invokeT, saveT, isFailComplete, hs],
        by simp [nErr, emitT, invokeT, saveT],
        by simp [nCompl, emitT, invokeT, saveT]⟩⟩
    · intro st7 r2 ri2 fb2 c hE
      cases hE
  · rw [if_neg (by simp [hs])] at h
    rcases happ : isApproved (env.reviewer cnt.revCount).output with _ | _
    · -- changes requested: continue
      rw [happ, if_neg (by simp)] at h
      rcases sk with _ | _
      · rw [if_neg (by simp)] at h
        rcases h with ⟨rfl, rfl⟩
        refine ⟨?_, ?_, ?_, ?_⟩
        · rcases hv : opts.verbose with _ | _ <;>
            simp [allFatal, emitT, invokeT, saveT, Trace.nil, fatalIfError, hs, hv]
        · rcases hv : opts.verbose with _ | _ <;>
            simp [emitT, invokeT, saveT, Trace.nil, hv]
        · intro st9 c hE
          cases hE
        · intro st7 r2 ri2 fb2 c hE
          cases hE
          refine ⟨rfl, rfl, rfl, rfl, rfl,
            ⟨(env.reviewer cnt.revCount).output, rfl⟩, rfl, rfl, rfl, ?_⟩
          rcases hv : opts.verbose with _ | _ <;>
            refine ⟨?_, ?_, ?_⟩ <;>
            simp [hasFail, nErr, nCompl, emitT, invokeT, saveT, Trace.nil,
              isFailComplete, hs, hv]
      · rw [if_pos rfl] at h
        rcases h with ⟨rfl, rfl⟩
        refine ⟨?_, ?_, ?_, ?_⟩
        · rcases hv : opts.verbose with _ | _ <;>
            simp [allFatal, emitT, invokeT, saveT, Trace.nil, fatalIfError, hs, hv]
        · rcases hv : opts.verbose with _ | _ <;>
            simp [emitT, invokeT, saveT, Trace.nil, hv]
        · intro st9 c hE
          cases hE
        · intro st7 r2 ri2 fb2 c hE
          cases hE
          refine ⟨rfl, rfl, rfl, rfl, rfl,
            ⟨(env.reviewer cnt.revCount).output, rfl⟩, rfl, rfl, rfl, ?_⟩
          rcases hv : opts.verbose with _ | _ <;>
            refine ⟨?_, ?_, ?_⟩ <;>
            simp [hasFail, nErr, nCompl, emitT, invokeT, saveT, Trace.nil,
              isFailComplete, hs, hv]
    · -- approved
      rw [happ, if_pos rfl] at h
      rcases h with ⟨rfl, rfl⟩
      refine ⟨?_, ?_, ?_, ?_⟩
      · rcases hv : opts.verbose with _ | _ <;>
          simp [allFatal, emitT, invokeT, saveT, Trace.nil, fatalIfError, hs, hv]
      · rcases hv : opts.verbose with _ | _ <;>
          simp [emitT, invokeT, saveT, Trace.nil, hv]
      · intro st9 c hE
        cases hE
        refine ⟨rfl, rfl, rfl, rfl, rfl, rfl, Or.inr ⟨rfl,
          ⟨(env.reviewer cnt.revCount).output, rfl⟩, ?_, ?_, ?_⟩⟩
        · rcases hv : opts.verbose with _ | _ <;>
            simp [hasFail, emitT, invokeT, saveT, Trace.nil, isFailComplete, hs, hv]
        · rcases hv : opts.verbose with _ | _ <;>
            simp [nErr, emitT, invokeT, saveT, Trace.nil, hv]
        · rcases hv : opts.verbose with _ | _ <;>
            simp [nCompl, emitT, invokeT, saveT, Trace.nil, hv]
      · intro st7 r2 ri2 fb2 c hE
        cases hE

/-- `promptPhase` characterization: scalar state fields are preserved; an
early return is a prompt-generation failure (one fatal error) or an
interactive abort (no error), with status failed; success yields the cached
history unchanged or appends one prompt-generator entry at iteration 0. -/
theorem promptPhase_spec {env : Env} {opts : OrchestratorOptions} {st : OrchestrationState}
    {cnt : Counters} {r : PromptRes} {t : Trace}
    (h : promptPhase env opts st cnt = (r, t)) :
    allFatal t.events = true ∧
    (∀ st2 c, r = .ret st2 c →
      st2.iteration = st.iteration ∧ st2.maxIterations = st.maxIterations ∧
      st2.id = st.id ∧ st2.feature = st.feature ∧ st2.workingDir = st.workingDir ∧
      st2.status = Status.failed ∧
      (st2.history = st.history ∨ ∃ g, st2.history = st.history ++
        [⟨Agent.codex, Role.promptGenerator, g, 0⟩]) ∧
      ((hasFail t.events = true ∧ nErr t.events = 1 ∧ nCompl t.events = 0) ∨
       (hasFail t.events = false ∧ nErr t.events = 0 ∧ nCompl t.events = 0))) ∧
    (∀ gp st2 c, r = .ok gp st2 c →
      st2.iteration = st.iteration ∧ st2.maxIterations = st.maxIterations ∧
      st2.id = st.id ∧ st2.feature = st.feature ∧ st2.workingDir = st.workingDir ∧
      (st2.history = st.history ∨ st2.history = st.history ++
        [⟨Agent.codex, Role.promptGenerator, gp, 0⟩]) ∧
      cleanEvents t.events) := by
  unfold promptPhase at h
  dsimp only at h
  rcases hgp : optTruthy st.generatedPrompt with _ | _
  · -- no cached prompt: generate one
    rw [hgp, if_neg (by simp)] at h
    rcases hs : (env.promptGen cnt.promptGenCount).success with _ | _
    · -- generation failed
      rw [if_pos hs] at h
      rcases h with ⟨rfl, rfl⟩
      refine ⟨by simp [allFatal, emitT, invokeT, saveT, fatalIfError, hs], ?_, ?_⟩
      · intro st2 c hE
        cases hE
        exact ⟨rfl, rfl, rfl, rfl, rfl, rfl, Or.inl rfl, Or.inl ⟨
          by simp [hasFail, emitT, invokeT, saveT, isFailComplete, hs],
          by simp [nErr, emitT, invokeT, saveT],
          by simp [nCompl, emitT, invokeT, saveT]⟩⟩
      · intro gp st2 c hE
        cases hE
    · rw [if_neg (by simp [hs])] at h
      rcases hi : opts.interactive with _ | _
      · -- non-interactive: success
        rw [hi, if_neg (by simp)] at h
        rcases h with ⟨rfl, rfl⟩
        refine ⟨?_, ?_, ?_⟩
        · rcases hv : opts.verbose with _ | _ <;>
            simp [allFatal, emitT, invokeT, saveT, Trace.nil, fatalIfError, hs, hv]
        · intro st2 c hE
          cases hE
        · intro gp st2 c hE
          cases hE
          refine ⟨rfl, rfl, rfl, rfl, rfl, Or.inr rfl, ?_⟩
          rcases hv : opts.verbose with _ | _ <;>
            refine ⟨?_, ?_, ?_⟩ <;>
            simp [hasFail, nErr, nCompl, emitT, invokeT, saveT, Trace.nil,
              isFailComplete, hs, hv]
      · -- interactive gate after generation
        rw [hi, if_pos rfl] at h
        rcases ha : env.answer (cnt.answerCount) with _ | _
        · -- user aborted
          rw [if_pos ha] at h
          rcases h with ⟨rfl, rfl⟩
          refine ⟨?_, ?_, ?_⟩
          · rcases hv : opts.verbose with _ | _ <;>
              simp [allFatal, emitT, invokeT, saveT, Trace.nil, fatalIfError, hs, hv]
          · intro st2 c hE
            cases hE
            refine ⟨rfl, rfl, rfl, rfl, rfl, rfl,
              Or.inr ⟨(env.promptGen cnt.promptGenCount).output, rfl⟩, Or.inr ?_⟩
            rcases hv : opts.verbose with _ | _ <;>
              refine ⟨?_, ?_, ?_⟩ <;>
              simp [hasFail, nErr, nCompl, emitT, invokeT, saveT, Trace.nil,
                isFailComplete, hs, hv]
          · intro gp st2 c hE
            cases hE
        · -- user proceeded
          rw [if_neg (by simp [ha])] at h
          rcases h with ⟨rfl, rfl⟩
          refine ⟨?_, ?_, ?_⟩
          · rcases hv : opts.verbose with _ | _ <;>
              simp [allFatal, emitT, invokeT, saveT, Trace.nil, fatalIfError, hs, hv]
          · intro st2 c hE
            cases hE
          · intro gp st2 c hE
            cases hE
            refine ⟨rfl, rfl, rfl, rfl, rfl, Or.inr rfl, ?_⟩
            rcases hv : opts.verbose with _ | _ <;>
              refine ⟨?_, ?_, ?_⟩ <;>
              simp [hasFail, nErr, nCompl, emitT, invokeT, saveT, Trace.nil,
                isFailComplete, hs, hv]
  · -- cached prompt reused
    rw [hgp, if_pos rfl] at h
    rcases h with ⟨rfl, rfl⟩
    refine ⟨by simp [allFatal, emitT, fatalIfError], ?_, ?_⟩
    · intro st2 c hE
      cases hE
    · intro gp st2 c hE
      cases hE
      exact ⟨rfl, rfl, rfl, rfl, rfl, Or.inl rfl,
        by refine ⟨?_, ?_, ?_⟩ <;> simp [hasFail, nErr, nCompl, emitT, isFailComplete]⟩

theorem cleanEvents_append {a b : List ServerEvent}
    (ha : cleanEvents a) (hb : cleanEvents b) : cleanEvents (a ++ b) := by
  obtain ⟨ha1, ha2, ha3⟩ := ha
  obtain ⟨hb1, hb2, hb3⟩ := hb
  refine ⟨?_, ?_, ?_⟩
  · rw [hasFail_append, ha1, hb1]
    rfl
  · rw [nErr_append, ha2, hb2]
  · rw [nCompl_append, ha3, hb3]

theorem retEvents_append_clean {a b : List ServerEvent} {st : OrchestrationState}
    (ha : cleanEvents a) (hb : retEvents b st) : retEvents (a ++ b) st := by
  obtain ⟨ha1, ha2, ha3⟩ := ha
  rcases hb with ⟨hb1, hb2, hb3, hb4⟩ | ⟨hb1, hb2, hb3, hb4⟩ | ⟨hb1, hb2, hb3, hb4⟩
  · exact Or.inl ⟨by rw [hasFail_append, ha1, hb1]; rfl, by rw [nErr_append, ha2, hb2],
      by rw [nCompl_append, ha3, hb3], hb4⟩
  · exact Or.inr (Or.inl ⟨by rw [hasFail_append, ha1, hb1]; rfl, by rw [nErr_append, ha2, hb2],
      by rw [nCompl_append, ha3, hb3], hb4⟩)
  · exact Or.inr (Or.inr ⟨by rw [hasFail_append, ha1, hb1]; rfl, by rw [nErr_append, ha2, hb2],
      by rw [nCompl_append, ha3, hb3], hb4⟩)

/-- One loop pass (`loopBody`) characterization: the pass iteration is the
entry iteration when the pass skips the implementation and one more
otherwise; every invocation and every appended history entry carries the pass
iteration; an early return classifies as `retEvents`, a continuation is
event-clean, ends at entry iteration + 1 on either path, and clears the
resume flags exactly when the pass skipped. -/
theorem loopBody_spec {env : Env} {opts : OrchestratorOptions} {gp : String}
    {st0 : OrchestrationState} {resuming : Option FailedStep} {rIter : Nat}
    {fb : Option String} {cnt : Counters} {r : ReviewRes} {t : Trace}
    (h : loopBody env opts gp st0 resuming rIter fb cnt = (r, t)) :
    allFatal t.events = true ∧
    (∀ v ∈ t.invocations, v.iteration =
      (if (resuming == some FailedStep.reviewing && st0.iteration == rIter) then st0.iteration
       else st0.iteration + 1)) ∧
    (∀ st c, r = .ret st c →
      st.iteration =
        (if (resuming == some FailedStep.reviewing && st0.iteration == rIter) then st0.iteration
         else st0.iteration + 1) ∧
      st.maxIterations = st0.maxIterations ∧ st.id = st0.id ∧ st.feature = st0.feature ∧
      st.workingDir = st0.workingDir ∧ st.generatedPrompt = st0.generatedPrompt ∧
      retEvents t.events st ∧
      (∃ new, st.history = st0.history ++ new ∧ ∀ a ∈ new,
        (a.role = Role.implementer ∨ a.role = Role.reviewer) ∧
        a.iteration =
          (if (resuming == some FailedStep.reviewing && st0.iteration == rIter) then st0.iteration
           else st0.iteration + 1))) ∧
    (∀ st2 r2 ri2 fb2 c, r = .next st2 r2 ri2 fb2 c →
      st2.iteration = st0.iteration + 1 ∧
      st2.maxIterations = st0.maxIterations ∧ st2.id = st0.id ∧ st2.feature = st0.feature ∧
      st2.workingDir = st0.workingDir ∧ st2.generatedPrompt = st0.generatedPrompt ∧
      cleanEvents t.events ∧
      r2 = (if (resuming == some FailedStep.reviewing && st0.iteration == rIter) then none
        else resuming) ∧
      ri2 = (if (resuming == some FailedStep.reviewing && st0.iteration == rIter) then 0
        else rIter) ∧
      (∃ new, st2.history = st0.history ++ new ∧ ∀ a ∈ new,
        (a.role = Role.implementer ∨ a.role = Role.reviewer) ∧
        a.iteration =
          (if (resuming == some FailedStep.reviewing && st0.iteration == rIter) then st0.iteration
           else st0.iteration + 1))) := by
  unfold loopBody at h
  dsimp only at h
  rcases hsk : (resuming == some FailedStep.reviewing && st0.iteration == rIter) with _ | _ <;>
    rw [hsk] at h
  · -- not skipping: the pass iteration is st0.iteration + 1
    rw [if_neg (by simp)] at h
    rcases hIp : implPhase env opts gp { st0 with iteration := st0.iteration + 1 } false fb cnt
      with ⟨ri, ti⟩
    rw [hIp] at h
    obtain ⟨hA1, hIv1, hRet1, hOk1⟩ := implPhase_spec hIp
    rcases ri with ⟨sr, cr⟩ | ⟨s5, c5⟩
    · -- implementation returned early
      dsimp only at h
      rcases h with ⟨rfl, rfl⟩
      obtain ⟨h1, h2, h3, h4, h5, h6, h7, h8, hev⟩ := hRet1 sr cr rfl
      refine ⟨hA1, ?_, ?_, ?_⟩
      · intro v hv
        exact (hIv1 v hv).2
      · intro st c hE
        cases hE
        refine ⟨h1, h2, h3, h4, h5, h6, ?_, ⟨[], by rw [List.append_nil]; exact h7, by simp⟩⟩
        rcases hev with ⟨he1, he2, he3⟩ | ⟨he1, he2, he3⟩
        · exact Or.inl ⟨he1, he2, he3, h8⟩
        · exact Or.inr (Or.inl ⟨he1, he2, he3, h8⟩)
      · intro st2 r2 ri2 fb2 c hE
        cases hE
    · -- implementation succeeded: review
      dsimp only at h
      rcases hRv : reviewPhase env opts s5 false resuming rIter c5 with ⟨rv, tv⟩
      rw [hRv] at h
      dsimp only at h
      rcases h with ⟨rfl, rfl⟩
      obtain ⟨hO1, hO2, hO3, hO4, hO5, hO6, hOhist, hOcl⟩ := hOk1 s5 c5 rfl
      obtain ⟨hA2, hIv2, hRet2, hNext2⟩ := reviewPhase_spec hRv
      refine ⟨?_, ?_, ?_, ?_⟩
      · rw [Trace.append_events, allFatal_append, hA1, hA2]
        rfl
      · intro v hv
        rw [Trace.append_invocations, List.mem_append] at hv
        rcases hv with hv | hv
        · exact (hIv1 v hv).2
        · rw [hIv2, List.mem_singleton] at hv
          subst hv
          rw [show (⟨Role.reviewer, s5.iteration, s5.feature⟩ : Invocation).iteration =
            s5.iteration from rfl, hO1] <;> rfl
      · intro st c hE
        obtain ⟨h1, h2, h3, h4, h5, h6, hcase⟩ := hRet2 st c hE
        refine ⟨h1.trans hO1, h2.trans hO2, h3.trans hO3, h4.trans hO4, h5.trans hO5,
          h6.trans hO6, ?_, ?_⟩
        · rcases hcase with ⟨hst, hhist, he1, he2, he3⟩ | ⟨hst, hhist, he1, he2, he3⟩
          · exact retEvents_append_clean hOcl (Or.inl ⟨he1, he2, he3, hst⟩)
          · exact retEvents_append_clean hOcl (Or.inr (Or.inr ⟨he1, he2, he3, hst⟩))
        · rcases hcase with ⟨hst, hhist, hev⟩ | ⟨hst, hhist, hev⟩
          · rcases hOhist with hOh | ⟨out, hOh⟩
            · exact ⟨[], by rw [List.append_nil, hhist, hOh], by simp⟩
            · refine ⟨[⟨Agent.claude, Role.implementer, out, st0.iteration + 1⟩],
                by rw [hhist, hOh] <;> rfl, ?_⟩
              intro a ha
              rw [List.mem_singleton] at ha
              subst ha
              exact ⟨Or.inl rfl, rfl⟩
          · obtain ⟨out2, hhist2⟩ := hhist
            rcases hOhist with hOh | ⟨out, hOh⟩
            · refine ⟨[⟨Agent.codex, Role.reviewer, out2, st0.iteration + 1⟩],
                by rw [hhist2, hOh, hO1] <;> rfl, ?_⟩
              intro a ha
              rw [List.mem_singleton] at ha
              subst ha
              exact ⟨Or.inr rfl, rfl⟩
            · refine ⟨[⟨Agent.claude, Role.implementer, out, st0.iteration + 1⟩,
                ⟨Agent.codex, Role.reviewer, out2, st0.iteration + 1⟩],
                by rw [hhist2, hOh, hO1, List.append_assoc] <;> rfl, ?_⟩
              intro a ha
              rcases List.mem_cons.mp ha with h1 | h1
              · subst h1
                exact ⟨Or.inl rfl, rfl⟩
              · rw [List.mem_singleton] at h1
                subst h1
                exact ⟨Or.inr rfl, rfl⟩
      · intro st2 r2 ri2 fb2 c hE
        obtain ⟨h1, h2, h3, h4, h5, hhist, hit, hr2, hri2, hcl⟩ := hNext2 st2 r2 ri2 fb2 c hE
        obtain ⟨out2, hhist2⟩ := hhist
        refine ⟨by rw [hit, hO1] <;> rfl, h1.trans hO2, h2.trans hO3, h3.trans hO4, h4.trans hO5,
          h5.trans hO6, cleanEvents_append hOcl hcl, hr2, hri2, ?_⟩
        rcases hOhist with hOh | ⟨out, hOh⟩
        · refine ⟨[⟨Agent.codex, Role.reviewer, out2, st0.iteration + 1⟩],
            by rw [hhist2, hOh, hO1] <;> rfl, ?_⟩
          intro a ha
          rw [List.mem_singleton] at ha
          subst ha
          exact ⟨Or.inr rfl, rfl⟩
        · refine ⟨[⟨Agent.claude, Role.implementer, out, st0.iteration + 1⟩,
            ⟨Agent.codex, Role.reviewer, out2, st0.iteration + 1⟩],
            by rw [hhist2, hOh, hO1, List.append_assoc] <;> rfl, ?_⟩
          intro a ha
          rcases List.mem_cons.mp ha with h1 | h1
          · subst h1
            exact ⟨Or.inl rfl, rfl⟩
          · rw [List.mem_singleton] at h1
            subst h1
            exact ⟨Or.inr rfl, rfl⟩
  · -- skipping: the pass iteration is st0.iteration
    rw [if_pos rfl] at h
    rcases hIp : implPhase env opts gp st0 true fb cnt with ⟨ri, ti⟩
    rw [hIp] at h
    obtain ⟨hA1, hIv1, hRet1, hOk1⟩ := implPhase_spec hIp
    rcases ri with ⟨sr, cr⟩ | ⟨s5, c5⟩
    · dsimp only at h
      rcases h with ⟨rfl, rfl⟩
      obtain ⟨h1, h2, h3, h4, h5, h6, h7, h8, hev⟩ := hRet1 sr cr rfl
      refine ⟨hA1, ?_, ?_, ?_⟩
      · intro v hv
        exact (hIv1 v hv).2
      · intro st c hE
        cases hE
        refine ⟨h1, h2, h3, h4, h5, h6, ?_, ⟨[], by rw [List.append_nil]; exact h7, by simp⟩⟩
        rcases hev with ⟨he1, he2, he3⟩ | ⟨he1, he2, he3⟩
        · exact Or.inl ⟨he1, he2, he3, h8⟩
        · exact Or.inr (Or.inl ⟨he1, he2, he3, h8⟩)
      · intro st2 r2 ri2 fb2 c hE
        cases hE
    · dsimp only at h
      rcases hRv : reviewPhase env opts s5 true resuming rIter c5 with ⟨rv, tv⟩
      rw [hRv] at h
      dsimp only at h
      rcases h with ⟨rfl, rfl⟩
      obtain ⟨hO1, hO2, hO3, hO4, hO5, hO6, hOhist, hOcl⟩ := hOk1 s5 c5 rfl
      obtain ⟨hA2, hIv2, hRet2, hNext2⟩ := reviewPhase_spec hRv
      refine ⟨?_, ?_, ?_, ?_⟩
      · rw [Trace.append_events, allFatal_append, hA1, hA2]
        rfl
      · intro v hv
        rw [Trace.append_invocations, List.mem_append] at hv
        rcases hv with hv | hv
        · exact (hIv1 v hv).2
        · rw [hIv2, List.mem_singleton] at hv
          subst hv
          rw [show (⟨Role.reviewer, s5.iteration, s5.feature⟩ : Invocation).iteration =
            s5.iteration from rfl, hO1] <;> rfl
      · intro st c hE
        obtain ⟨h1, h2, h3, h4, h5, h6, hcase⟩ := hRet2 st c hE
        refine ⟨h1.trans hO1, h2.trans hO2, h3.trans hO3, h4.trans hO4, h5.trans hO5,
          h6.trans hO6, ?_, ?_⟩
        · rcases hcase with ⟨hst, hhist, he1, he2, he3⟩ | ⟨hst, hhist, he1, he2, he3⟩
          · exact retEvents_append_clean hOcl (Or.inl ⟨he1, he2, he3, hst⟩)
          · exact retEvents_append_clean hOcl (Or.inr (Or.inr ⟨he1, he2, he3, hst⟩))
        · rcases hcase with ⟨hst, hhist, hev⟩ | ⟨hst, hhist, hev⟩
          · rcases hOhist with hOh | ⟨out, hOh⟩
            · exact ⟨[], by rw [List.append_nil, hhist, hOh], by simp⟩
            · refine ⟨[⟨Agent.claude, Role.implementer, out, st0.iteration⟩],
                by rw [hhist, hOh] <;> rfl, ?_⟩
              intro a ha
              rw [List.mem_singleton] at ha
              subst ha
              exact ⟨Or.inl rfl, rfl⟩
          · obtain ⟨out2, hhist2⟩ := hhist
            rcases hOhist with hOh | ⟨out, hOh⟩
            · refine ⟨[⟨Agent.codex, Role.reviewer, out2, st0.iteration⟩],
                by rw [hhist2, hOh, hO1] <;> rfl, ?_⟩
              intro a ha
              rw [List.mem_singleton] at ha
              subst ha
              exact ⟨Or.inr rfl, rfl⟩
            · refine ⟨[⟨Agent.claude, Role.implementer, out, st0.iteration⟩,
                ⟨Agent.codex, Role.reviewer, out2, st0.iteration⟩],
                by rw [hhist2, hOh, hO1, List.append_assoc] <;> rfl, ?_⟩
              intro a ha
              rcases List.mem_cons.mp ha with h1 | h1
              · subst h1
                exact ⟨Or.inl rfl, rfl⟩
              · rw [List.mem_singleton] at h1
                subst h1
                exact ⟨Or.inr rfl, rfl⟩
      · intro st2 r2 ri2 fb2 c hE
        obtain ⟨h1, h2, h3, h4, h5, hhist, hit, hr2, hri2, hcl⟩ := hNext2 st2 r2 ri2 fb2 c hE
        obtain ⟨out2, hhist2⟩ := hhist
        refine ⟨by rw [hit, hO1] <;> rfl, h1.trans hO2, h2.trans hO3, h3.trans hO4, h4.trans hO5,
          h5.trans hO6, cleanEvents_append hOcl hcl, hr2, hri2, ?_⟩
        rcases hOhist with hOh | ⟨out, hOh⟩
        · refine ⟨[⟨Agent.codex, Role.reviewer, out2, st0.iteration⟩],
            by rw [hhist2, hOh, hO1] <;> rfl, ?_⟩
          intro a ha
          rw [List.mem_singleton] at ha
          subst ha
          exact ⟨Or.inr rfl, rfl⟩
        · refine ⟨[⟨Agent.claude, Role.implementer, out, st0.iteration⟩,
            ⟨Agent.codex, Role.reviewer, out2, st0.iteration⟩],
            by rw [hhist2, hOh, hO1, List.append_assoc] <;> rfl, ?_⟩
          intro a ha
          rcases List.mem_cons.mp ha with h1 | h1
          · subst h1
            exact ⟨Or.inl rfl, rfl⟩
          · rw [List.mem_singleton] at h1
            subst h1
            exact ⟨Or.inr rfl, rfl⟩

/-- The state a finished `mainLoop` run ends in. -/
def endState : LoopEnd → OrchestrationState
  | .ret st _ => st
  | .fell st _ => st

/-- History well-formedness at iteration counter `n`: prompt-generator
entries carry iteration 0, implementer/reviewer entries carry an iteration
between 1 and `n`, and the iteration numbers are non-decreasing. -/
def histInv (n : Nat) (l : List AgentResponse) : Prop :=
  (∀ a ∈ l, (a.role = Role.promptGenerator → a.iteration = 0) ∧
    (a.role ≠ Role.promptGenerator → 1 ≤ a.iteration) ∧ a.iteration ≤ n) ∧
  List.Chain' (fun x y => x ≤ y) (l.map (fun a => a.iteration))

theorem histInv_mono {n m : Nat} {l : List AgentResponse} (hnm : n ≤ m)
    (h : histInv n l) : histInv m l :=
  ⟨fun a ha => ⟨(h.1 a ha).1, (h.1 a ha).2.1, le_trans (h.1 a ha).2.2 hnm⟩, h.2⟩

theorem chain'_le_const {m : Nat} :
    ∀ {xs : List Nat}, (∀ x ∈ xs, x = m) → List.Chain' (fun x y => x ≤ y) xs := by
  intro xs
  induction xs with
  | nil => intro _; simp
  | cons a t iht =>
    intro hall
    cases t with
    | nil => simp
    | cons b t2 =>
      rw [List.chain'_cons]
      refine ⟨?_, iht (fun x hx => hall x (List.mem_cons_of_mem a hx))⟩
      rw [hall a (List.mem_cons_self a _), hall b (List.mem_cons_of_mem a (List.mem_cons_self b _))]

/-- Appending a block of implementer/reviewer entries all carrying iteration
`m ≥ max n 1` preserves history well-formedness. -/
theorem histInv_append_new {n m : Nat} {l new : List AgentResponse}
    (hinv : histInv n l) (hnm : n ≤ m) (h1m : 1 ≤ m)
    (hnew : ∀ a ∈ new, (a.role = Role.implementer ∨ a.role = Role.reviewer) ∧
      a.iteration = m) :
    histInv m (l ++ new) := by
  constructor
  · intro a ha
    rcases List.mem_append.mp ha with ha | ha
    · exact ⟨(hinv.1 a ha).1, (hinv.1 a ha).2.1, le_trans (hinv.1 a ha).2.2 hnm⟩
    · obtain ⟨hrole, hit⟩ := hnew a ha
      refine ⟨?_, fun _ => by rw [hit]; exact h1m, by rw [hit]⟩
      intro hgen
      rcases hrole with hr | hr <;> rw [hgen] at hr <;> exact Role.noConfusion hr
  · rw [List.map_append, List.chain'_append]
    refine ⟨hinv.2, @chain'_le_const m _ (fun x hx => ?_), ?_⟩
    · obtain ⟨a, ha, rfl⟩ := List.mem_map.mp hx
      exact (hnew a ha).2
    · intro x hx y hy
      obtain ⟨a, ha, rfl⟩ := List.mem_map.mp (List.mem_of_mem_getLast? hx)
      obtain ⟨b, hb, rfl⟩ := List.mem_map.mp (List.mem_of_mem_head? hy)
      rw [(hnew b hb).2]
      exact le_trans (hinv.1 a ha).2.2 hnm

/-- Event classification of a whole `mainLoop` run: all error events are
fatal; an early return classifies as `retEvents`, falling out of the loop
guard is event-clean. -/
theorem mainLoop_events {env : Env} {opts : OrchestratorOptions} {gp : String} :
    ∀ {fuel : Nat} {st : OrchestrationState} {resuming : Option FailedStep} {rIter : Nat}
      {fb : Option String} {cnt : Counters} {e : LoopEnd} {t : Trace},
    mainLoop env opts gp fuel st resuming rIter fb cnt = some (e, t) →
    allFatal t.events = true ∧
    (∀ st2 c, e = .ret st2 c → retEvents t.events st2) ∧
    (∀ st2 c, e = .fell st2 c → cleanEvents t.events) := by
  intro fuel
  induction fuel with
  | zero =>
    intro st resuming rIter fb cnt e t h
    unfold mainLoop at h
    by_cases hg : st.iteration < st.maxIterations
    · rw [if_pos hg] at h
      rcases hLB : loopBody env opts gp st resuming rIter fb cnt with ⟨rb, tb⟩
      rw [hLB] at h
      obtain ⟨hA, hIv, hRet, hNext⟩ := loopBody_spec hLB
      rcases rb with ⟨st2, c2⟩ | ⟨st2, r2, ri2, fb2, c2⟩
      · dsimp only at h
        rcases h with ⟨rfl, rfl⟩
        refine ⟨hA, ?_, ?_⟩
        · intro st3 c3 hE
          cases hE
          exact (hRet st2 c2 rfl).2.2.2.2.2.2.1
        · intro st3 c3 hE
          cases hE
      · dsimp only at h
        cases h
    · rw [if_neg hg] at h
      rcases h with ⟨rfl, rfl⟩
      refine ⟨rfl, ?_, ?_⟩
      · intro st3 c3 hE
        cases hE
      · intro st3 c3 hE
        cases hE
        exact ⟨rfl, rfl, rfl⟩
  | succ f ih =>
    intro st resuming rIter fb cnt e t h
    unfold mainLoop at h
    by_cases hg : st.iteration < st.maxIterations
    · rw [if_pos hg] at h
      rcases hLB : loopBody env opts gp st resuming rIter fb cnt with ⟨rb, tb⟩
      rw [hLB] at h
      obtain ⟨hA, hIv, hRet, hNext⟩ := loopBody_spec hLB
      rcases rb with ⟨st2, c2⟩ | ⟨st2, r2, ri2, fb2, c2⟩
      · dsimp only at h
        rcases h with ⟨rfl, rfl⟩
        refine ⟨hA, ?_, ?_⟩
        · intro st3 c3 hE
          cases hE
          exact (hRet st2 c2 rfl).2.2.2.2.2.2.1
        · intro st3 c3 hE
          cases hE
      · dsimp only at h
        rcases hML : mainLoop env opts gp f st2 r2 ri2 fb2 c2 with _ | ⟨e2, t2⟩
        · rw [hML] at h
          cases h
        · rw [hML] at h
          dsimp only at h
          rcases h with ⟨rfl, rfl⟩
          obtain ⟨ihA, ihRet, ihFell⟩ := ih hML
          have hcl := (hNext st2 r2 ri2 fb2 c2 rfl).2.2.2.2.2.2.1
          refine ⟨?_, ?_, ?_⟩
          · rw [Trace.append_events, allFatal_append, hA, ihA]
            rfl
          · intro st3 c3 hE
            rw [Trace.append_events]
            exact retEvents_append_clean hcl (ihRet st3 c3 hE)
          · intro st3 c3 hE
            rw [Trace.append_events]
            exact cleanEvents_append hcl (ihFell st3 c3 hE)
    · rw [if_neg hg] at h
      rcases h with ⟨rfl, rfl⟩
      refine ⟨rfl, ?_, ?_⟩
      · intro st3 c3 hE
        cases hE
      · intro st3 c3 hE
        cases hE
        exact ⟨rfl, rfl, rfl⟩

/-- A `mainLoop` run entered with no pending resume step: every invocation
happens at an iteration strictly above the entry iteration, the iteration
counter never decreases, and history well-formedness is preserved. -/
theorem mainLoop_none_spec {env : Env} {opts : OrchestratorOptions} {gp : String} :
    ∀ {fuel : Nat} {st : OrchestrationState} {rIter : Nat}
      {fb : Option String} {cnt : Counters} {e : LoopEnd} {t : Trace},
    mainLoop env opts gp fuel st none rIter fb cnt = some (e, t) →
    (∀ v ∈ t.invocations, st.iteration + 1 ≤ v.iteration) ∧
    st.iteration ≤ (endState e).iteration ∧
    (histInv st.iteration st.history → histInv (endState e).iteration (endState e).history) := by
  intro fuel
  induction fuel with
  | zero =>
    intro st rIter fb cnt e t h
    unfold mainLoop at h
    by_cases hg : st.iteration < st.maxIterations
    · rw [if_pos hg] at h
      rcases hLB : loopBody env opts gp st none rIter fb cnt with ⟨rb, tb⟩
      rw [hLB] at h
      obtain ⟨hA, hIv, hRet, hNext⟩ := loopBody_spec hLB
      rcases rb with ⟨st2, c2⟩ | ⟨st2, r2, ri2, fb2, c2⟩
      · dsimp only at h
        rcases h with ⟨rfl, rfl⟩
        obtain ⟨hit, _, _, _, _, _, _, new, hnew, hprops⟩ := hRet st2 c2 rfl
        refine ⟨?_, ?_, ?_⟩
        · intro v hv
          rw [hIv v hv]
          exact Nat.le.refl
        · rw [show endState (LoopEnd.ret st2 c2) = st2 from rfl, hit]
          exact Nat.le_succ _
        · intro hInv
          rw [show endState (LoopEnd.ret st2 c2) = st2 from rfl, hit, hnew]
          exact histInv_append_new hInv (Nat.le_succ _) (Nat.succ_le_succ (Nat.zero_le _))
            (fun a ha => ⟨(hprops a ha).1, (hprops a ha).2⟩)
      · dsimp only at h
        cases h
    · rw [if_neg hg] at h
      rcases h with ⟨rfl, rfl⟩
      exact ⟨fun v hv => absurd hv (List.not_mem_nil v), Nat.le.refl, fun hInv => hInv⟩
  | succ f ih =>
    intro st rIter fb cnt e t h
    unfold mainLoop at h
    by_cases hg : st.iteration < st.maxIterations
    · rw [if_pos hg] at h
      rcases hLB : loopBody env opts gp st none rIter fb cnt with ⟨rb, tb⟩
      rw [hLB] at h
      obtain ⟨hA, hIv, hRet, hNext⟩ := loopBody_spec hLB
      rcases rb with ⟨st2, c2⟩ | ⟨st2, r2, ri2, fb2, c2⟩
      · dsimp only at h
        rcases h with ⟨rfl, rfl⟩
        obtain ⟨hit, _, _, _, _, _, _, new, hnew, hprops⟩ := hRet st2 c2 rfl
        refine ⟨?_, ?_, ?_⟩
        · intro v hv
          rw [hIv v hv]
          exact Nat.le.refl
        · rw [show endState (LoopEnd.ret st2 c2) = st2 from rfl, hit]
          exact Nat.le_succ _
        · intro hInv
          rw [show endState (LoopEnd.ret st2 c2) = st2 from rfl, hit, hnew]
          exact histInv_append_new hInv (Nat.le_succ _) (Nat.succ_le_succ (Nat.zero_le _))
            (fun a ha => ⟨(hprops a ha).1, (hprops a ha).2⟩)
      · dsimp only at h
        obtain ⟨hit2, _, _, _, _, _, _, hr2, hri2, new, hnew, hprops⟩ :=
          hNext st2 r2 ri2 fb2 c2 rfl
        have hr2n : r2 = none := hr2
        subst hr2n
        rcases hML : mainLoop env opts gp f st2 none ri2 fb2 c2 with _ | ⟨e2, t2⟩
        · rw [hML] at h
          cases h
        · rw [hML] at h
          dsimp only at h
          rcases h with ⟨rfl, rfl⟩
          obtain ⟨ihIv, ihMono, ihInv⟩ := ih hML
          refine ⟨?_, ?_, ?_⟩
          · intro v hv
            rw [Trace.append_invocations, List.mem_append] at hv
            rcases hv with hv | hv
            · rw [hIv v hv]
              exact Nat.le.refl
            · exact le_trans (le_of_eq hit2.symm) (le_trans (Nat.le_succ _) (ihIv v hv))
          · exact le_trans (Nat.le_succ _) (le_trans (le_of_eq hit2.symm) ihMono)
          · intro hInv
            refine ihInv ?_
            rw [hit2, hnew]
            exact histInv_append_new hInv (Nat.le_succ _) (Nat.succ_le_succ (Nat.zero_le _))
              (fun a ha => ⟨(hprops a ha).1, (hprops a ha).2⟩)
    · rw [if_neg hg] at h
      rcases h with ⟨rfl, rfl⟩
      exact ⟨fun v hv => absurd hv (List.not_mem_nil v), Nat.le.refl, fun hInv => hInv⟩

/-- Event classification of a whole engine run: every error event is fatal;
a run with a failing `agent_complete` event ends failed with exactly one
error event and no complete event; a run without one has no error event. -/
theorem orchestrate_events {env : Env} :
    ∀ {fuel : Nat} {feature : String} {opts : OrchestratorOptions}
      {rs : Option OrchestrationState} {sid : Option String} {cnt : Counters}
      {stF : OrchestrationState} {cntF : Counters} {t : Trace},
    orchestrate env fuel feature opts rs sid cnt = some ((stF, cntF), t) →
    allFatal t.events = true ∧
    ((hasFail t.events = true ∧ nErr t.events = 1 ∧ nCompl t.events = 0 ∧
        stF.status = Status.failed) ∨
     (hasFail t.events = false ∧ nErr t.events = 0)) := by
  intro fuel
  induction fuel with
  | zero =>
    intro feature opts rs sid cnt stF cntF t h
    unfold orchestrate at h
    rcases rs with _ | rs0 <;> dsimp only at h
    · -- fresh run
      rcases hPP : promptPhase env opts (initialState env feature opts sid) cnt with ⟨pr, t1⟩
      rw [hPP] at h
      obtain ⟨pA, pRet, pOk⟩ := promptPhase_spec hPP
      rcases pr with ⟨st2, cnt2⟩ | ⟨gp, st2, cnt2⟩
      · dsimp only at h
        simp only [Option.some.injEq, Prod.mk.injEq] at h
        obtain ⟨⟨rfl, rfl⟩, rfl⟩ := h
        obtain ⟨q1, q2, q3, q4, q5, hstF, qh, hev⟩ := pRet st2 cnt2 rfl
        refine ⟨?_, ?_⟩
        · simp only [Trace.append_events, allFatal_append, pA]
          simp [allFatal, fatalIfError, emitT, saveT, Trace.nil]
        · rcases hev with ⟨he1, he2, he3⟩ | ⟨he1, he2, he3⟩
          · refine Or.inl ⟨?_, ?_, ?_, hstF⟩
            · simp only [Trace.append_events, hasFail_append, he1]
              simp [hasFail, isFailComplete, emitT, Trace.nil]
            · simp only [Trace.append_events, nErr_append, he2]
              simp [nErr, emitT, Trace.nil]
            · simp only [Trace.append_events, nCompl_append, he3]
              simp [nCompl, emitT, Trace.nil]
          · refine Or.inr ⟨?_, ?_⟩
            · simp only [Trace.append_events, hasFail_append, he1]
              simp [hasFail, isFailComplete, emitT, Trace.nil]
            · simp only [Trace.append_events, nErr_append, he2]
              simp [nErr, emitT, Trace.nil]
      · dsimp only at h
        rcases hML : mainLoop env opts gp (st2.maxIterations - st2.iteration) st2 (none) (0)
            (resumeFeedback none.isSome st2) cnt2 with _ | ⟨e2, t2⟩
        · rw [hML] at h
          simp at h
        · rw [hML] at h
          obtain ⟨mA, mRet, mFell⟩ := mainLoop_events hML
          obtain ⟨p1, p2, p3, p4, p5, pHist, pcl⟩ := pOk gp st2 cnt2 rfl
          obtain ⟨pc1, pc2, pc3⟩ := pcl
          rcases e2 with ⟨st3, cnt3⟩ | ⟨st3, cnt3⟩
          · dsimp only at h
            simp only [Option.some.injEq, Prod.mk.injEq] at h
            obtain ⟨⟨rfl, rfl⟩, rfl⟩ := h
            have hRE := mRet st3 cnt3 rfl
            refine ⟨?_, ?_⟩
            · simp only [Trace.append_events, allFatal_append, pA, mA]
              simp [allFatal, fatalIfError, emitT, Trace.nil]
            · rcases hRE with ⟨he1, he2, he3, hst⟩ | ⟨he1, he2, he3, hst⟩ | ⟨he1, he2, he3, hst⟩
              · refine Or.inl ⟨?_, ?_, ?_, hst⟩
                · simp only [Trace.append_events, hasFail_append, he1, pc1]
                  simp [hasFail, isFailComplete, emitT, Trace.nil]
                · simp only [Trace.append_events, nErr_append, he2, pc2]
                  simp [nErr, emitT, Trace.nil]
                · simp only [Trace.append_events, nCompl_append, he3, pc3]
                  simp [nCompl, emitT, Trace.nil]
              · refine Or.inr ⟨?_, ?_⟩
                · simp only [Trace.append_events, hasFail_append, he1, pc1]
                  simp [hasFail, isFailComplete, emitT, Trace.nil]
                · simp only [Trace.append_events, nErr_append, he2, pc2]
                  simp [nErr, emitT, Trace.nil]
              · refine Or.inr ⟨?_, ?_⟩
                · simp only [Trace.append_events, hasFail_append, he1, pc1]
                  simp [hasFail, isFailComplete, emitT, Trace.nil]
                · simp only [Trace.append_events, nErr_append, he2, pc2]
                  simp [nErr, emitT, Trace.nil]
          · dsimp only at h
            obtain ⟨fc1, fc2, fc3⟩ := mFell st3 cnt3 rfl
            by_cases hInt : opts.interactive = true
            rotate_left
            · rw [if_neg hInt] at h
              simp only [Option.some.injEq, Prod.mk.injEq] at h
              obtain ⟨⟨rfl, rfl⟩, rfl⟩ := h
              refine ⟨?_, Or.inr ⟨?_, ?_⟩⟩
              · simp only [Trace.append_events, allFatal_append, pA, mA]
                simp [allFatal, fatalIfError, emitT, saveT, Trace.nil]
              · simp only [Trace.append_events, hasFail_append, fc1, pc1]
                simp [hasFail, isFailComplete, emitT, saveT, Trace.nil]
              · simp only [Trace.append_events, nErr_append, fc2, pc2]
                simp [nErr, emitT, saveT, Trace.nil]
            · rw [if_pos hInt] at h
              by_cases hCA : env.answer cnt3.answerCount = true
              rotate_left
              · rw [if_neg hCA] at h
                simp only [Option.some.injEq, Prod.mk.injEq] at h
                obtain ⟨⟨rfl, rfl⟩, rfl⟩ := h
                refine ⟨?_, Or.inr ⟨?_, ?_⟩⟩
                · simp only [Trace.append_events, allFatal_append, pA, mA]
                  simp [allFatal, fatalIfError, emitT, saveT, Trace.nil]
                · simp only [Trace.append_events, hasFail_append, fc1, pc1]
                  simp [hasFail, isFailComplete, emitT, saveT, Trace.nil]
                · simp only [Trace.append_events, nErr_append, fc2, pc2]
                  simp [nErr, emitT, saveT, Trace.nil]
              · rw [if_pos hCA] at h
                simp at h
    · -- resumed run
      rcases hPP : promptPhase env opts (rs0) cnt with ⟨pr, t1⟩
      rw [hPP] at h
      obtain ⟨pA, pRet, pOk⟩ := promptPhase_spec hPP
      rcases pr with ⟨st2, cnt2⟩ | ⟨gp, st2, cnt2⟩
      · dsimp only at h
        simp only [Option.some.injEq, Prod.mk.injEq] at h
        obtain ⟨⟨rfl, rfl⟩, rfl⟩ := h
        obtain ⟨q1, q2, q3, q4, q5, hstF, qh, hev⟩ := pRet st2 cnt2 rfl
        refine ⟨?_, ?_⟩
        · simp only [Trace.append_events, allFatal_append, pA]
          simp [allFatal, fatalIfError, emitT, saveT, Trace.nil]
        · rcases hev with ⟨he1, he2, he3⟩ | ⟨he1, he2, he3⟩
          · refine Or.inl ⟨?_, ?_, ?_, hstF⟩
            · simp only [Trace.append_events, hasFail_append, he1]
              simp [hasFail, isFailComplete, emitT, Trace.nil]
            · simp only [Trace.append_events, nErr_append, he2]
              simp [nErr, emitT, Trace.nil]
            · simp only [Trace.append_events, nCompl_append, he3]
              simp [nCompl, emitT, Trace.nil]
          · refine Or.inr ⟨?_, ?_⟩
            · simp only [Trace.append_events, hasFail_append, he1]
              simp [hasFail, isFailComplete, emitT, Trace.nil]
            · simp only [Trace.append_events, nErr_append, he2]
              simp [nErr, emitT, Trace.nil]
      · dsimp only at h
        rcases hML : mainLoop env opts gp (st2.maxIterations - st2.iteration) st2 (rs0.lastFailedStep) (rs0.iteration)
            (resumeFeedback (some rs0).isSome st2) cnt2 with _ | ⟨e2, t2⟩
        · rw [hML] at h
          simp at h
        · rw [hML] at h
          obtain ⟨mA, mRet, mFell⟩ := mainLoop_events hML
          obtain ⟨p1, p2, p3, p4, p5, pHist, pcl⟩ := pOk gp st2 cnt2 rfl
          obtain ⟨pc1, pc2, pc3⟩ := pcl
          rcases e2 with ⟨st3, cnt3⟩ | ⟨st3, cnt3⟩
          · dsimp only at h
            simp only [Option.some.injEq, Prod.mk.injEq] at h
            obtain ⟨⟨rfl, rfl⟩, rfl⟩ := h
            have hRE := mRet st3 cnt3 rfl
            refine ⟨?_, ?_⟩
            · simp only [Trace.append_events, allFatal_append, pA, mA]
              simp [allFatal, fatalIfError, emitT, Trace.nil]
            · rcases hRE with ⟨he1, he2, he3, hst⟩ | ⟨he1, he2, he3, hst⟩ | ⟨he1, he2, he3, hst⟩
              · refine Or.inl ⟨?_, ?_, ?_, hst⟩
                · simp only [Trace.append_events, hasFail_append, he1, pc1]
                  simp [hasFail, isFailComplete, emitT, Trace.nil]
                · simp only [Trace.append_events, nErr_append, he2, pc2]
                  simp [nErr, emitT, Trace.nil]
                · simp only [Trace.append_events, nCompl_append, he3, pc3]
                  simp [nCompl, emitT, Trace.nil]
              · refine Or.inr ⟨?_, ?_⟩
                · simp only [Trace.append_events, hasFail_append, he1, pc1]
                  simp [hasFail, isFailComplete, emitT, Trace.nil]
                · simp only [Trace.append_events, nErr_append, he2, pc2]
                  simp [nErr, emitT, Trace.nil]
              · refine Or.inr ⟨?_, ?_⟩
                · simp only [Trace.append_events, hasFail_append, he1, pc1]
                  simp [hasFail, isFailComplete, emitT, Trace.nil]
                · simp only [Trace.append_events, nErr_append, he2, pc2]
                  simp [nErr, emitT, Trace.nil]
          · dsimp only at h
            obtain ⟨fc1, fc2, fc3⟩ := mFell st3 cnt3 rfl
            by_cases hInt : opts.interactive = true
            rotate_left
            · rw [if_neg hInt] at h
              simp only [Option.some.injEq, Prod.mk.injEq] at h
              obtain ⟨⟨rfl, rfl⟩, rfl⟩ := h
              refine ⟨?_, Or.inr ⟨?_, ?_⟩⟩
              · simp only [Trace.append_events, allFatal_append, pA, mA]
                simp [allFatal, fatalIfError, emitT, saveT, Trace.nil]
              · simp only [Trace.append_events, hasFail_append, fc1, pc1]
                simp [hasFail, isFailComplete, emitT, saveT, Trace.nil]
              · simp only [Trace.append_events, nErr_append, fc2, pc2]
                simp [nErr, emitT, saveT, Trace.nil]
            · rw [if_pos hInt] at h
              by_cases hCA : env.answer cnt3.answerCount = true
              rotate_left
              · rw [if_neg hCA] at h
                simp only [Option.some.injEq, Prod.mk.injEq] at h
                obtain ⟨⟨rfl, rfl⟩, rfl⟩ := h
                refine ⟨?_, Or.inr ⟨?_, ?_⟩⟩
                · simp only [Trace.append_events, allFatal_append, pA, mA]
                  simp [allFatal, fatalIfError, emitT, saveT, Trace.nil]
                · simp only [Trace.append_events, hasFail_append, fc1, pc1]
                  simp [hasFail, isFailComplete, emitT, saveT, Trace.nil]
                · simp only [Trace.append_events, nErr_append, fc2, pc2]
                  simp [nErr, emitT, saveT, Trace.nil]
              · rw [if_pos hCA] at h
                simp at h
  | succ f ih =>
    intro feature opts rs sid cnt stF cntF t h
    unfold orchestrate at h
    rcases rs with _ | rs0 <;> dsimp only at h
    · -- fresh run
      rcases hPP : promptPhase env opts (initialState env feature opts sid) cnt with ⟨pr, t1⟩
      rw [hPP] at h
      obtain ⟨pA, pRet, pOk⟩ := promptPhase_spec hPP
      rcases pr with ⟨st2, cnt2⟩ | ⟨gp, st2, cnt2⟩
      · dsimp only at h
        simp only [Option.some.injEq, Prod.mk.injEq] at h
        obtain ⟨⟨rfl, rfl⟩, rfl⟩ := h
        obtain ⟨q1, q2, q3, q4, q5, hstF, qh, hev⟩ := pRet st2 cnt2 rfl
        refine ⟨?_, ?_⟩
        · simp only [Trace.append_events, allFatal_append, pA]
          simp [allFatal, fatalIfError, emitT, saveT, Trace.nil]
        · rcases hev with ⟨he1, he2, he3⟩ | ⟨he1, he2, he3⟩
          · refine Or.inl ⟨?_, ?_, ?_, hstF⟩
            · simp only [Trace.append_events, hasFail_append, he1]
              simp [hasFail, isFailComplete, emitT, Trace.nil]
            · simp only [Trace.append_events, nErr_append, he2]
              simp [nErr, emitT, Trace.nil]
            · simp only [Trace.append_events, nCompl_append, he3]
              simp [nCompl, emitT, Trace.nil]
          · refine Or.inr ⟨?_, ?_⟩
            · simp only [Trace.append_events, hasFail_append, he1]
              simp [hasFail, isFailComplete, emitT, Trace.nil]
            · simp only [Trace.append_events, nErr_append, he2]
              simp [nErr, emitT, Trace.nil]
      · dsimp only at h
        rcases hML : mainLoop env opts gp (st2.maxIterations - st2.iteration) st2 (none) (0)
            (resumeFeedback none.isSome st2) cnt2 with _ | ⟨e2, t2⟩
        · rw [hML] at h
          simp at h
        · rw [hML] at h
          obtain ⟨mA, mRet, mFell⟩ := mainLoop_events hML
          obtain ⟨p1, p2, p3, p4, p5, pHist, pcl⟩ := pOk gp st2 cnt2 rfl
          obtain ⟨pc1, pc2, pc3⟩ := pcl
          rcases e2 with ⟨st3, cnt3⟩ | ⟨st3, cnt3⟩
          · dsimp only at h
            simp only [Option.some.injEq, Prod.mk.injEq] at h
            obtain ⟨⟨rfl, rfl⟩, rfl⟩ := h
            have hRE := mRet st3 cnt3 rfl
            refine ⟨?_, ?_⟩
            · simp only [Trace.append_events, allFatal_append, pA, mA]
              simp [allFatal, fatalIfError, emitT, Trace.nil]
            · rcases hRE with ⟨he1, he2, he3, hst⟩ | ⟨he1, he2, he3, hst⟩ | ⟨he1, he2, he3, hst⟩
              · refine Or.inl ⟨?_, ?_, ?_, hst⟩
                · simp only [Trace.append_events, hasFail_append, he1, pc1]
                  simp [hasFail, isFailComplete, emitT, Trace.nil]
                · simp only [Trace.append_events, nErr_append, he2, pc2]
                  simp [nErr, emitT, Trace.nil]
                · simp only [Trace.append_events, nCompl_append, he3, pc3]
                  simp [nCompl, emitT, Trace.nil]
              · refine Or.inr ⟨?_, ?_⟩
                · simp only [Trace.append_events, hasFail_append, he1, pc1]
                  simp [hasFail, isFailComplete, emitT, Trace.nil]
                · simp only [Trace.append_events, nErr_append, he2, pc2]
                  simp [nErr, emitT, Trace.nil]
              · refine Or.inr ⟨?_, ?_⟩
                · simp only [Trace.append_events, hasFail_append, he1, pc1]
                  simp [hasFail, isFailComplete, emitT, Trace.nil]
                · simp only [Trace.append_events, nErr_append, he2, pc2]
                  simp [nErr, emitT, Trace.nil]
          · dsimp only at h
            obtain ⟨fc1, fc2, fc3⟩ := mFell st3 cnt3 rfl
            by_cases hInt : opts.interactive = true
            rotate_left
            · rw [if_neg hInt] at h
              simp only [Option.some.injEq, Prod.mk.injEq] at h
              obtain ⟨⟨rfl, rfl⟩, rfl⟩ := h
              refine ⟨?_, Or.inr ⟨?_, ?_⟩⟩
              · simp only [Trace.append_events, allFatal_append, pA, mA]
                simp [allFatal, fatalIfError, emitT, saveT, Trace.nil]
              · simp only [Trace.append_events, hasFail_append, fc1, pc1]
                simp [hasFail, isFailComplete, emitT, saveT, Trace.nil]
              · simp only [Trace.append_events, nErr_append, fc2, pc2]
                simp [nErr, emitT, saveT, Trace.nil]
            · rw [if_pos hInt] at h
              by_cases hCA : env.answer cnt3.answerCount = true
              rotate_left
              · rw [if_neg hCA] at h
                simp only [Option.some.injEq, Prod.mk.injEq] at h
                obtain ⟨⟨rfl, rfl⟩, rfl⟩ := h
                refine ⟨?_, Or.inr ⟨?_, ?_⟩⟩
                · simp only [Trace.append_events, allFatal_append, pA, mA]
                  simp [allFatal, fatalIfError, emitT, saveT, Trace.nil]
                · simp only [Trace.append_events, hasFail_append, fc1, pc1]
                  simp [hasFail, isFailComplete, emitT, saveT, Trace.nil]
                · simp only [Trace.append_events, nErr_append, fc2, pc2]
                  simp [nErr, emitT, saveT, Trace.nil]
              · rw [if_pos hCA] at h
                rcases hRec : orchestrate env f st3.feature opts
                    (some { st3 with maxIterations := st3.maxIterations + 3, lastFailedStep := none })
                    none { cnt3 with answerCount := cnt3.answerCount + 1 } with _ | ⟨r5, t5⟩
                · rw [hRec] at h
                  simp at h
                · rw [hRec] at h
                  dsimp only at h
                  rcases r5 with ⟨stF5, cntF5⟩
                  simp only [Option.some.injEq, Prod.mk.injEq] at h
                  obtain ⟨⟨rfl, rfl⟩, rfl⟩ := h
                  obtain ⟨rA, rDisj⟩ := ih hRec
                  refine ⟨?_, ?_⟩
                  · simp only [Trace.append_events, allFatal_append, pA, mA, rA]
                    simp [allFatal, fatalIfError, emitT, saveT, Trace.nil]
                  · rcases rDisj with ⟨he1, he2, he3, hst⟩ | ⟨he1, he2⟩
                    · refine Or.inl ⟨?_, ?_, ?_, hst⟩
                      · simp only [Trace.append_events, hasFail_append, he1, fc1, pc1]
                        simp [hasFail, isFailComplete, emitT, saveT, Trace.nil]
                      · simp only [Trace.append_events, nErr_append, he2, fc2, pc2]
                        simp [nErr, emitT, saveT, Trace.nil]
                      · simp only [Trace.append_events, nCompl_append, he3, fc3, pc3]
                        simp [nCompl, emitT, saveT, Trace.nil]
                    · refine Or.inr ⟨?_, ?_⟩
                      · simp only [Trace.append_events, hasFail_append, he1, fc1, pc1]
                        simp [hasFail, isFailComplete, emitT, saveT, Trace.nil]
                      · simp only [Trace.append_events, nErr_append, he2, fc2, pc2]
                        simp [nErr, emitT, saveT, Trace.nil]
    · -- resumed run
      rcases hPP : promptPhase env opts (rs0) cnt with ⟨pr, t1⟩
      rw [hPP] at h
      obtain ⟨pA, pRet, pOk⟩ := promptPhase_spec hPP
      rcases pr with ⟨st2, cnt2⟩ | ⟨gp, st2, cnt2⟩
      · dsimp only at h
        simp only [Option.some.injEq, Prod.mk.injEq] at h
        obtain ⟨⟨rfl, rfl⟩, rfl⟩ := h
        obtain ⟨q1, q2, q3, q4, q5, hstF, qh, hev⟩ := pRet st2 cnt2 rfl
        refine ⟨?_, ?_⟩
        · simp only [Trace.append_events, allFatal_append, pA]
          simp [allFatal, fatalIfError, emitT, saveT, Trace.nil]
        · rcases hev with ⟨he1, he2, he3⟩ | ⟨he1, he2, he3⟩
          · refine Or.inl ⟨?_, ?_, ?_, hstF⟩
            · simp only [Trace.append_events, hasFail_append, he1]
              simp [hasFail, isFailComplete, emitT, Trace.nil]
            · simp only [Trace.append_events, nErr_append, he2]
              simp [nErr, emitT, Trace.nil]
            · simp only [Trace.append_events, nCompl_append, he3]
              simp [nCompl, emitT, Trace.nil]
          · refine Or.inr ⟨?_, ?_⟩
            · simp only [Trace.append_events, hasFail_append, he1]
              simp [hasFail, isFailComplete, emitT, Trace.nil]
            · simp only [Trace.append_events, nErr_append, he2]
              simp [nErr, emitT, Trace.nil]
      · dsimp only at h
        rcases hML : mainLoop env opts gp (st2.maxIterations - st2.iteration) st2 (rs0.lastFailedStep) (rs0.iteration)
            (resumeFeedback (some rs0).isSome st2) cnt2 with _ | ⟨e2, t2⟩
        · rw [hML] at h
          simp at h
        · rw [hML] at h
          obtain ⟨mA, mRet, mFell⟩ := mainLoop_events hML
          obtain ⟨p1, p2, p3, p4, p5, pHist, pcl⟩ := pOk gp st2 cnt2 rfl
          obtain ⟨pc1, pc2, pc3⟩ := pcl
          rcases e2 with ⟨st3, cnt3⟩ | ⟨st3, cnt3⟩
          · dsimp only at h
            simp only [Option.some.injEq, Prod.mk.injEq] at h
            obtain ⟨⟨rfl, rfl⟩, rfl⟩ := h
            have hRE := mRet st3 cnt3 rfl
            refine ⟨?_, ?_⟩
            · simp only [Trace.append_events, allFatal_append, pA, mA]
              simp [allFatal, fatalIfError, emitT, Trace.nil]
            · rcases hRE with ⟨he1, he2, he3, hst⟩ | ⟨he1, he2, he3, hst⟩ | ⟨he1, he2, he3, hst⟩
              · refine Or.inl ⟨?_, ?_, ?_, hst⟩
                · simp only [Trace.append_events, hasFail_append, he1, pc1]
                  simp [hasFail, isFailComplete, emitT, Trace.nil]
                · simp only [Trace.append_events, nErr_append, he2, pc2]
                  simp [nErr, emitT, Trace.nil]
                · simp only [Trace.append_events, nCompl_append, he3, pc3]
                  simp [nCompl, emitT, Trace.nil]
              · refine Or.inr ⟨?_, ?_⟩
                · simp only [Trace.append_events, hasFail_append, he1, pc1]
                  simp [hasFail, isFailComplete, emitT, Trace.nil]
                · simp only [Trace.append_events, nErr_append, he2, pc2]
                  simp [nErr, emitT, Trace.nil]
              · refine Or.inr ⟨?_, ?_⟩
                · simp only [Trace.append_events, hasFail_append, he1, pc1]
                  simp [hasFail, isFailComplete, emitT, Trace.nil]
                · simp only [Trace.append_events, nErr_append, he2, pc2]
                  simp [nErr, emitT, Trace.nil]
          · dsimp only at h
            obtain ⟨fc1, fc2, fc3⟩ := mFell st3 cnt3 rfl
            by_cases hInt : opts.interactive = true
            rotate_left
            · rw [if_neg hInt] at h
              simp only [Option.some.injEq, Prod.mk.injEq] at h
              obtain ⟨⟨rfl, rfl⟩, rfl⟩ := h
              refine ⟨?_, Or.inr ⟨?_, ?_⟩⟩
              · simp only [Trace.append_events, allFatal_append, pA, mA]
                simp [allFatal, fatalIfError, emitT, saveT, Trace.nil]
              · simp only [Trace.append_events, hasFail_append, fc1, pc1]
                simp [hasFail, isFailComplete, emitT, saveT, Trace.nil]
              · simp only [Trace.append_events, nErr_append, fc2, pc2]
                simp [nErr, emitT, saveT, Trace.nil]
            · rw [if_pos hInt] at h
              by_cases hCA : env.answer cnt3.answerCount = true
              rotate_left
              · rw [if_neg hCA] at h
                simp only [Option.some.injEq, Prod.mk.injEq] at h
                obtain ⟨⟨rfl, rfl⟩, rfl⟩ := h
                refine ⟨?_, Or.inr ⟨?_, ?_⟩⟩
                · simp only [Trace.append_events, allFatal_append, pA, mA]
                  simp [allFatal, fatalIfError, emitT, saveT, Trace.nil]
                · simp only [Trace.append_events, hasFail_append, fc1, pc1]
                  simp [hasFail, isFailComplete, emitT, saveT, Trace.nil]
                · simp only [Trace.append_events, nErr_append, fc2, pc2]
                  simp [nErr, emitT, saveT, Trace.nil]
              · rw [if_pos hCA] at h
                rcases hRec : orchestrate env f st3.feature opts
                    (some { st3 with maxIterations := st3.maxIterations + 3, lastFailedStep := none })
                    none { cnt3 with answerCount := cnt3.answerCount + 1 } with _ | ⟨r5, t5⟩
                · rw [hRec] at h
                  simp at h
                · rw [hRec] at h
                  dsimp only at h
                  rcases r5 with ⟨stF5, cntF5⟩
                  simp only [Option.some.injEq, Prod.mk.injEq] at h
                  obtain ⟨⟨rfl, rfl⟩, rfl⟩ := h
                  obtain ⟨rA, rDisj⟩ := ih hRec
                  refine ⟨?_, ?_⟩
                  · simp only [Trace.append_events, allFatal_append, pA, mA, rA]
                    simp [allFatal, fatalIfError, emitT, saveT, Trace.nil]
                  · rcases rDisj with ⟨he1, he2, he3, hst⟩ | ⟨he1, he2⟩
                    · refine Or.inl ⟨?_, ?_, ?_, hst⟩
                      · simp only [Trace.append_events, hasFail_append, he1, fc1, pc1]
                        simp [hasFail, isFailComplete, emitT, saveT, Trace.nil]
                      · simp only [Trace.append_events, nErr_append, he2, fc2, pc2]
                        simp [nErr, emitT, saveT, Trace.nil]
                      · simp only [Trace.append_events, nCompl_append, he3, fc3, pc3]
                        simp [nCompl, emitT, saveT, Trace.nil]
                    · refine Or.inr ⟨?_, ?_⟩
                      · simp only [Trace.append_events, hasFail_append, he1, fc1, pc1]
                        simp [hasFail, isFailComplete, emitT, saveT, Trace.nil]
                      · simp only [Trace.append_events, nErr_append, he2, fc2, pc2]
                        simp [nErr, emitT, saveT, Trace.nil]

/-- C3 (amended): whenever an agent invocation returns success = false, the
engine run terminates with status failed and emits exactly one error event,
which is fatal — and *no* complete event follows it (every error event in any
run is fatal, and a run without an agent failure emits no error event). -/
theorem C3_agent_failure_amended (env : Env) (fuel : Nat) (feature : String)
    (opts : OrchestratorOptions) (rs : Option OrchestrationState) (sid : Option String)
    (cnt : Counters) (stF : OrchestrationState) (cntF : Counters) (t : Trace)
    (h : orchestrate env fuel feature opts rs sid cnt = some ((stF, cntF), t)) :
    allFatal t.events = true ∧
    (hasFail t.events = true →
      stF.status = Status.failed ∧ nErr t.events = 1 ∧ nCompl t.events = 0) := by
  obtain ⟨hA, hD⟩ := orchestrate_events h
  refine ⟨hA, fun hf => ?_⟩
  rcases hD with ⟨h1, h2, h3, h4⟩ | ⟨h1, h2⟩
  · exact ⟨h4, h2, h3⟩
  · rw [hf] at h1
    cases h1

theorem C3_witness :
    ∃ r, orchestrate envPromptFail 1 "F" optsNI2 none none Counters.zero = some r ∧
      allFatal r.2.events = true ∧
      (hasFail r.2.events = true → r.1.1.status = Status.failed ∧
        nErr r.2.events = 1 ∧ nCompl r.2.events = 0) := by
  obtain ⟨r, hr⟩ := Option.isSome_iff_exists.mp (by rfl :
    (orchestrate envPromptFail 1 "F" optsNI2 none none Counters.zero).isSome = true)
  rcases r with ⟨⟨stF, cntF⟩, t⟩
  exact ⟨((stF, cntF), t), hr, C3_agent_failure_amended envPromptFail 1 "F" optsNI2 none none
    Counters.zero stF cntF t hr⟩

set_option maxRecDepth 8000 in
set_option maxHeartbeats 1600000 in
/-- C9 (amended): in the end-to-end scenario — fresh non-interactive run,
maxIterations = 2, prompt generator and implementer succeed, reviewer answers
"Needs fix" then "APPROVED" — the run ends approved at iteration 2 and the
history has *5* entries: generator at 0, implementer and reviewer at 1,
implementer and reviewer at 2. -/
theorem C9_end_to_end_amended (env : Env) (fuel : Nat) (feature wd : String) (v : Bool)
    (sid : Option String) (stF : OrchestrationState) (cntF : Counters) (t : Trace)
    (g o1 o2 : String) (e0 e1 e2 er1 er2 : Option String)
    (hpg : env.promptGen 0 = ⟨true, g, e0⟩)
    (hi0 : env.implementer 0 = ⟨true, o1, e1⟩)
    (hi1 : env.implementer 1 = ⟨true, o2, e2⟩)
    (hr0 : env.reviewer 0 = ⟨true, "Needs fix", er1⟩)
    (hr1 : env.reviewer 1 = ⟨true, "APPROVED", er2⟩)
    (hrun : orchestrate env fuel feature ⟨2, false, v, wd⟩ none sid Counters.zero =
      some ((stF, cntF), t)) :
    stF.status = Status.approved ∧ stF.iteration = 2 ∧
    stF.history.map (fun a => (a.role, a.iteration)) =
      [(Role.promptGenerator, 0), (Role.implementer, 1), (Role.reviewer, 1),
        (Role.implementer, 2), (Role.reviewer, 2)] ∧
    stF.history.length = 5 := by
  have hnf : isApproved "Needs fix" = false := by decide
  have hap : isApproved "APPROVED" = true := by decide
  have hg1 : ((0:Nat) < 2) = True := by simp
  have hg2 : ((1:Nat) < 2) = True := by simp
  have hg3 : ((2:Nat) < 2) = False := by simp
  have hsub : (2:Nat) - 0 = 2 := rfl
  have hadd1 : (0:Nat) + 1 = 1 := rfl
  have hadd2 : (1:Nat) + 1 = 2 := rfl
  have hbe : ((none : Option FailedStep) == some FailedStep.reviewing) = false := rfl
  simp only [orchestrate, promptPhase, mainLoop, loopBody, implPhase, implInvoke,
    reviewPhase, resumeFeedback, initialState, optTruthy, Counters.zero,
    hpg, hi0, hi1, hr0, hr1, hnf, hap, hg1, hg2, hg3, hsub, hadd1, hadd2, hbe,
    Bool.false_eq_true, Bool.true_eq_false, Bool.false_and, if_true, if_false,
    eq_self_iff_true, Option.isSome_none, Option.some.injEq, Prod.mk.injEq] at hrun
  obtain ⟨⟨rfl, rfl⟩, rfl⟩ := hrun
  exact ⟨rfl, rfl, rfl, rfl⟩

theorem C9_witness :
    ∃ r, orchestrate envFixThenApprove 1 "X" optsNI2 none none Counters.zero = some r ∧
      r.1.1.status = Status.approved ∧ r.1.1.iteration = 2 ∧
      r.1.1.history.map (fun a => (a.role, a.iteration)) =
        [(Role.promptGenerator, 0), (Role.implementer, 1), (Role.reviewer, 1),
          (Role.implementer, 2), (Role.reviewer, 2)] ∧
      r.1.1.history.length = 5 := by
  obtain ⟨r, hr⟩ := Option.isSome_iff_exists.mp (by rfl :
    (orchestrate envFixThenApprove 1 "X" optsNI2 none none Counters.zero).isSome = true)
  rcases r with ⟨⟨stF, cntF⟩, t⟩
  exact ⟨((stF, cntF), t), hr, C9_end_to_end_amended envFixThenApprove 1 "X" "/w" false
    none stF cntF t "GP" "I0" "I1" none none none none none rfl rfl rfl rfl rfl hr⟩

theorem ite_trace_invocations (c : Prop) [inst : Decidable c] (a b : Trace) :
    (if c then a else b).invocations = (if c then a.invocations else b.invocations) := by
  split <;> rfl

/-- C10 (amended): in every completed fresh non-interactive run, prompt
generator history entries carry iteration 0, implementer/reviewer entries
carry an iteration of at least 1, and the history's iteration numbers are
non-decreasing. -/
theorem C10_history_amended (env : Env) (fuel : Nat) (feature : String)
    (opts : OrchestratorOptions) (sid : Option String) (cnt : Counters)
    (stF : OrchestrationState) (cntF : Counters) (t : Trace)
    (hni : opts.interactive = false)
    (hrun : orchestrate env fuel feature opts none sid cnt = some ((stF, cntF), t)) :
    (∀ a ∈ stF.history, (a.role = Role.promptGenerator → a.iteration = 0) ∧
      (a.role ≠ Role.promptGenerator → 1 ≤ a.iteration)) ∧
    List.Chain' (fun x y => x ≤ y) (stF.history.map (fun a => a.iteration)) := by
  unfold orchestrate at hrun
  dsimp only at hrun
  rcases hPP : promptPhase env opts (initialState env feature opts sid) cnt with ⟨pr, t1⟩
  rw [hPP] at hrun
  obtain ⟨pA, pRet, pOk⟩ := promptPhase_spec hPP
  rcases pr with ⟨st2, cnt2⟩ | ⟨gp, st2, cnt2⟩
  · dsimp only at hrun
    simp only [Option.some.injEq, Prod.mk.injEq] at hrun
    obtain ⟨⟨rfl, rfl⟩, rfl⟩ := hrun
    obtain ⟨_, _, _, _, _, _, qh, _⟩ := pRet st2 cnt2 rfl
    rcases qh with hq | ⟨g, hq⟩
    · rw [hq]
      constructor
      · intro a ha
        simp [initialState] at ha
      · simp [initialState]
    · rw [hq]
      constructor
      · intro a ha
        simp [initialState] at ha
        subst ha
        exact ⟨fun _ => rfl, fun hne => absurd rfl hne⟩
      · simp [initialState]
  · dsimp only at hrun
    rcases hML : mainLoop env opts gp (st2.maxIterations - st2.iteration) st2 none 0
        (resumeFeedback none.isSome st2) cnt2 with _ | ⟨e2, t2⟩
    · rw [hML] at hrun
      simp at hrun
    · rw [hML] at hrun
      obtain ⟨p1, _, _, _, _, pHist, _⟩ := pOk gp st2 cnt2 rfl
      have hINV0 : histInv st2.iteration st2.history := by
        rcases pHist with hq | hq <;> rw [hq] <;> constructor
        · intro a ha
          simp [initialState] at ha
        · simp [initialState]
        · intro a ha
          simp [initialState] at ha
          subst ha
          exact ⟨fun _ => rfl, fun hne => absurd rfl hne, Nat.zero_le _⟩
        · simp [initialState]
      obtain ⟨mIv, mMono, mInv⟩ := mainLoop_none_spec hML
      have hINV := mInv hINV0
      rcases e2 with ⟨st3, cnt3⟩ | ⟨st3, cnt3⟩
      · dsimp only at hrun
        simp only [Option.some.injEq, Prod.mk.injEq] at hrun
        obtain ⟨⟨rfl, rfl⟩, rfl⟩ := hrun
        exact ⟨fun a ha => ⟨(hINV.1 a ha).1, (hINV.1 a ha).2.1⟩, hINV.2⟩
      · dsimp only at hrun
        rw [if_neg (by simp [hni])] at hrun
        simp only [Option.some.injEq, Prod.mk.injEq] at hrun
        obtain ⟨⟨rfl, rfl⟩, rfl⟩ := hrun
        exact ⟨fun a ha => ⟨(hINV.1 a ha).1, (hINV.1 a ha).2.1⟩, hINV.2⟩

theorem C10_witness :
    optsNI2.interactive = false ∧
    ∃ r, orchestrate envApprove 1 "F" optsNI2 none none Counters.zero = some r ∧
      (∀ a ∈ r.1.1.history, (a.role = Role.promptGenerator → a.iteration = 0) ∧
        (a.role ≠ Role.promptGenerator → 1 ≤ a.iteration)) ∧
      List.Chain' (fun x y => x ≤ y) (r.1.1.history.map (fun a => a.iteration)) := by
  refine ⟨rfl, ?_⟩
  obtain ⟨r, hr⟩ := Option.isSome_iff_exists.mp (by rfl :
    (orchestrate envApprove 1 "F" optsNI2 none none Counters.zero).isSome = true)
  rcases r with ⟨⟨stF, cntF⟩, t⟩
  exact ⟨((stF, cntF), t), hr, C10_history_amended envApprove 1 "F" optsNI2 none
    Counters.zero stF cntF t rfl hr⟩

/-- The skip branch of `implPhase` in closed form. -/
theorem implPhase_skip (env : Env) (opts : OrchestratorOptions) (gp : String)
    (st : OrchestrationState) (fb : Option String) (cnt : Counters) :
    implPhase env opts gp st true fb cnt =
      (.ok st cnt,
        emitT .iteration st.id (.iterationInfo st.iteration st.maxIterations "RESUMING REVIEW") ++
        emitT .log st.id (.logMsg "info" "Skipping implementation - resuming at review step")) := by
  unfold implPhase
  rw [if_pos rfl]

/-- C1 (amended): resuming a session persisted with lastFailedStep =
reviewing at iteration k (non-interactive, with a truthy cached prompt and
k < maxIterations) invokes the reviewer first, exactly once for iteration k,
and never re-invokes the implementer at iteration k or k+1: every later
invocation is at iteration k+2 or above.  If that review approves, the run
ends approved with the iteration counter still k (not k+1); if it does not
approve, the counter ends at k+1 or above. -/
theorem C1_resume_review_amended (env : Env) (fuel : Nat) (feature : String)
    (opts : OrchestratorOptions) (rs : OrchestrationState) (sid : Option String)
    (cnt : Counters) (stF : OrchestrationState) (cntF : Counters) (t : Trace) (k : Nat)
    (hni : opts.interactive = false)
    (hlf : rs.lastFailedStep = some FailedStep.reviewing)
    (hgp : optTruthy rs.generatedPrompt = true)
    (hk : rs.iteration = k) (hklt : k < rs.maxIterations)
    (hrun : orchestrate env fuel feature opts (some rs) sid cnt = some ((stF, cntF), t)) :
    (∃ rest, t.invocations = ⟨Role.reviewer, k, rs.feature⟩ :: rest ∧
      ∀ v ∈ rest, k + 2 ≤ v.iteration) ∧
    ((env.reviewer cnt.revCount).success = true →
      isApproved (env.reviewer cnt.revCount).output = true →
      stF.status = Status.approved ∧ stF.iteration = k ∧
      t.invocations = [⟨Role.reviewer, k, rs.feature⟩]) ∧
    ((env.reviewer cnt.revCount).success = true →
      isApproved (env.reviewer cnt.revCount).output = false →
      k + 1 ≤ stF.iteration) := by
  subst hk
  have hPP : promptPhase env opts rs cnt =
      (.ok (rs.generatedPrompt.getD "") rs cnt,
        emitT .log rs.id (.logMsg "info" "Using saved prompt from previous session")) := by
    unfold promptPhase
    rw [if_pos hgp]
  unfold orchestrate at hrun
  dsimp only at hrun
  rw [hPP] at hrun
  dsimp only at hrun
  rw [hlf] at hrun
  unfold mainLoop at hrun
  rw [if_pos hklt] at hrun
  unfold loopBody at hrun
  dsimp only at hrun
  have hsk : (some FailedStep.reviewing == some FailedStep.reviewing &&
      rs.iteration == rs.iteration) = true := by simp
  rw [hsk, if_pos rfl] at hrun
  rw [implPhase_skip] at hrun
  dsimp only at hrun
  unfold reviewPhase at hrun
  dsimp only at hrun
  rcases hs : (env.reviewer cnt.revCount).success with _ | _
  · -- reviewer failed: early failed return
    rw [if_pos hs] at hrun
    dsimp only at hrun
    simp only [Option.some.injEq, Prod.mk.injEq] at hrun
    obtain ⟨⟨rfl, rfl⟩, rfl⟩ := hrun
    refine ⟨⟨[], by simp [emitT, invokeT, saveT, Trace.nil], by simp⟩, ?_, ?_⟩
    · intro h1 h2
      exact Bool.noConfusion h1
    · intro h1 h2
      exact Bool.noConfusion h1
  · rw [if_neg (by simp [hs])] at hrun
    rcases happ : isApproved (env.reviewer cnt.revCount).output with _ | _
    · -- changes requested: the loop continues at iteration k + 1
      rw [happ, if_neg (by simp)] at hrun
      rw [if_pos rfl] at hrun
      obtain ⟨F, hF⟩ : ∃ F, rs.maxIterations - rs.iteration = F + 1 :=
        ⟨rs.maxIterations - rs.iteration - 1, by omega⟩
      rw [hF] at hrun
      dsimp only at hrun
      split at hrun
      · simp at hrun
      case _ st3 cnt3 t2 heq =>
        split at heq
        · cases heq
        case _ e2 t2b hML =>
          simp only [Option.some.injEq, Prod.mk.injEq] at heq
          obtain ⟨he, ht2⟩ := heq
          subst he
          subst ht2
          obtain ⟨mIv, mMono, _⟩ := mainLoop_none_spec hML
          simp only [Option.some.injEq, Prod.mk.injEq] at hrun
          obtain ⟨⟨rfl, rfl⟩, rfl⟩ := hrun
          refine ⟨⟨t2b.invocations, ?_, fun v hv => mIv v hv⟩, ?_, ?_⟩
          · rcases hv : opts.verbose with _ | _ <;>
              simp [emitT, invokeT, saveT, Trace.nil, hv]
          · intro h1 h2
            exact Bool.noConfusion h2
          · intro h1 h2
            exact mMono
      case _ st3 cnt3 t2 heq =>
        split at heq
        · cases heq
        case _ e2 t2b hML =>
          simp only [Option.some.injEq, Prod.mk.injEq] at heq
          obtain ⟨he, ht2⟩ := heq
          subst he
          subst ht2
          obtain ⟨mIv, mMono, _⟩ := mainLoop_none_spec hML
          rw [if_neg (by simp [hni])] at hrun
          simp only [Option.some.injEq, Prod.mk.injEq] at hrun
          obtain ⟨⟨rfl, rfl⟩, rfl⟩ := hrun
          refine ⟨⟨t2b.invocations, ?_, fun v hv => mIv v hv⟩, ?_, ?_⟩
          · rcases hv : opts.verbose with _ | _ <;>
              simp [emitT, invokeT, saveT, Trace.nil, hv]
          · intro h1 h2
            exact Bool.noConfusion h2
          · intro h1 h2
            exact mMono
    · -- approved: the run ends at iteration k
      rw [happ, if_pos rfl] at hrun
      dsimp only at hrun
      simp only [Option.some.injEq, Prod.mk.injEq] at hrun
      obtain ⟨⟨rfl, rfl⟩, rfl⟩ := hrun
      refine ⟨⟨[], ?_, by simp⟩, ?_, ?_⟩
      · rcases hv : opts.verbose with _ | _ <;>
          simp [emitT, invokeT, saveT, Trace.nil, hv]
      · intro h1 h2
        refine ⟨rfl, rfl, ?_⟩
        rcases hv : opts.verbose with _ | _ <;>
          simp [emitT, invokeT, saveT, Trace.nil, hv]
      · intro h1 h2
        exact Bool.noConfusion h2

theorem C1_witness :
    optsNI3.interactive = false ∧
    rsReviewing.lastFailedStep = some FailedStep.reviewing ∧
    optTruthy rsReviewing.generatedPrompt = true ∧
    rsReviewing.iteration = 1 ∧ 1 < rsReviewing.maxIterations ∧
    ∃ r, orchestrate envApprove 1 "F" optsNI3 (some rsReviewing) none Counters.zero = some r ∧
      (∃ rest, r.2.invocations = ⟨Role.reviewer, 1, rsReviewing.feature⟩ :: rest ∧
        ∀ v ∈ rest, 1 + 2 ≤ v.iteration) ∧
      ((envApprove.reviewer Counters.zero.revCount).success = true →
        isApproved (envApprove.reviewer Counters.zero.revCount).output = true →
        r.1.1.status = Status.approved ∧ r.1.1.iteration = 1 ∧
        r.2.invocations = [⟨Role.reviewer, 1, rsReviewing.feature⟩]) := by
  refine ⟨rfl, rfl, rfl, rfl, by decide, ?_⟩
  obtain ⟨r, hr⟩ := Option.isSome_iff_exists.mp (by rfl :
    (orchestrate envApprove 1 "F" optsNI3 (some rsReviewing) none Counters.zero).isSome = true)
  rcases r with ⟨⟨stF, cntF⟩, t⟩
  obtain ⟨w1, w2, w3⟩ := C1_resume_review_amended envApprove 1 "F" optsNI3 rsReviewing none
    Counters.zero stF cntF t 1 rfl rfl rfl rfl (by decide) hr
  exact ⟨((stF, cntF), t), hr, w1, w2⟩

end Orch
